import Mathlib

/-!
# LRU cache (cache.c / cache.h): shallow embedding

The C program keeps its entries on the heap and links them with raw pointers
(`next`, `prev`, `chain`).  The embedding keeps that shape:

* a pointer is `Option Nat` (`none` is `NULL`, `some a` is the address `a`);
* the heap of entries is a list of cells indexed by address, a cell being
  `none` when it has been freed; `calloc` returns the first address never used;
* every function of `cache.c` becomes a function on `State` (heap plus the
  `lru_cache_t` record) returning `Option`: `none` stands for an execution
  with no defined result (a dereference of `NULL` or of a freed cell, an
  access outside the bucket array, a remainder by zero, a loop that never
  ends);
* the two loops that follow `chain` pointers take a bound on their iterations,
  the number of cells of the heap plus one: a walk that is longer revisits a
  cell and never ends.

The `lru` argument of the C functions is the cache held in the state, so the
`!lru` tests of the source are not represented.  `int` fields are `Int`; the
only arithmetic on them is `list_count++`, `list_count--`, `list_limit--` and
the remainder of `HASH`, which is the truncating remainder of C: for a
negative key it is negative or zero.

The file has the definitions first (the program, the observations, the
sequences of calls, the predicates and states the proofs use), then the
lemmas, then one theorem for each claim.
-/

namespace LRU

/-! ## Status codes (cache.h) -/

def LRU_SUCCESS : Nat := 0

def LRU_ERROR_NULL : Nat := 1

def LRU_ERROR_ALLOC : Nat := 2

def LRU_ERROR_NOT_FOUND : Nat := 3

def LRU_ERROR_FULL : Nat := 4

/-- The macro `HASH(key,size) key % size`: the remainder of C, truncating toward zero. -/
def HASH (key size : Int) : Int := Int.tmod key size

/-! ## Structures (cache.h) -/

/-- The struct `lru_entry_t`. -/
structure lru_entry_t where
  key : Int
  value : Int
  next : Option Nat
  prev : Option Nat
  chain : Option Nat
  deriving DecidableEq, Repr

/-- The struct `lru_cache_t`; `bucket` is the array obtained from `calloc`. -/
structure lru_cache_t where
  bucket : List (Option Nat)
  head : Option Nat
  tail : Option Nat
  bucket_count : Int
  list_count : Int
  list_limit : Int
  deriving DecidableEq, Repr

/-- The heap of entries together with the cache record. -/
structure State where
  mem : List (Option lru_entry_t)
  lru : lru_cache_t
  deriving DecidableEq, Repr

/-- The entry a pointer points to; `none` for `NULL` and for a cell that is not allocated. -/
def load (mem : List (Option lru_entry_t)) (p : Option Nat) : Option lru_entry_t :=
  match p with
  | none => none
  | some a => mem.getD a none

/-- The assignment `p->field = ...`, given as the change `f` of the entry; undefined through
`NULL` or a cell that is not allocated. -/
def store (s : State) (p : Option Nat) (f : lru_entry_t → lru_entry_t) : Option State :=
  match p with
  | none => none
  | some a =>
    match load s.mem (some a) with
    | none => none
    | some e => some { s with mem := s.mem.set a (some (f e)) }

/-- The index `HASH(key, lru->bucket_count)` as a position of the bucket array; undefined
when `bucket_count` is zero or the index falls outside the array. -/
def bucket_index (c : lru_cache_t) (key : Int) : Option Nat :=
  if c.bucket_count = 0 then none
  else if 0 ≤ HASH key c.bucket_count ∧ (HASH key c.bucket_count).toNat < c.bucket.length then
    some (HASH key c.bucket_count).toNat
  else none

/-- The loop `while (bucket->chain) { if (bucket->chain == entry) break; else bucket = bucket->chain; }`
of `static_pop_bucket`; the result is the final value of `bucket`. -/
def pop_bucket_loop : Nat → List (Option lru_entry_t) → Nat → Nat → Option Nat
  | 0, _, _, _ => none
  | fuel + 1, mem, bucket, entry =>
    match load mem (some bucket) with
    | none => none
    | some b =>
      match b.chain with
      | none => some bucket
      | some c => if c = entry then some bucket else pop_bucket_loop fuel mem c entry

/-- A bound on the number of iterations of a loop that follows `chain` pointers: a walk that
visits more cells than the heap has never ends. -/
def fuel_of (s : State) : Nat := s.mem.length + 1

/-- The function `static_pop_bucket`. -/
def static_pop_bucket (s : State) (entry : Nat) : Option (Nat × State) :=
  -- int index = HASH(entry->key,lru->bucket_count);
  match load s.mem (some entry) with
  | none => none
  | some e =>
    match bucket_index s.lru e.key with
    | none => none
    | some index =>
      -- lru_entry_t *bucket = lru->bucket[index];
      match s.lru.bucket[index]? with
      | none => none
      -- if (!bucket) return LRU_ERROR_NOT_FOUND;
      | some none => some (LRU_ERROR_NOT_FOUND, s)
      | some (some bucket) =>
        -- else if (bucket == entry) lru->bucket[index] = bucket->chain;
        if bucket = entry then
          match load s.mem (some bucket) with
          | none => none
          | some b =>
            -- entry->chain = NULL; return LRU_SUCCESS;
            store { s with lru := { s.lru with bucket := s.lru.bucket.set index b.chain } }
              (some entry) (fun x => { x with chain := none }) |>.map (fun s2 => (LRU_SUCCESS, s2))
        else
          -- while (bucket->chain) ...
          match pop_bucket_loop (fuel_of s) s.mem bucket entry with
          | none => none
          | some bucket2 =>
            match load s.mem (some bucket2) with
            | none => none
            | some b2 =>
              -- if (!bucket->chain && bucket != entry) return LRU_ERROR_NOT_FOUND;
              if b2.chain = none ∧ bucket2 ≠ entry then some (LRU_ERROR_NOT_FOUND, s)
              else
                -- bucket->chain = entry->chain;
                match store s (some bucket2) (fun x => { x with chain := e.chain }) with
                | none => none
                | some s1 =>
                  -- entry->chain = NULL; return LRU_SUCCESS;
                  store s1 (some entry) (fun x => { x with chain := none })
                    |>.map (fun s2 => (LRU_SUCCESS, s2))

/-- The four cases of `static_pop_list`, before the entry's own links are cleared. -/
def static_pop_list_unlink (s : State) (entry : Nat) : Option State :=
  -- if (entry == lru->head && entry == lru->tail) { lru->head = NULL; lru->tail = NULL; }
  if some entry = s.lru.head ∧ some entry = s.lru.tail then
    some { s with lru := { s.lru with head := none, tail := none } }
  -- else if (entry == lru->head) { lru->head = entry->next; lru->head->prev = NULL; }
  else if some entry = s.lru.head then
    match load s.mem (some entry) with
    | none => none
    | some e =>
      store { s with lru := { s.lru with head := e.next } } e.next (fun x => { x with prev := none })
  -- else if (entry == lru->tail) { lru->tail = entry->prev; lru->tail->next = NULL; }
  else if some entry = s.lru.tail then
    match load s.mem (some entry) with
    | none => none
    | some e =>
      store { s with lru := { s.lru with tail := e.prev } } e.prev (fun x => { x with next := none })
  -- else { entry->prev->next = entry->next; entry->next->prev = entry->prev; }
  else
    match load s.mem (some entry) with
    | none => none
    | some e =>
      match store s e.prev (fun x => { x with next := e.next }) with
      | none => none
      | some s1 =>
        match load s1.mem (some entry) with
        | none => none
        | some e1 => store s1 e1.next (fun x => { x with prev := e1.prev })

/-- The function `static_pop_list`. -/
def static_pop_list (s : State) (entry : Nat) : Option State :=
  match static_pop_list_unlink s entry with
  | none => none
  | some s1 =>
    -- entry->next = NULL;
    match store s1 (some entry) (fun x => { x with next := none }) with
    | none => none
    | some s2 =>
      -- entry->prev = NULL;
      match store s2 (some entry) (fun x => { x with prev := none }) with
      | none => none
      -- lru->list_count--;
      | some s3 => some { s3 with lru := { s3.lru with list_count := s3.lru.list_count - 1 } }

/-- The function `lru_cache_pop`. -/
def lru_cache_pop (s : State) (entry : Option Nat) : Option (Nat × State) :=
  match entry with
  -- if (!lru || !entry) return LRU_ERROR_NULL;
  | none => some (LRU_ERROR_NULL, s)
  | some a =>
    -- char lru_error = static_pop_bucket(lru,entry);
    match static_pop_bucket s a with
    | none => none
    | some (lru_error, s1) =>
      -- if (lru_error) return lru_error;
      if lru_error ≠ 0 then some (lru_error, s1)
      else
        -- static_pop_list(lru,entry); return LRU_SUCCESS;
        match static_pop_list s1 a with
        | none => none
        | some s2 => some (LRU_SUCCESS, s2)

/-- The function `lru_cache_push`. -/
def lru_cache_push (s : State) (entry : Option Nat) : Option (Nat × State) :=
  match entry with
  -- if (!lru || !entry) return LRU_ERROR_NULL;
  | none => some (LRU_ERROR_NULL, s)
  | some a =>
    -- if (lru->list_count >= lru->list_limit) return LRU_ERROR_FULL;
    if s.lru.list_count ≥ s.lru.list_limit then some (LRU_ERROR_FULL, s)
    else
      -- int index = HASH(entry->key,lru->bucket_count);
      match load s.mem (some a) with
      | none => none
      | some e =>
        match bucket_index s.lru e.key with
        | none => none
        | some index =>
          -- entry->chain = lru->bucket[index];
          match s.lru.bucket[index]? with
          | none => none
          | some b =>
            match store s (some a) (fun x => { x with chain := b }) with
            | none => none
            | some s1 =>
              -- lru->bucket[index] = entry;
              let s2 : State :=
                { s1 with lru := { s1.lru with bucket := s1.lru.bucket.set index (some a) } }
              let s3 : Option State :=
                -- if (lru->head == NULL && lru->tail == NULL) { lru->head = entry; lru->tail = entry; }
                if s2.lru.head = none ∧ s2.lru.tail = none then
                  some { s2 with lru := { s2.lru with head := some a, tail := some a } }
                else
                  -- lru->head->prev = entry;
                  match store s2 s2.lru.head (fun x => { x with prev := some a }) with
                  | none => none
                  | some s21 =>
                    -- entry->next = lru->head;
                    match store s21 (some a) (fun x => { x with next := s21.lru.head }) with
                    | none => none
                    -- lru->head = entry;
                    | some s22 => some { s22 with lru := { s22.lru with head := some a } }
              match s3 with
              | none => none
              | some s4 =>
                -- lru->list_count++; return LRU_SUCCESS;
                some (LRU_SUCCESS,
                  { s4 with lru := { s4.lru with list_count := s4.lru.list_count + 1 } })

/-- The function `lru_cache_create`, both allocations succeeding.  A negative `bucket_count`
makes the size given to `calloc` overflow, so that no cache is returned. -/
def lru_cache_create (bucket_count entry_max : Int) : Option State :=
  if bucket_count < 0 then none
  else
    some
      { mem := []
        lru :=
          { bucket := List.replicate bucket_count.toNat none
            head := none
            tail := none
            bucket_count := bucket_count
            list_count := 0
            list_limit := entry_max } }

/-- The loop of `lru_cache_search`, from the current value of `entry`. -/
def search_loop : Nat → State → Option Nat → Int → Option (Option Nat × State)
  | 0, _, _, _ => none
  | _ + 1, s, none, _ => some (none, s)
  | fuel + 1, s, some a, key =>
    match load s.mem (some a) with
    | none => none
    | some e =>
      -- if (entry->key == key) { lru_cache_pop(lru,entry); lru_cache_push(lru,entry); break; }
      if e.key = key then
        match lru_cache_pop s (some a) with
        | none => none
        | some (_, s1) =>
          match lru_cache_push s1 (some a) with
          | none => none
          | some (_, s2) => some (some a, s2)
      -- else entry = entry->chain;
      else search_loop fuel s e.chain key

/-- The function `lru_cache_search`: the pointer returned and the state afterwards. -/
def lru_cache_search (s : State) (key : Int) : Option (Option Nat × State) :=
  -- int index = HASH(key,lru->bucket_count);
  match bucket_index s.lru key with
  | none => none
  | some index =>
    -- lru_entry_t *entry = lru->bucket[index];
    match s.lru.bucket[index]? with
    | none => none
    -- while (entry) ... return entry;
    | some entry => search_loop (fuel_of s) s entry key

/-- A cell as `calloc` returns it: all fields zero. -/
def zero_entry : lru_entry_t :=
  { key := 0, value := 0, next := none, prev := none, chain := none }

/-- The function `lru_cache_add`; `alloc_ok` says whether `calloc` succeeds if it is called.
A new cell gets the first address that was never used. -/
def lru_cache_add (s : State) (key value : Int) (alloc_ok : Bool) : Option (Nat × State) :=
  -- if (lru->list_count < lru->list_limit) entry = calloc(1,sizeof(lru_entry_t));
  let fresh : Bool := decide (s.lru.list_count < s.lru.list_limit) && alloc_ok
  -- `sel` is the entry chosen with the state at that point: `some none` when there is none
  let sel : Option (Option (Nat × State)) :=
    -- if (entry) lru->list_count++;
    if fresh then
      some (some (s.mem.length,
        { mem := s.mem ++ [some zero_entry]
          lru := { s.lru with list_count := s.lru.list_count + 1 } }))
    else
      match s.lru.tail with
      -- else if (lru->tail) { entry = lru->tail; lru_cache_pop(lru,entry); }
      | some t =>
        match lru_cache_pop s (some t) with
        | none => none
        | some (_, s1) => some (some (t, s1))
      | none => some none
  match sel with
  | none => none
  -- else return LRU_ERROR_ALLOC;
  | some none => some (LRU_ERROR_ALLOC, s)
  | some (some (entry, s1)) =>
    -- entry->key = key;
    match store s1 (some entry) (fun x => { x with key := key }) with
    | none => none
    | some s2 =>
      -- entry->value = value;
      match store s2 (some entry) (fun x => { x with value := value }) with
      | none => none
      | some s3 =>
        -- lru_cache_push(lru,entry); return LRU_SUCCESS;
        match lru_cache_push s3 (some entry) with
        | none => none
        | some (_, s4) => some (LRU_SUCCESS, s4)

/-- The function `lru_cache_remove`. -/
def lru_cache_remove (s : State) (key : Int) : Option State :=
  -- lru_entry_t *entry = lru_cache_search(lru,key);
  match lru_cache_search s key with
  | none => none
  | some (none, s1) => some s1
  -- if (entry) { lru_cache_pop(lru,entry); free(entry); lru->list_limit--; }
  | some (some a, s1) =>
    match lru_cache_pop s1 (some a) with
    | none => none
    | some (_, s2) =>
      some { mem := s2.mem.set a none
             lru := { s2.lru with list_limit := s2.lru.list_limit - 1 } }

/-! ## Observations (the walks of `lru_cache_print_list` and `lru_cache_print_buckets`) -/

/-- The addresses met from `p` along `next`, as `lru_cache_print_list` visits them. -/
def walk_next : Nat → List (Option lru_entry_t) → Option Nat → List Nat
  | 0, _, _ => []
  | _ + 1, _, none => []
  | fuel + 1, mem, some a =>
    match load mem (some a) with
    | none => []
    | some e => a :: walk_next fuel mem e.next

/-- The addresses met from `p` along `chain`, as `lru_cache_print_buckets` visits them. -/
def walk_chain : Nat → List (Option lru_entry_t) → Option Nat → List Nat
  | 0, _, _ => []
  | _ + 1, _, none => []
  | fuel + 1, mem, some a =>
    match load mem (some a) with
    | none => []
    | some e => a :: walk_chain fuel mem e.chain

/-- The recency list: the entries reachable from `head` via `next`, most recent first. -/
def recency (s : State) : List Nat := walk_next (fuel_of s) s.mem s.lru.head

/-- The chain of bucket `i`. -/
def chain_of (s : State) (i : Nat) : List Nat :=
  walk_chain (fuel_of s) s.mem (s.lru.bucket.getD i none)

/-- The key stored at an address (0 when the cell is not allocated). -/
def key_at (s : State) (a : Nat) : Int :=
  match load s.mem (some a) with
  | none => 0
  | some e => e.key

/-- The value stored at an address (0 when the cell is not allocated). -/
def value_at (s : State) (a : Nat) : Int :=
  match load s.mem (some a) with
  | none => 0
  | some e => e.value

/-- The keys of the recency list, most recent first. -/
def recency_keys (s : State) : List Int := (recency s).map (key_at s)

/-! ## Sequences of calls -/

/-- A call of the public interface. -/
inductive Op where
  | add (key value : Int) (alloc_ok : Bool)
  | search (key : Int)
  | remove (key : Int)
  deriving DecidableEq, Repr

/-- The state after one call. -/
def apply_op (s : State) : Op → Option State
  | Op.add key value alloc_ok => (lru_cache_add s key value alloc_ok).map Prod.snd
  | Op.search key => (lru_cache_search s key).map Prod.snd
  | Op.remove key => lru_cache_remove s key

/-- The state after a sequence of calls, each of them with a defined result. -/
def run : State → List Op → Option State
  | s, [] => some s
  | s, op :: ops =>
    match apply_op s op with
    | none => none
    | some s1 => run s1 ops

/-- The states reachable from `lru_cache_create bucket_count entry_max` by calls of
add, search and remove. -/
def Reachable (bucket_count entry_max : Int) (s : State) : Prop :=
  ∃ s0 ops, lru_cache_create bucket_count entry_max = some s0 ∧ run s0 ops = some s

/-- Whether a call is a call of add. -/
def Op.is_add : Op → Bool
  | Op.add _ _ _ => true
  | _ => false

/-- Whether a call is a call of add or of search. -/
def Op.is_add_or_search : Op → Bool
  | Op.remove _ => false
  | _ => true

/-- The states reachable from `lru_cache_create bucket_count entry_max` by calls that are all
`allowed`. -/
def ReachableBy (allowed : Op → Bool) (bucket_count entry_max : Int) (s : State) : Prop :=
  ∃ s0 ops, lru_cache_create bucket_count entry_max = some s0 ∧
    (∀ op ∈ ops, allowed op = true) ∧ run s0 ops = some s

/-! ## Predicates of the proofs -/

/-- Following the pointer field `f` from `p` visits exactly the addresses `l`, in order, and
then arrives at `q`. -/
def IsSeg (f : lru_entry_t → Option Nat) (m : List (Option lru_entry_t)) :
    Option Nat → List Nat → Option Nat → Prop
  | p, [], q => p = q
  | p, a :: l, q => p = some a ∧ ∃ e, load m (some a) = some e ∧ IsSeg f m (f e) l q

/-- Every allocated cell of `m` is allocated in `m1` with the same observation `g`. -/
def Keeps {α : Type} (g : lru_entry_t → α) (m m1 : List (Option lru_entry_t)) : Prop :=
  ∀ c x, load m (some c) = some x → ∃ x1, load m1 (some c) = some x1 ∧ g x1 = g x

/-- The observation kept by the bucket operations: everything but `chain`. -/
def obs_list (x : lru_entry_t) : Int × Int × Option Nat × Option Nat :=
  (x.key, x.value, x.next, x.prev)

/-- The observation kept by the list operations: everything but `next` and `prev`. -/
def obs_chain (x : lru_entry_t) : Int × Int × Option Nat := (x.key, x.value, x.chain)

/-- The observation kept by pop and push: key and value. -/
def obs_kv (x : lru_entry_t) : Int × Int := (x.key, x.value)

/-- The structure invariant of the cache, against the recency list `L` (most recent first)
and the bucket chains `C`: the `next` pointers thread `L` from `head`, the `prev` pointers
thread it backwards from `tail`, bucket `i` holds the chain `C i`, every entry of a chain sits
in the bucket of its key, and the chains hold exactly the entries of the recency list. -/
structure WF (s : State) (L : List Nat) (C : Nat → List Nat) : Prop where
  bc_pos : 0 < s.lru.bucket_count
  bc_len : (s.lru.bucket.length : Int) = s.lru.bucket_count
  nexts : IsSeg lru_entry_t.next s.mem s.lru.head L none
  prevs : IsSeg lru_entry_t.prev s.mem s.lru.tail L.reverse none
  chains : ∀ i, IsSeg lru_entry_t.chain s.mem (s.lru.bucket.getD i none) (C i) none
  hash : ∀ i a, a ∈ C i → bucket_index s.lru (key_at s a) = some i
  mem_iff : ∀ a, a ∈ L ↔ ∃ i, a ∈ C i

/-- A cache is well formed when its pointers describe a recency list and bucket chains. -/
def WellFormed (s : State) : Prop := ∃ L C, WF s L C

/-- The invariant of the states reachable from `lru_cache_create`: the cache is well formed,
`list_count` is at least twice the length of the recency list and at most `list_limit`. -/
structure Inv (s : State) (L : List Nat) (C : Nat → List Nat) : Prop where
  wf : WF s L C
  count_lo : 2 * (L.length : Int) ≤ s.lru.list_count
  count_hi : s.lru.list_count ≤ s.lru.list_limit

/-- A cache with no bucket (`bucket_count = 0`) or with a negative capacity: its lists are
empty, and stay so. -/
def Dead (s : State) : Prop :=
  s.lru.tail = none ∧ (∀ i, s.lru.bucket.getD i none = none) ∧
    (s.lru.bucket_count = 0 ∨ (s.lru.list_limit < 0 ∧ s.lru.list_count = 0))

/-! ## States named in the proofs -/

/-- The state in which `lru_cache_add` calls `lru_cache_push` after a successful `calloc`. -/
def add_fresh_state (s : State) (key value : Int) : State :=
  { mem := s.mem ++ [some { zero_entry with key := key, value := value }]
    lru := { s.lru with list_count := s.lru.list_count + 1 } }

/-- The state in which `lru_cache_add` calls `lru_cache_push` after it has popped the tail
`t` (state `s1`) and written the key and the value into it. -/
def reclaim_state (s1 : State) (t : Nat) (key value : Int) : State :=
  { mem := s1.mem.set t (some { key := key, value := value, next := none, prev := none,
                                chain := none })
    lru := s1.lru }

/-- The state after `lru_cache_push` of the entry `e` at `a` into bucket `i` of a cache whose
recency list is empty. -/
def push_empty_state (s : State) (a i : Nat) (e : lru_entry_t) : State :=
  { mem := s.mem.set a (some { e with chain := s.lru.bucket.getD i none })
    lru := { s.lru with bucket := s.lru.bucket.set i (some a), head := some a, tail := some a,
                        list_count := s.lru.list_count + 1 } }

/-- The state after `lru_cache_push` of the entry `e` at `a` into bucket `i` of a cache whose
head is the entry `ehd` at `hd`. -/
def push_cons_state (s : State) (a i hd : Nat) (e ehd : lru_entry_t) : State :=
  { mem := ((s.mem.set a (some { e with chain := s.lru.bucket.getD i none })).set hd
              (some { ehd with prev := some a })).set a
                (some { e with chain := s.lru.bucket.getD i none, next := some hd })
    lru := { s.lru with bucket := s.lru.bucket.set i (some a), head := some a,
                        list_count := s.lru.list_count + 1 } }

/-! ## States of the examples -/

/-- The state after `add(1,10)`, `add(2,20)`, `search(1)` on `lru_cache_create(4, 4)`. -/
def example_state : State :=
  { mem := [some { key := 1, value := 10, next := some 1, prev := none, chain := none },
            some { key := 2, value := 20, next := none, prev := some 0, chain := none }]
    lru := { bucket := [none, some 0, some 1, none], head := some 0, tail := some 1,
             bucket_count := 4, list_count := 4, list_limit := 4 } }

/-- A cache as `lru_cache_create(4, 4)` returns it, next to one allocated entry with key 1
whose links are all `NULL` and which is in no bucket and not in the recency list. -/
def example_detached : State :=
  { mem := [some { key := 1, value := 10, next := none, prev := none, chain := none }]
    lru := { bucket := [none, none, none, none], head := none, tail := none,
             bucket_count := 4, list_count := 0, list_limit := 4 } }

/-- A cache as `lru_cache_create(4, 4)` returns it, next to one allocated entry with key -1
whose links are all `NULL` and which is in no bucket and not in the recency list. -/
def example_negative : State :=
  { mem := [some { key := -1, value := 10, next := none, prev := none, chain := none }]
    lru := { bucket := List.replicate 4 none, head := none, tail := none,
             bucket_count := 4, list_count := 0, list_limit := 4 } }

/-- The state after `add(1,10)` on `lru_cache_create(4, 2)`: one live entry and
`list_count = list_limit = 2`. -/
def example_full : State :=
  { mem := [some { key := 1, value := 10, next := none, prev := none, chain := none }]
    lru := { bucket := [none, some 0, none, none], head := some 0, tail := some 0,
             bucket_count := 4, list_count := 2, list_limit := 2 } }

/-- The state after `add(1,10)` on `lru_cache_create(4, 4)`. -/
def example_one : State :=
  { mem := [some { key := 1, value := 10, next := none, prev := none, chain := none }]
    lru := { bucket := [none, some 0, none, none], head := some 0, tail := some 0,
             bucket_count := 4, list_count := 2, list_limit := 4 } }

/-- The state `example_one` next to one more allocated entry, at address 1, with the same key
1 and the value 99, whose links are all `NULL` and which is in no bucket and not in the
recency list. -/
def example_duplicate : State :=
  { mem := [some { key := 1, value := 10, next := none, prev := none, chain := none },
            some { key := 1, value := 99, next := none, prev := none, chain := none }]
    lru := { bucket := [none, some 0, none, none], head := some 0, tail := some 0,
             bucket_count := 4, list_count := 2, list_limit := 4 } }

/-! ## Heap lemmas -/

theorem load_some_lt {m : List (Option lru_entry_t)} {a : Nat} {e : lru_entry_t}
    (h : load m (some a) = some e) : a < m.length := by
  by_contra hlt
  simp [load, List.getD_eq_getElem?_getD, List.getElem?_eq_none (Nat.le_of_not_lt hlt)] at h

theorem load_set {m : List (Option lru_entry_t)} {a : Nat} (x : Option lru_entry_t) (b : Nat)
    (h : a < m.length) : load (m.set a x) (some b) = if b = a then x else load m (some b) := by
  simp only [load, List.getD_eq_getElem?_getD, List.getElem?_set]
  by_cases hab : a = b
  · subst hab; simp [h]
  · simp [hab, Ne.symm hab]

theorem load_set_of_ne {m : List (Option lru_entry_t)} {a b : Nat} (x : Option lru_entry_t)
    (h : b ≠ a) : load (m.set a x) (some b) = load m (some b) := by
  simp [load, List.getD_eq_getElem?_getD, List.getElem?_set, Ne.symm h]

theorem load_append_left {m : List (Option lru_entry_t)} {b : Nat} {e : lru_entry_t}
    (l : List (Option lru_entry_t)) (h : load m (some b) = some e) :
    load (m ++ l) (some b) = some e := by
  have hlt := load_some_lt h
  simp only [load, List.getD_eq_getElem?_getD] at h ⊢
  rw [List.getElem?_append_left hlt]; exact h

theorem load_append_new (m : List (Option lru_entry_t)) (x : lru_entry_t) :
    load (m ++ [some x]) (some m.length) = some x := by
  simp [load, List.getD_eq_getElem?_getD]

/-! ## Linked segments -/

theorem IsSeg.append {f : lru_entry_t → Option Nat} {m : List (Option lru_entry_t)}
    {l1 l2 : List Nat} {p q : Option Nat} :
    IsSeg f m p (l1 ++ l2) q ↔ ∃ r, IsSeg f m p l1 r ∧ IsSeg f m r l2 q := by
  induction l1 generalizing p with
  | nil => simp [IsSeg]
  | cons a l ih =>
    constructor
    · rintro ⟨hp, e, he, h⟩
      obtain ⟨r, h1, h2⟩ := ih.mp h
      exact ⟨r, ⟨hp, e, he, h1⟩, h2⟩
    · rintro ⟨r, ⟨hp, e, he, h1⟩, h2⟩
      exact ⟨hp, e, he, ih.mpr ⟨r, h1, h2⟩⟩

theorem IsSeg.frame {f : lru_entry_t → Option Nat} {m m1 : List (Option lru_entry_t)}
    {l : List Nat} {p q : Option Nat}
    (hfr : ∀ b ∈ l, ∀ e, load m (some b) = some e → ∃ e1, load m1 (some b) = some e1 ∧ f e1 = f e)
    (h : IsSeg f m p l q) : IsSeg f m1 p l q := by
  induction l generalizing p with
  | nil => exact h
  | cons a l ih =>
    obtain ⟨hp, e, he, hrest⟩ := h
    obtain ⟨e1, he1, hf⟩ := hfr a (List.mem_cons_self a l) e he
    refine ⟨hp, e1, he1, ?_⟩
    rw [hf]
    exact ih (fun b hb => hfr b (List.mem_cons_of_mem a hb)) hrest

theorem IsSeg.valid {f : lru_entry_t → Option Nat} {m : List (Option lru_entry_t)}
    {l : List Nat} {p q : Option Nat} (h : IsSeg f m p l q) :
    ∀ a ∈ l, ∃ e, load m (some a) = some e := by
  induction l generalizing p with
  | nil => simp
  | cons b l ih =>
    obtain ⟨_, e, he, hrest⟩ := h
    intro a ha
    rcases List.mem_cons.mp ha with rfl | ha
    · exact ⟨e, he⟩
    · exact ih hrest a ha

theorem IsSeg.det {f : lru_entry_t → Option Nat} {m : List (Option lru_entry_t)}
    {l1 l2 : List Nat} {p : Option Nat}
    (h1 : IsSeg f m p l1 none) (h2 : IsSeg f m p l2 none) : l1 = l2 := by
  induction l1 generalizing p l2 with
  | nil =>
    cases l2 with
    | nil => rfl
    | cons b l2 =>
      obtain ⟨hp, _⟩ := h2
      simp only [IsSeg] at h1
      rw [h1] at hp; cases hp
  | cons a l1 ih =>
    obtain ⟨hp, e, he, hrest⟩ := h1
    cases l2 with
    | nil =>
      simp only [IsSeg] at h2
      rw [h2] at hp; cases hp
    | cons b l2 =>
      obtain ⟨hp2, e2, he2, hrest2⟩ := h2
      rw [hp] at hp2
      cases hp2
      rw [he] at he2
      cases he2
      rw [ih hrest hrest2]

theorem IsSeg.nodup {f : lru_entry_t → Option Nat} {m : List (Option lru_entry_t)}
    {l : List Nat} {p : Option Nat} (h : IsSeg f m p l none) : l.Nodup := by
  induction l generalizing p with
  | nil => exact List.nodup_nil
  | cons a l ih =>
    have hall := h
    obtain ⟨hp, e, he, hrest⟩ := h
    refine List.nodup_cons.mpr ⟨?_, ih hrest⟩
    intro ha
    obtain ⟨x, y, hxy⟩ := List.append_of_mem ha
    rw [hxy] at hrest
    obtain ⟨r, _, hr2⟩ := IsSeg.append.mp hrest
    have hr2c := hr2
    obtain ⟨hr, _⟩ := hr2
    rw [hr, ← hp] at hr2c
    have := IsSeg.det hr2c hall
    have hlen := congrArg List.length this
    rw [hxy] at hlen
    simp at hlen
    omega

theorem IsSeg.length_le {f : lru_entry_t → Option Nat} {m : List (Option lru_entry_t)}
    {l : List Nat} {p : Option Nat} (h : IsSeg f m p l none) : l.length ≤ m.length := by
  have hnd := h.nodup
  have hsub : l ⊆ List.range m.length := by
    intro a ha
    obtain ⟨e, he⟩ := h.valid a ha
    exact List.mem_range.mpr (load_some_lt he)
  simpa using (hnd.subperm hsub).length_le

theorem IsSeg.snoc_iff {f : lru_entry_t → Option Nat} {m : List (Option lru_entry_t)}
    {l : List Nat} {b : Nat} {p q : Option Nat} :
    IsSeg f m p (l ++ [b]) q ↔
      IsSeg f m p l (some b) ∧ ∃ e, load m (some b) = some e ∧ f e = q := by
  rw [IsSeg.append]
  constructor
  · rintro ⟨r, h1, hr, e, he, hq⟩
    rw [hr] at h1
    exact ⟨h1, e, he, hq⟩
  · rintro ⟨h1, e, he, hq⟩
    exact ⟨some b, h1, rfl, e, he, hq⟩

/-- Writing a cell outside `l` keeps every cell of `l`. -/
theorem frame_set_notin {f : lru_entry_t → Option Nat} {m : List (Option lru_entry_t)}
    {l : List Nat} {a : Nat} (x : Option lru_entry_t) (ha : a ∉ l) :
    ∀ b ∈ l, ∀ e, load m (some b) = some e →
      ∃ e1, load (m.set a x) (some b) = some e1 ∧ f e1 = f e := by
  intro b hb e he
  have hne : b ≠ a := fun h => ha (h ▸ hb)
  exact ⟨e, by rw [load_set_of_ne x hne]; exact he, rfl⟩

theorem getElem?_eq_some_getD {l : List (Option Nat)} {i : Nat} (h : i < l.length) :
    l[i]? = some (l.getD i none) := by
  simp [List.getD_eq_getElem?_getD, List.getElem?_eq_getElem h]

theorem getD_set {l : List (Option Nat)} {i : Nat} (v : Option Nat) (j : Nat)
    (h : i < l.length) : (l.set i v).getD j none = if j = i then v else l.getD j none := by
  simp only [List.getD_eq_getElem?_getD, List.getElem?_set]
  by_cases hij : i = j
  · subst hij; simp [h]
  · simp [hij, Ne.symm hij]

theorem bucket_index_lt {c : lru_cache_t} {key : Int} {i : Nat}
    (h : bucket_index c key = some i) : i < c.bucket.length := by
  unfold bucket_index at h
  split_ifs at h with h0 h1
  cases h
  exact h1.2

theorem bucket_index_congr {c c1 : lru_cache_t} (key : Int)
    (h1 : c1.bucket_count = c.bucket_count) (h2 : c1.bucket.length = c.bucket.length) :
    bucket_index c1 key = bucket_index c key := by
  simp [bucket_index, h1, h2]

theorem erase_split {pre post : List Nat} {a : Nat} (h : (pre ++ a :: post).Nodup) :
    (pre ++ a :: post).erase a = pre ++ post ∧ a ∉ pre ∧ a ∉ post := by
  have hnd := List.nodup_append.mp h
  have ha1 : a ∉ pre := fun hm => hnd.2.2 hm (List.mem_cons_self a post)
  have ha2 : a ∉ post := (List.nodup_cons.mp hnd.2.1).1
  refine ⟨?_, ha1, ha2⟩
  rw [List.erase_append_right _ ha1, List.erase_cons_head]

/-- The loop of `static_pop_bucket` stops at the predecessor of `entry` in the chain. -/
theorem pop_bucket_loop_spec {m : List (Option lru_entry_t)} {a b : Nat} :
    ∀ (pre : List Nat) (p : Option Nat) (fuel : Nat),
      IsSeg lru_entry_t.chain m p (pre ++ [b]) (some a) → a ∉ pre ++ [b] → pre.length < fuel →
      ∃ x, p = some x ∧ pop_bucket_loop fuel m x a = some b := by
  intro pre
  induction pre with
  | nil =>
    intro p fuel h _ hf
    obtain ⟨hp, e, he, hq⟩ := h
    simp only [IsSeg] at hq
    refine ⟨b, hp, ?_⟩
    obtain ⟨k, rfl⟩ : ∃ k, fuel = k + 1 := ⟨fuel - 1, by omega⟩
    simp [pop_bucket_loop, he, hq]
  | cons y ys ih =>
    intro p fuel h hna hf
    obtain ⟨hp, e, he, hrest⟩ := h
    obtain ⟨k, rfl⟩ : ∃ k, fuel = k + 1 := ⟨fuel - 1, by omega⟩
    have hna1 : a ∉ ys ++ [b] := fun hm => hna (List.mem_cons_of_mem y hm)
    obtain ⟨x, hx, hloop⟩ := ih e.chain k hrest hna1 (by simpa using hf)
    refine ⟨y, hp, ?_⟩
    have hxa : x ≠ a := by
      intro hxa
      apply hna1
      cases ys with
      | nil =>
        have := hrest.1
        rw [hx] at this; cases this
        simp [hxa]
      | cons z zs =>
        have := hrest.1
        rw [hx] at this; cases this
        simp [hxa]
    simp [pop_bucket_loop, he, hx, hxa, hloop]

theorem Keeps.refl {α : Type} (g : lru_entry_t → α) (m : List (Option lru_entry_t)) :
    Keeps g m m := fun _ x hx => ⟨x, hx, rfl⟩

theorem Keeps.trans {α : Type} {g : lru_entry_t → α} {m m1 m2 : List (Option lru_entry_t)}
    (h1 : Keeps g m m1) (h2 : Keeps g m1 m2) : Keeps g m m2 := by
  intro c x hx
  obtain ⟨x1, hx1, hg1⟩ := h1 c x hx
  obtain ⟨x2, hx2, hg2⟩ := h2 c x1 hx1
  exact ⟨x2, hx2, hg2.trans hg1⟩

theorem Keeps.weaken {α β : Type} {g : lru_entry_t → α} (g1 : lru_entry_t → β)
    {m m1 : List (Option lru_entry_t)} (h : Keeps g m m1)
    (hg : ∀ x y, g x = g y → g1 x = g1 y) : Keeps g1 m m1 := by
  intro c x hx
  obtain ⟨x1, hx1, hg1⟩ := h c x hx
  exact ⟨x1, hx1, hg _ _ hg1⟩

theorem Keeps.seg {f : lru_entry_t → Option Nat} {m m1 : List (Option lru_entry_t)}
    {l : List Nat} {p q : Option Nat} (h : Keeps f m m1) (hs : IsSeg f m p l q) :
    IsSeg f m1 p l q :=
  IsSeg.frame (fun b _ e he => h b e he) hs

theorem Keeps.set {α : Type} {g : lru_entry_t → α} {m : List (Option lru_entry_t)} {a : Nat}
    {ea x : lru_entry_t} (ha : load m (some a) = some ea) (hx : g x = g ea) :
    Keeps g m (m.set a (some x)) := by
  intro b e he
  rw [load_set _ _ (load_some_lt ha)]
  by_cases hba : b = a
  · subst hba
    rw [ha] at he; cases he
    exact ⟨x, by simp, hx⟩
  · exact ⟨e, by simp [hba, he], rfl⟩

theorem static_pop_bucket_spec {s : State} {C : Nat → List Nat} {a i : Nat} {e : lru_entry_t}
    (hch : ∀ j, IsSeg lru_entry_t.chain s.mem (s.lru.bucket.getD j none) (C j) none)
    (hdis : ∀ j c, c ∈ C j → c ∈ C i → j = i)
    (he : load s.mem (some a) = some e)
    (hidx : bucket_index s.lru e.key = some i)
    (ha : a ∈ C i) :
    ∃ s1, static_pop_bucket s a = some (LRU_SUCCESS, s1) ∧
      s1.lru.head = s.lru.head ∧ s1.lru.tail = s.lru.tail ∧
      s1.lru.bucket_count = s.lru.bucket_count ∧ s1.lru.list_count = s.lru.list_count ∧
      s1.lru.list_limit = s.lru.list_limit ∧ s1.lru.bucket.length = s.lru.bucket.length ∧
      s1.mem.length = s.mem.length ∧
      (∀ j, IsSeg lru_entry_t.chain s1.mem (s1.lru.bucket.getD j none)
        (if j = i then (C i).erase a else C j) none) ∧
      load s1.mem (some a) = some { e with chain := none } ∧
      Keeps obs_list s.mem s1.mem := by
  have hilt := bucket_index_lt hidx
  have halt := load_some_lt he
  have hnd := (hch i).nodup
  obtain ⟨pre, post, hsplit⟩ := List.append_of_mem ha
  rw [hsplit] at hnd
  obtain ⟨herase, hapre, hapost⟩ := erase_split hnd
  have hci := hch i
  rw [hsplit] at hci
  obtain ⟨r, hpre, hapost_seg⟩ := IsSeg.append.mp hci
  obtain ⟨hr, e1, he1, hpost⟩ := hapost_seg
  rw [he] at he1; cases he1
  subst hr
  -- cells of the other chains are neither `a` nor in chain `i`
  have hother : ∀ j, j ≠ i → ∀ c ∈ C j, c ∉ C i := fun j hj c hc hci => hj (hdis j c hc hci)
  rcases List.eq_nil_or_concat pre with hnil | ⟨pre1, b, hpre1⟩
  · -- `a` is first in its bucket
    subst hnil
    simp only [IsSeg] at hpre
    have hb : s.lru.bucket[i]? = some (some a) := by
      rw [getElem?_eq_some_getD hilt, hpre]
    refine ⟨{ mem := s.mem.set a (some { e with chain := none })
              lru := { s.lru with bucket := s.lru.bucket.set i e.chain } }, ?_, rfl, rfl, rfl,
            rfl, rfl, by simp, by simp, ?_, ?_, ?_⟩
    · simp [static_pop_bucket, he, hidx, hb, store, LRU_SUCCESS]
    · intro j
      simp only [getD_set _ _ hilt]
      by_cases hj : j = i
      · subst hj
        simp only [↓reduceIte]
        rw [hsplit, herase]
        exact IsSeg.frame (frame_set_notin _ hapost) hpost
      · simp only [hj, if_false]
        refine IsSeg.frame (frame_set_notin _ ?_) (hch j)
        exact fun hm => hother j hj a hm ha
    · rw [load_set _ _ halt]; simp
    · exact Keeps.set he rfl
  · -- `a` has a predecessor `b` in its bucket
    rw [List.concat_eq_append] at hpre1
    subst hpre1
    obtain ⟨hpre1seg, eb, heb, hebc⟩ := IsSeg.snoc_iff.mp hpre
    have hblt := load_some_lt heb
    have hba : b ≠ a := fun h => hapre (by simp [h])
    obtain ⟨x, hx, hloop⟩ := pop_bucket_loop_spec pre1 (s.lru.bucket.getD i none) (fuel_of s)
      hpre hapre (by
        have := (hch i).length_le
        rw [hsplit] at this
        simp at this
        simp [fuel_of]; omega)
    have hxa : x ≠ a := by
      intro hxa
      apply hapre
      cases pre1 with
      | nil =>
        have := hpre.1
        rw [hx] at this; cases this
        simp [hxa]
      | cons z zs =>
        have := hpre.1
        rw [hx] at this; cases this
        simp [hxa]
    have hb : s.lru.bucket[i]? = some (some x) := by
      rw [getElem?_eq_some_getD hilt, hx]
    have hea1 : load (s.mem.set b (some { eb with chain := e.chain })) (some a) = some e := by
      rw [load_set_of_ne _ (Ne.symm hba)]; exact he
    refine ⟨{ mem := (s.mem.set b (some { eb with chain := e.chain })).set a
                (some { e with chain := none })
              lru := s.lru }, ?_, rfl, rfl, rfl, rfl, rfl, rfl, by simp, ?_, ?_, ?_⟩
    · simp [static_pop_bucket, he, hidx, hb, hxa, hloop, heb, hebc, store, hea1, LRU_SUCCESS]
    · intro j
      have hnd1 : (pre1 ++ [b]).Nodup := (List.nodup_append.mp hnd).1
      have hbpre1 : b ∉ pre1 := by
        intro hm
        have := (List.nodup_append.mp hnd1).2.2 hm (List.mem_singleton_self b)
        exact this
      have hbpost : b ∉ post := by
        intro hm
        exact (List.nodup_append.mp hnd).2.2 (by simp) (List.mem_cons_of_mem a hm)
      by_cases hj : j = i
      · subst hj
        simp only [↓reduceIte]
        rw [hsplit, herase, IsSeg.append]
        refine ⟨e.chain, ?_, ?_⟩
        · rw [IsSeg.snoc_iff]
          refine ⟨?_, { eb with chain := e.chain }, ?_, rfl⟩
          · refine IsSeg.frame (frame_set_notin _ ?_) (IsSeg.frame (frame_set_notin _ hbpre1) hpre1seg)
            exact fun hm => hapre (by simp [hm])
          · rw [load_set_of_ne _ hba, load_set _ _ hblt]; simp
        · exact IsSeg.frame (frame_set_notin _ hapost) (IsSeg.frame (frame_set_notin _ hbpost) hpost)
      · simp only [hj, if_false]
        have hbi : b ∈ C i := by rw [hsplit]; simp
        refine IsSeg.frame (frame_set_notin _ ?_) (IsSeg.frame (frame_set_notin _ ?_) (hch j))
        · exact fun hm => hother j hj a hm ha
        · exact fun hm => hother j hj b hm hbi
    · rw [load_set _ _ (by simpa using halt)]; simp
    · have h1 : Keeps obs_list s.mem (s.mem.set b (some { eb with chain := e.chain })) :=
        Keeps.set heb rfl
      have h2 : Keeps obs_list (s.mem.set b (some { eb with chain := e.chain }))
          ((s.mem.set b (some { eb with chain := e.chain })).set a
            (some { e with chain := none })) := Keeps.set hea1 rfl
      exact h1.trans h2

theorem IsSeg.head_mem {f : lru_entry_t → Option Nat} {m : List (Option lru_entry_t)}
    {l : List Nat} {p q : Option Nat} (h : IsSeg f m p l q) (hl : l ≠ []) :
    ∃ t, t ∈ l ∧ p = some t := by
  cases l with
  | nil => exact absurd rfl hl
  | cons t l => exact ⟨t, List.mem_cons_self t l, h.1⟩

theorem IsSeg.of_list_eq {f : lru_entry_t → Option Nat} {m : List (Option lru_entry_t)}
    {l : List Nat} {p q : Option Nat} (l1 : List Nat) (hl : l = l1) (h : IsSeg f m p l1 q) :
    IsSeg f m p l q := hl ▸ h

theorem frame_trans {f : lru_entry_t → Option Nat} {m m1 m2 : List (Option lru_entry_t)}
    {l : List Nat}
    (h1 : ∀ c ∈ l, ∀ x, load m (some c) = some x → ∃ x1, load m1 (some c) = some x1 ∧ f x1 = f x)
    (h2 : ∀ c ∈ l, ∀ x, load m1 (some c) = some x → ∃ x1, load m2 (some c) = some x1 ∧ f x1 = f x) :
    ∀ c ∈ l, ∀ x, load m (some c) = some x → ∃ x1, load m2 (some c) = some x1 ∧ f x1 = f x := by
  intro c hc x hx
  obtain ⟨x1, hx1, hf1⟩ := h1 c hc x hx
  obtain ⟨x2, hx2, hf2⟩ := h2 c hc x1 hx1
  exact ⟨x2, hx2, hf2.trans hf1⟩

theorem static_pop_list_unlink_spec {s : State} {L : List Nat} {a : Nat} {e : lru_entry_t}
    (hn : IsSeg lru_entry_t.next s.mem s.lru.head L none)
    (hp : IsSeg lru_entry_t.prev s.mem s.lru.tail L.reverse none)
    (he : load s.mem (some a) = some e) (ha : a ∈ L) :
    ∃ s1, static_pop_list_unlink s a = some s1 ∧ s1.lru.bucket = s.lru.bucket ∧
      s1.lru.bucket_count = s.lru.bucket_count ∧ s1.lru.list_count = s.lru.list_count ∧
      s1.lru.list_limit = s.lru.list_limit ∧ s1.mem.length = s.mem.length ∧
      IsSeg lru_entry_t.next s1.mem s1.lru.head (L.erase a) none ∧
      IsSeg lru_entry_t.prev s1.mem s1.lru.tail (L.erase a).reverse none ∧
      load s1.mem (some a) = some e ∧ Keeps obs_chain s.mem s1.mem := by
  have hnd := hn.nodup
  have halt := load_some_lt he
  obtain ⟨pre, post, hsplit⟩ := List.append_of_mem ha
  subst hsplit
  obtain ⟨herase, hapre, hapost⟩ := erase_split hnd
  rw [herase]
  have hrev : (pre ++ a :: post).reverse = post.reverse ++ a :: pre.reverse := by simp
  rw [hrev] at hp
  have hrev1 : (pre ++ post).reverse = post.reverse ++ pre.reverse := by simp
  rw [hrev1]
  obtain ⟨r, hn1, hn2⟩ := IsSeg.append.mp hn
  obtain ⟨hr, e1, he1, hn3⟩ := hn2
  rw [he] at he1; cases he1
  subst hr
  obtain ⟨r, hp1, hp2⟩ := IsSeg.append.mp hp
  obtain ⟨hr, e1, he1, hp3⟩ := hp2
  rw [he] at he1; cases he1
  subst hr
  have hnd1 := List.nodup_append.mp hnd
  rcases List.eq_nil_or_concat pre with hpre | ⟨pre1, b, hpre⟩
  · subst hpre
    have hh : s.lru.head = some a := hn1
    rcases post with _ | ⟨n, post1⟩
    · -- the only entry
      have ht : s.lru.tail = some a := hp1
      refine ⟨{ s with lru := { s.lru with head := none, tail := none } }, ?_, rfl, rfl, rfl, rfl,
        rfl, rfl, rfl, he, Keeps.refl _ _⟩
      simp [static_pop_list_unlink, hh, ht]
    · -- the head, with successor `n`
      have hen : e.next = some n := hn3.1
      obtain ⟨_, en, hen1, hn4⟩ := hn3
      have hna : n ≠ a := fun h => hapost (by simp [h])
      rw [List.reverse_cons] at hp1
      obtain ⟨hp4, en2, hen2, henp⟩ := IsSeg.snoc_iff.mp hp1
      rw [hen1] at hen2; cases hen2
      have hepv : e.prev = none := hp3
      have ht : ¬ (some a = s.lru.tail) := by
        obtain ⟨t, htm, hts⟩ := hp1.head_mem (by simp)
        rw [hts]
        intro h; cases h
        apply hapost
        simp at htm ⊢
        tauto
      have hnpost1 : n ∉ post1 := (List.nodup_cons.mp (List.nodup_cons.mp hnd1.2.1).2).1
      refine ⟨{ mem := s.mem.set n (some { en with prev := none })
                lru := { s.lru with head := some n } }, ?_, rfl, rfl, rfl, rfl, by simp, ?_, ?_, ?_,
              Keeps.set hen1 rfl⟩
      · simp [static_pop_list_unlink, hh, ht, he, hen, store, hen1]
      · exact Keeps.seg (Keeps.set hen1 rfl) ⟨rfl, en, hen1, hn4⟩
      · refine IsSeg.of_list_eq (post1.reverse ++ [n]) (by simp) ?_
        refine IsSeg.snoc_iff.mpr ⟨IsSeg.frame (frame_set_notin _ (by simpa using hnpost1)) hp4,
          { en with prev := none }, ?_, rfl⟩
        rw [load_set _ _ (load_some_lt hen1)]; simp
      · rw [load_set_of_ne _ (Ne.symm hna)]; exact he
  · rw [List.concat_eq_append] at hpre
    subst hpre
    have hba : b ≠ a := fun h => hapre (by simp [h])
    obtain ⟨hn4, eb, heb, hebn⟩ := IsSeg.snoc_iff.mp hn1
    have hh : ¬ (some a = s.lru.head) := by
      obtain ⟨t, htm, hts⟩ := hn1.head_mem (by simp)
      rw [hts]
      intro h; cases h
      exact hapre htm
    rw [List.reverse_append, List.reverse_singleton, List.singleton_append] at hp3
    have hepv : e.prev = some b := hp3.1
    obtain ⟨_, eb2, heb2, hp5⟩ := hp3
    rw [heb] at heb2; cases heb2
    have hbpre1 : b ∉ pre1 := by
      intro hm
      exact (List.nodup_append.mp hnd1.1).2.2 hm (List.mem_singleton_self b)
    rcases post with _ | ⟨n, post1⟩
    · -- the tail, with predecessor `b`
      have ht : s.lru.tail = some a := hp1
      have henx : e.next = none := hn3
      refine ⟨{ mem := s.mem.set b (some { eb with next := none })
                lru := { s.lru with tail := some b } }, ?_, rfl, rfl, rfl, rfl, by simp, ?_, ?_, ?_,
              Keeps.set heb rfl⟩
      · simp [static_pop_list_unlink, hh, ht, he, hepv, store, heb]
      · refine IsSeg.of_list_eq (pre1 ++ [b]) (by simp) ?_
        refine IsSeg.snoc_iff.mpr ⟨IsSeg.frame (frame_set_notin _ hbpre1) hn4,
          { eb with next := none }, ?_, rfl⟩
        rw [load_set _ _ (load_some_lt heb)]; simp
      · refine IsSeg.of_list_eq (b :: pre1.reverse) (by simp) ?_
        exact Keeps.seg (Keeps.set heb rfl) ⟨rfl, eb, heb, hp5⟩
      · rw [load_set_of_ne _ (Ne.symm hba)]; exact he
    · -- in the middle, between `b` and `n`
      have hen : e.next = some n := hn3.1
      obtain ⟨_, en, hen1, hn5⟩ := hn3
      have hna : n ≠ a := fun h => hapost (by simp [h])
      have hnb : n ≠ b := by
        intro h
        exact hnd1.2.2 (show b ∈ pre1 ++ [b] by simp) (by simp [h])
      have ht : ¬ (some a = s.lru.tail) := by
        obtain ⟨t, htm, hts⟩ := hp1.head_mem (by simp)
        rw [hts]
        intro h; cases h
        apply hapost
        simp at htm ⊢
        tauto
      rw [List.reverse_cons] at hp1
      obtain ⟨hp4, en2, hen2, henp⟩ := IsSeg.snoc_iff.mp hp1
      rw [hen1] at hen2; cases hen2
      have hnpost1 : n ∉ post1 := (List.nodup_cons.mp (List.nodup_cons.mp hnd1.2.1).2).1
      have hea1 : load (s.mem.set b (some { eb with next := some n })) (some a) = some e := by
        rw [load_set_of_ne _ (Ne.symm hba)]; exact he
      have hen2 : load (s.mem.set b (some { eb with next := some n })) (some n) = some en := by
        rw [load_set_of_ne _ hnb]; exact hen1
      have hk1 : Keeps obs_chain s.mem (s.mem.set b (some { eb with next := some n })) :=
        Keeps.set heb rfl
      have hk2 : Keeps obs_chain (s.mem.set b (some { eb with next := some n }))
          ((s.mem.set b (some { eb with next := some n })).set n (some { en with prev := some b })) :=
        Keeps.set hen2 rfl
      have hnpre : n ∉ pre1 ++ [b] := fun hm => hnd1.2.2 hm (by simp)
      have hbpost : b ∉ n :: post1 := fun hm => hnd1.2.2 (show b ∈ pre1 ++ [b] by simp)
        (List.mem_cons_of_mem a hm)
      refine ⟨{ mem := (s.mem.set b (some { eb with next := some n })).set n
                  (some { en with prev := some b })
                lru := s.lru }, ?_, rfl, rfl, rfl, rfl, by simp, ?_, ?_, ?_, hk1.trans hk2⟩
      · simp [static_pop_list_unlink, hh, ht, he, hepv, store, heb, hea1, hen, hen2]
      · -- next
        refine IsSeg.append.mpr ⟨some n, ?_, ?_⟩
        · refine IsSeg.snoc_iff.mpr ⟨?_, { eb with next := some n }, ?_, rfl⟩
          · refine IsSeg.frame (frame_set_notin _ ?_) (IsSeg.frame (frame_set_notin _ hbpre1) hn4)
            exact fun hm => hnpre (List.mem_append_left _ hm)
          · rw [load_set_of_ne _ (Ne.symm hnb), load_set _ _ (load_some_lt heb)]; simp
        · refine Keeps.seg (Keeps.set hen2 rfl) (IsSeg.frame (frame_set_notin _ hbpost) ?_)
          exact ⟨rfl, en, hen1, hn5⟩
      · -- prev
        refine IsSeg.of_list_eq ((post1.reverse ++ [n]) ++ b :: pre1.reverse) (by simp) ?_
        refine IsSeg.append.mpr ⟨some b, ?_, ?_⟩
        · refine IsSeg.snoc_iff.mpr ⟨?_, { en with prev := some b }, ?_, rfl⟩
          · refine IsSeg.frame (frame_set_notin _ (by simpa using hnpost1))
              (IsSeg.frame (frame_set_notin _ ?_) hp4)
            intro hm
            exact hbpost (List.mem_cons_of_mem n (by simpa using hm))
          · rw [load_set _ _ (by simpa using load_some_lt hen1)]; simp
        · refine IsSeg.frame (frame_set_notin _ ?_) (Keeps.seg (Keeps.set heb rfl) ?_)
          · intro hm
            apply hnpre
            simp at hm ⊢
            tauto
          · exact ⟨rfl, eb, heb, hp5⟩
      · rw [load_set_of_ne _ (Ne.symm hna)]; exact hea1

theorem static_pop_list_spec {s : State} {L : List Nat} {a : Nat} {e : lru_entry_t}
    (hn : IsSeg lru_entry_t.next s.mem s.lru.head L none)
    (hp : IsSeg lru_entry_t.prev s.mem s.lru.tail L.reverse none)
    (he : load s.mem (some a) = some e) (ha : a ∈ L) :
    ∃ s1, static_pop_list s a = some s1 ∧ s1.lru.bucket = s.lru.bucket ∧
      s1.lru.bucket_count = s.lru.bucket_count ∧ s1.lru.list_count = s.lru.list_count - 1 ∧
      s1.lru.list_limit = s.lru.list_limit ∧ s1.mem.length = s.mem.length ∧
      IsSeg lru_entry_t.next s1.mem s1.lru.head (L.erase a) none ∧
      IsSeg lru_entry_t.prev s1.mem s1.lru.tail (L.erase a).reverse none ∧
      load s1.mem (some a) = some { e with next := none, prev := none } ∧
      Keeps obs_chain s.mem s1.mem := by
  obtain ⟨s1, hrun, hb, hbc, hlc, hll, hlen, hn1, hp1, he1, hk⟩ :=
    static_pop_list_unlink_spec hn hp he ha
  have hnot : a ∉ L.erase a := fun hm => ((hn.nodup).mem_erase_iff.mp hm).1 rfl
  have hnotr : a ∉ (L.erase a).reverse := fun hm => hnot (List.mem_reverse.mp hm)
  have halt := load_some_lt he1
  have he2 : load (s1.mem.set a (some { e with next := none })) (some a) =
      some { e with next := none } := by
    rw [load_set _ _ halt]; simp
  refine ⟨{ mem := (s1.mem.set a (some { e with next := none })).set a
              (some { e with next := none, prev := none })
            lru := { s1.lru with list_count := s1.lru.list_count - 1 } }, ?_, hb, hbc, ?_, hll,
          by simpa using hlen, ?_, ?_, ?_, ?_⟩
  · simp [static_pop_list, hrun, store, he1, he2]
  · simp [hlc]
  · exact IsSeg.frame (frame_set_notin _ hnot) (IsSeg.frame (frame_set_notin _ hnot) hn1)
  · exact IsSeg.frame (frame_set_notin _ hnotr) (IsSeg.frame (frame_set_notin _ hnotr) hp1)
  · rw [load_set _ _ (by simpa using halt)]; simp
  · have h1 : Keeps obs_chain s1.mem (s1.mem.set a (some { e with next := none })) :=
      Keeps.set he1 rfl
    have h2 : Keeps obs_chain (s1.mem.set a (some { e with next := none }))
        ((s1.mem.set a (some { e with next := none })).set a
          (some { e with next := none, prev := none })) := Keeps.set he2 rfl
    exact hk.trans (h1.trans h2)

/-! ## Lemmas on well-formed caches -/

theorem key_at_eq {s : State} {a : Nat} {e : lru_entry_t} (h : load s.mem (some a) = some e) :
    key_at s a = e.key := by
  simp [key_at, h]

theorem value_at_eq {s : State} {a : Nat} {e : lru_entry_t} (h : load s.mem (some a) = some e) :
    value_at s a = e.value := by
  simp [value_at, h]

theorem Keeps.key_at {s s1 : State} {a : Nat} {e : lru_entry_t} (h : Keeps obs_kv s.mem s1.mem)
    (he : load s.mem (some a) = some e) : key_at s1 a = key_at s a ∧ value_at s1 a = value_at s a := by
  obtain ⟨e1, he1, hobs⟩ := h a e he
  simp only [obs_kv, Prod.mk.injEq] at hobs
  rw [key_at_eq he1, key_at_eq he, value_at_eq he1, value_at_eq he]
  exact hobs

theorem WF.allocated {s : State} {L : List Nat} {C : Nat → List Nat} (h : WF s L C) {a : Nat}
    (ha : a ∈ L) : ∃ e, load s.mem (some a) = some e :=
  h.nexts.valid a ha

theorem WF.chain_unique {s : State} {L : List Nat} {C : Nat → List Nat} (h : WF s L C)
    {i j a : Nat} (hi : a ∈ C i) (hj : a ∈ C j) : j = i := by
  have h1 := h.hash i a hi
  have h2 := h.hash j a hj
  rw [h1] at h2
  exact (Option.some.inj h2).symm

theorem WF.index_of_mem {s : State} {L : List Nat} {C : Nat → List Nat} (h : WF s L C)
    {a : Nat} {e : lru_entry_t} (ha : a ∈ L) (he : load s.mem (some a) = some e) :
    ∃ i, bucket_index s.lru e.key = some i ∧ a ∈ C i := by
  obtain ⟨i, hi⟩ := (h.mem_iff a).mp ha
  refine ⟨i, ?_, hi⟩
  have := h.hash i a hi
  rwa [key_at_eq he] at this

/-- The effect of `lru_cache_pop` on a well-formed cache, for an entry of the recency list. -/
theorem lru_cache_pop_spec {s : State} {L : List Nat} {C : Nat → List Nat} {a : Nat}
    (h : WF s L C) (ha : a ∈ L) :
    ∃ s1 e i, load s.mem (some a) = some e ∧ bucket_index s.lru e.key = some i ∧ a ∈ C i ∧
      lru_cache_pop s (some a) = some (LRU_SUCCESS, s1) ∧
      WF s1 (L.erase a) (fun j => if j = i then (C i).erase a else C j) ∧
      load s1.mem (some a) = some { e with next := none, prev := none, chain := none } ∧
      s1.lru.list_count = s.lru.list_count - 1 ∧ s1.lru.list_limit = s.lru.list_limit ∧
      s1.lru.bucket_count = s.lru.bucket_count ∧ s1.lru.bucket.length = s.lru.bucket.length ∧
      s1.mem.length = s.mem.length ∧ Keeps obs_kv s.mem s1.mem := by
  obtain ⟨e, he⟩ := h.allocated ha
  obtain ⟨i, hidx, hai⟩ := h.index_of_mem ha he
  obtain ⟨s1, hrun1, hh1, ht1, hbc1, hlc1, hll1, hbl1, hlen1, hch1, he1, hk1⟩ :=
    static_pop_bucket_spec h.chains (fun j c hc hci => h.chain_unique hci hc) he hidx hai
  have hn1 : IsSeg lru_entry_t.next s1.mem s1.lru.head L none := by
    rw [hh1]
    exact Keeps.seg (hk1.weaken _ (fun x y hxy => by
      simp only [obs_list, Prod.mk.injEq] at hxy; exact hxy.2.2.1)) h.nexts
  have hp1 : IsSeg lru_entry_t.prev s1.mem s1.lru.tail L.reverse none := by
    rw [ht1]
    exact Keeps.seg (hk1.weaken _ (fun x y hxy => by
      simp only [obs_list, Prod.mk.injEq] at hxy; exact hxy.2.2.2)) h.prevs
  obtain ⟨s2, hrun2, hb2, hbc2, hlc2, hll2, hlen2, hn2, hp2, he2, hk2⟩ :=
    static_pop_list_spec hn1 hp1 he1 ha
  have hkv : Keeps obs_kv s.mem s2.mem :=
    (hk1.weaken obs_kv (fun x y hxy => by
      simp only [obs_list, Prod.mk.injEq] at hxy
      simp [obs_kv, hxy.1, hxy.2.1])).trans
    (hk2.weaken obs_kv (fun x y hxy => by
      simp only [obs_chain, Prod.mk.injEq] at hxy
      simp [obs_kv, hxy.1, hxy.2.1]))
  have hnd := h.nexts.nodup
  refine ⟨s2, e, i, he, hidx, hai, ?_, ?_, he2, ?_, ?_, ?_, ?_, ?_, hkv⟩
  · simp [lru_cache_pop, hrun1, hrun2, LRU_SUCCESS]
  · refine ⟨by rw [hbc2, hbc1]; exact h.bc_pos, by rw [hb2, hbc2, hbl1, hbc1]; exact h.bc_len,
      hn2, hp2, ?_, ?_, ?_⟩
    · intro j
      rw [hb2]
      exact Keeps.seg (hk2.weaken _ (fun x y hxy => by
        simp only [obs_chain, Prod.mk.injEq] at hxy; exact hxy.2.2)) (hch1 j)
    · intro j c hc
      have hcj : c ∈ C j := by
        by_cases hj : j = i
        · subst hj
          simp only [↓reduceIte] at hc
          exact List.mem_of_mem_erase hc
        · simpa [hj] using hc
      obtain ⟨ec, hec⟩ := (h.chains j).valid c hcj
      have hbi : bucket_index s2.lru (key_at s c) = bucket_index s.lru (key_at s c) :=
        bucket_index_congr _ (by rw [hbc2, hbc1]) (by rw [hb2, hbl1])
      rw [(hkv.key_at hec).1, hbi]
      exact h.hash j c hcj
    · intro c
      constructor
      · intro hc
        obtain ⟨hca, hcL⟩ := hnd.mem_erase_iff.mp hc
        obtain ⟨j, hj⟩ := (h.mem_iff c).mp hcL
        refine ⟨j, ?_⟩
        by_cases hji : j = i
        · subst hji
          simp only [↓reduceIte]
          exact (List.mem_erase_of_ne hca).mpr hj
        · simpa [hji] using hj
      · rintro ⟨j, hj⟩
        by_cases hji : j = i
        · subst hji
          simp only [↓reduceIte] at hj
          have hca := ((h.chains j).nodup.mem_erase_iff.mp hj)
          exact hnd.mem_erase_iff.mpr ⟨hca.1, (h.mem_iff c).mpr ⟨j, hca.2⟩⟩
        · simp only [hji, if_false] at hj
          refine hnd.mem_erase_iff.mpr ⟨?_, (h.mem_iff c).mpr ⟨j, hj⟩⟩
          rintro rfl
          exact hji (h.chain_unique hai hj)
  · rw [hlc2, hlc1]
  · rw [hll2, hll1]
  · rw [hbc2, hbc1]
  · rw [hb2, hbl1]
  · rw [hlen2, hlen1]

theorem WF.not_mem_chain {s : State} {L : List Nat} {C : Nat → List Nat} (h : WF s L C)
    {a : Nat} (ha : a ∉ L) (j : Nat) : a ∉ C j :=
  fun hm => ha ((h.mem_iff a).mpr ⟨j, hm⟩)

/-- The effect of `lru_cache_push` on a well-formed cache below its limit, for an allocated
entry outside the recency list whose `next` and `prev` are `NULL`. -/
theorem lru_cache_push_spec {s : State} {L : List Nat} {C : Nat → List Nat} {a i : Nat}
    {e : lru_entry_t} (h : WF s L C) (he : load s.mem (some a) = some e)
    (hnx : e.next = none) (hpv : e.prev = none)
    (hidx : bucket_index s.lru e.key = some i) (hnot : a ∉ L)
    (hlt : s.lru.list_count < s.lru.list_limit) :
    ∃ s1, lru_cache_push s (some a) = some (LRU_SUCCESS, s1) ∧
      WF s1 (a :: L) (fun j => if j = i then a :: C i else C j) ∧
      s1.lru.list_count = s.lru.list_count + 1 ∧ s1.lru.list_limit = s.lru.list_limit ∧
      s1.lru.bucket_count = s.lru.bucket_count ∧ s1.lru.bucket.length = s.lru.bucket.length ∧
      s1.mem.length = s.mem.length ∧ Keeps obs_kv s.mem s1.mem ∧ s1.lru.head = some a := by
  have hilt := bucket_index_lt hidx
  have halt := load_some_lt he
  have hb : s.lru.bucket[i]? = some (s.lru.bucket.getD i none) := getElem?_eq_some_getD hilt
  have hfull : ¬ (s.lru.list_count ≥ s.lru.list_limit) := not_le.mpr hlt
  have hea1 : load (s.mem.set a (some { e with chain := s.lru.bucket.getD i none })) (some a) =
      some { e with chain := s.lru.bucket.getD i none } := by
    rw [load_set _ _ halt]; simp
  have hk1 : Keeps obs_kv s.mem (s.mem.set a (some { e with chain := s.lru.bucket.getD i none })) :=
    Keeps.set he rfl
  -- the parts of the invariant that do not depend on the shape of the list
  have hrest : ∀ (m1 : List (Option lru_entry_t)) (c1 : lru_cache_t) (e1 : lru_entry_t),
      c1.bucket = s.lru.bucket.set i (some a) → c1.bucket_count = s.lru.bucket_count →
      load m1 (some a) = some e1 → e1.chain = s.lru.bucket.getD i none →
      Keeps obs_kv s.mem m1 →
      (∀ j, ∀ c ∈ C j, ∀ x, load s.mem (some c) = some x →
        ∃ x1, load m1 (some c) = some x1 ∧ x1.chain = x.chain) →
      (0 < c1.bucket_count ∧ (c1.bucket.length : Int) = c1.bucket_count ∧
        (∀ j, IsSeg lru_entry_t.chain m1 (c1.bucket.getD j none)
          (if j = i then a :: C i else C j) none) ∧
        (∀ j c, c ∈ (if j = i then a :: C i else C j) →
          bucket_index c1 (key_at { mem := m1, lru := c1 } c) = some j) ∧
        (∀ c, c ∈ a :: L ↔ ∃ j, c ∈ (if j = i then a :: C i else C j))) := by
    intro m1 c1 e1 hcb hcbc hl1 hc1 hkv hfr
    have hbi : ∀ k, bucket_index c1 k = bucket_index s.lru k := fun k =>
      bucket_index_congr k hcbc (by rw [hcb]; simp)
    refine ⟨by rw [hcbc]; exact h.bc_pos, by rw [hcb, hcbc]; simpa using h.bc_len, ?_, ?_, ?_⟩
    · intro j
      rw [hcb, getD_set _ _ hilt]
      by_cases hj : j = i
      · subst hj
        simp only [↓reduceIte]
        exact ⟨rfl, e1, hl1, by rw [hc1]; exact IsSeg.frame (hfr j) (h.chains j)⟩
      · simp only [hj, if_false]
        exact IsSeg.frame (hfr j) (h.chains j)
    · intro j c hc
      have hkey : ∀ c x, load s.mem (some c) = some x →
          key_at { mem := m1, lru := c1 } c = x.key := by
        intro c x hx
        obtain ⟨x1, hx1, hobs⟩ := hkv c x hx
        simp only [obs_kv, Prod.mk.injEq] at hobs
        rw [key_at_eq (s := { mem := m1, lru := c1 }) hx1]
        exact hobs.1
      have hold : ∀ c, c ∈ C j → bucket_index c1 (key_at { mem := m1, lru := c1 } c) = some j := by
        intro c hcj
        obtain ⟨x, hx⟩ := (h.chains j).valid c hcj
        rw [hkey c x hx, hbi, ← key_at_eq hx]
        exact h.hash j c hcj
      by_cases hj : j = i
      · subst hj
        simp only [↓reduceIte] at hc
        rcases List.mem_cons.mp hc with rfl | hc
        · rw [hkey c e he, hbi]; exact hidx
        · exact hold c hc
      · simp only [hj, if_false] at hc
        exact hold c hc
    · intro c
      constructor
      · intro hc
        rcases List.mem_cons.mp hc with rfl | hc
        · exact ⟨i, by simp⟩
        · obtain ⟨j, hj⟩ := (h.mem_iff c).mp hc
          refine ⟨j, ?_⟩
          by_cases hji : j = i
          · subst hji; simp [hj]
          · simpa [hji] using hj
      · rintro ⟨j, hj⟩
        by_cases hji : j = i
        · subst hji
          simp only [↓reduceIte] at hj
          rcases List.mem_cons.mp hj with rfl | hj
          · exact List.mem_cons_self _ _
          · exact List.mem_cons_of_mem _ ((h.mem_iff c).mpr ⟨j, hj⟩)
        · simp only [hji, if_false] at hj
          exact List.mem_cons_of_mem _ ((h.mem_iff c).mpr ⟨j, hj⟩)
  cases L with
  | nil =>
    have hh : s.lru.head = none := h.nexts
    have ht : s.lru.tail = none := h.prevs
    obtain ⟨w1, w2, w3, w4, w5⟩ := hrest
      (s.mem.set a (some { e with chain := s.lru.bucket.getD i none }))
      { s.lru with bucket := s.lru.bucket.set i (some a), head := some a, tail := some a,
                   list_count := s.lru.list_count + 1 }
      { e with chain := s.lru.bucket.getD i none } rfl rfl hea1 rfl hk1
      (fun j => frame_set_notin _ (h.not_mem_chain hnot j))
    refine ⟨{ mem := s.mem.set a (some { e with chain := s.lru.bucket.getD i none })
              lru := { s.lru with bucket := s.lru.bucket.set i (some a), head := some a,
                                  tail := some a, list_count := s.lru.list_count + 1 } },
            ?_, ⟨w1, w2, ?_, ?_, w3, w4, w5⟩, rfl, rfl, rfl, by simp, by simp, hk1, rfl⟩
    · simp only [lru_cache_push, hfull, if_false, he, hidx, hb, store, hh, ht, LRU_SUCCESS]
      simp
    · exact ⟨rfl, _, hea1, hnx⟩
    · exact ⟨rfl, _, hea1, hpv⟩
  | cons hd L1 =>
    have hh : s.lru.head = some hd := h.nexts.1
    obtain ⟨_, ehd, hehd, hn1⟩ := h.nexts
    have hhda : hd ≠ a := fun hx => hnot (by simp [hx])
    have hhd1 : load (s.mem.set a (some { e with chain := s.lru.bucket.getD i none })) (some hd) =
        some ehd := by
      rw [load_set_of_ne _ hhda]; exact hehd
    have hea2 : load ((s.mem.set a (some { e with chain := s.lru.bucket.getD i none })).set hd
        (some { ehd with prev := some a })) (some a) =
        some { e with chain := s.lru.bucket.getD i none } := by
      rw [load_set_of_ne _ (Ne.symm hhda)]; exact hea1
    have hk2 : Keeps obs_kv (s.mem.set a (some { e with chain := s.lru.bucket.getD i none }))
        ((s.mem.set a (some { e with chain := s.lru.bucket.getD i none })).set hd
          (some { ehd with prev := some a })) := Keeps.set hhd1 rfl
    have hk3 : Keeps obs_kv ((s.mem.set a (some { e with chain := s.lru.bucket.getD i none })).set hd
          (some { ehd with prev := some a }))
        (((s.mem.set a (some { e with chain := s.lru.bucket.getD i none })).set hd
          (some { ehd with prev := some a })).set a
            (some { e with chain := s.lru.bucket.getD i none, next := some hd })) :=
      Keeps.set hea2 rfl
    have hkv := hk1.trans (hk2.trans hk3)
    have hea3 : load (((s.mem.set a (some { e with chain := s.lru.bucket.getD i none })).set hd
          (some { ehd with prev := some a })).set a
            (some { e with chain := s.lru.bucket.getD i none, next := some hd })) (some a) =
        some { e with chain := s.lru.bucket.getD i none, next := some hd } := by
      rw [load_set _ _ (by simpa using halt)]; simp
    have hkc2 : Keeps lru_entry_t.chain
        (s.mem.set a (some { e with chain := s.lru.bucket.getD i none }))
        ((s.mem.set a (some { e with chain := s.lru.bucket.getD i none })).set hd
          (some { ehd with prev := some a })) := Keeps.set hhd1 rfl
    have hkn2 : Keeps lru_entry_t.next
        (s.mem.set a (some { e with chain := s.lru.bucket.getD i none }))
        ((s.mem.set a (some { e with chain := s.lru.bucket.getD i none })).set hd
          (some { ehd with prev := some a })) := Keeps.set hhd1 rfl
    obtain ⟨w1, w2, w3, w4, w5⟩ := hrest
      (((s.mem.set a (some { e with chain := s.lru.bucket.getD i none })).set hd
          (some { ehd with prev := some a })).set a
            (some { e with chain := s.lru.bucket.getD i none, next := some hd }))
      { s.lru with bucket := s.lru.bucket.set i (some a), head := some a,
                   list_count := s.lru.list_count + 1 }
      { e with chain := s.lru.bucket.getD i none, next := some hd } rfl rfl hea3 rfl hkv
      (fun j => frame_trans (frame_set_notin _ (h.not_mem_chain hnot j))
        (frame_trans (fun c _ x hx => hkc2 c x hx) (frame_set_notin _ (h.not_mem_chain hnot j))))
    refine ⟨{ mem := ((s.mem.set a (some { e with chain := s.lru.bucket.getD i none })).set hd
                (some { ehd with prev := some a })).set a
                  (some { e with chain := s.lru.bucket.getD i none, next := some hd })
              lru := { s.lru with bucket := s.lru.bucket.set i (some a), head := some a,
                                  list_count := s.lru.list_count + 1 } },
            ?_, ⟨w1, w2, ?_, ?_, w3, w4, w5⟩, rfl, rfl, rfl, by simp, by simp, hkv, rfl⟩
    · simp only [lru_cache_push, hfull, if_false, he, hidx, hb, store, hh, hhd1, hea2, LRU_SUCCESS]
      simp
    · refine ⟨rfl, _, hea3, ?_⟩
      refine IsSeg.frame (frame_trans (frame_set_notin _ hnot)
        (frame_trans (fun c _ x hx => hkn2 c x hx) (frame_set_notin _ hnot))) ?_
      exact ⟨rfl, ehd, hehd, hn1⟩
    · have hp := h.prevs
      have hnotr : a ∉ L1.reverse := fun hm => hnot (List.mem_cons_of_mem _ (List.mem_reverse.mp hm))
      have hhdr : hd ∉ L1.reverse := fun hm =>
        (List.nodup_cons.mp h.nexts.nodup).1 (List.mem_reverse.mp hm)
      rw [List.reverse_cons] at hp
      obtain ⟨hp1, ehd2, hehd2, hhdp⟩ := IsSeg.snoc_iff.mp hp
      refine IsSeg.of_list_eq ((L1.reverse ++ [hd]) ++ [a]) (by simp) ?_
      refine IsSeg.snoc_iff.mpr ⟨IsSeg.snoc_iff.mpr ⟨?_, { ehd with prev := some a }, ?_, rfl⟩,
        _, hea3, hpv⟩
      · exact IsSeg.frame (frame_trans (frame_set_notin _ hnotr)
          (frame_trans (frame_set_notin _ hhdr) (frame_set_notin _ hnotr))) hp1
      · rw [load_set_of_ne _ hhda, load_set _ _ (by simpa using load_some_lt hehd)]; simp

/-! ## The observations on a well-formed cache -/

theorem walk_next_eq {m : List (Option lru_entry_t)} {l : List Nat} :
    ∀ (p : Option Nat) (fuel : Nat), IsSeg lru_entry_t.next m p l none → l.length < fuel →
      walk_next fuel m p = l := by
  induction l with
  | nil =>
    intro p fuel h hf
    obtain ⟨k, rfl⟩ : ∃ k, fuel = k + 1 := ⟨fuel - 1, by simp at hf; omega⟩
    have hp : p = none := h
    subst hp
    rfl
  | cons a l ih =>
    intro p fuel h hf
    obtain ⟨k, rfl⟩ : ∃ k, fuel = k + 1 := ⟨fuel - 1, by simp at hf; omega⟩
    obtain ⟨hp, e, he, hrest⟩ := h
    subst hp
    simp only [walk_next, he]
    rw [ih e.next k hrest (by simpa using hf)]

theorem walk_chain_eq {m : List (Option lru_entry_t)} {l : List Nat} :
    ∀ (p : Option Nat) (fuel : Nat), IsSeg lru_entry_t.chain m p l none → l.length < fuel →
      walk_chain fuel m p = l := by
  induction l with
  | nil =>
    intro p fuel h hf
    obtain ⟨k, rfl⟩ : ∃ k, fuel = k + 1 := ⟨fuel - 1, by simp at hf; omega⟩
    have hp : p = none := h
    subst hp
    rfl
  | cons a l ih =>
    intro p fuel h hf
    obtain ⟨k, rfl⟩ : ∃ k, fuel = k + 1 := ⟨fuel - 1, by simp at hf; omega⟩
    obtain ⟨hp, e, he, hrest⟩ := h
    subst hp
    simp only [walk_chain, he]
    rw [ih e.chain k hrest (by simpa using hf)]

theorem WF.recency_eq {s : State} {L : List Nat} {C : Nat → List Nat} (h : WF s L C) :
    recency s = L :=
  walk_next_eq _ _ h.nexts (by have := h.nexts.length_le; simp [fuel_of]; omega)

theorem WF.chain_of_eq {s : State} {L : List Nat} {C : Nat → List Nat} (h : WF s L C)
    (i : Nat) : chain_of s i = C i :=
  walk_chain_eq _ _ (h.chains i) (by have := (h.chains i).length_le; simp [fuel_of]; omega)

/-- A well-formed cache stays well formed when the cache record keeps its fields and every
cell of the recency list keeps its contents. -/
theorem WF.of_frame {s s1 : State} {L : List Nat} {C : Nat → List Nat} (h : WF s L C)
    (hb : s1.lru.bucket = s.lru.bucket) (hh : s1.lru.head = s.lru.head)
    (ht : s1.lru.tail = s.lru.tail) (hbc : s1.lru.bucket_count = s.lru.bucket_count)
    (hfr : ∀ c ∈ L, load s1.mem (some c) = load s.mem (some c)) : WF s1 L C := by
  have hfr1 : ∀ (f : lru_entry_t → Option Nat) (l : List Nat), (∀ c ∈ l, c ∈ L) →
      ∀ b ∈ l, ∀ e, load s.mem (some b) = some e →
        ∃ e1, load s1.mem (some b) = some e1 ∧ f e1 = f e :=
    fun f l hl b hb e he => ⟨e, by rw [hfr b (hl b hb)]; exact he, rfl⟩
  refine ⟨by rw [hbc]; exact h.bc_pos, by rw [hb, hbc]; exact h.bc_len, ?_, ?_, ?_, ?_, h.mem_iff⟩
  · rw [hh]; exact IsSeg.frame (hfr1 _ L (fun _ hc => hc)) h.nexts
  · rw [ht]
    exact IsSeg.frame (hfr1 _ L.reverse (fun _ hc => List.mem_reverse.mp hc)) h.prevs
  · intro i
    rw [hb]
    exact IsSeg.frame (hfr1 _ (C i) (fun c hc => (h.mem_iff c).mpr ⟨i, hc⟩)) (h.chains i)
  · intro i a ha
    have haL : a ∈ L := (h.mem_iff a).mpr ⟨i, ha⟩
    have hk : key_at s1 a = key_at s a := by simp [key_at, hfr a haL]
    rw [hk, bucket_index_congr _ hbc (by rw [hb])]
    exact h.hash i a ha

/-! ## The loop of search -/

theorem search_loop_miss {s : State} {key : Int} {l : List Nat} :
    ∀ (p : Option Nat) (fuel : Nat), IsSeg lru_entry_t.chain s.mem p l none →
      (∀ c ∈ l, key_at s c ≠ key) → l.length < fuel →
      search_loop fuel s p key = some (none, s) := by
  induction l with
  | nil =>
    intro p fuel h _ hf
    obtain ⟨k, rfl⟩ : ∃ k, fuel = k + 1 := ⟨fuel - 1, by simp at hf; omega⟩
    have hp : p = none := h
    subst hp
    rfl
  | cons a l ih =>
    intro p fuel h hk hf
    obtain ⟨k, rfl⟩ : ∃ k, fuel = k + 1 := ⟨fuel - 1, by simp at hf; omega⟩
    obtain ⟨hp, e, he, hrest⟩ := h
    subst hp
    have hne : e.key ≠ key := by
      have := hk a (List.mem_cons_self a l)
      rwa [key_at_eq he] at this
    simp only [search_loop, he, hne, if_false]
    exact ih e.chain k hrest (fun c hc => hk c (List.mem_cons_of_mem a hc)) (by simpa using hf)

theorem search_loop_hit {s : State} {key : Int} {a : Nat} {post : List Nat} {q : Option Nat}
    (hka : key_at s a = key) :
    ∀ (pre : List Nat) (p : Option Nat) (fuel : Nat),
      IsSeg lru_entry_t.chain s.mem p (pre ++ a :: post) q →
      (∀ c ∈ pre, key_at s c ≠ key) → pre.length < fuel →
      search_loop fuel s p key =
        match lru_cache_pop s (some a) with
        | none => none
        | some (_, s1) =>
          match lru_cache_push s1 (some a) with
          | none => none
          | some (_, s2) => some (some a, s2) := by
  intro pre
  induction pre with
  | nil =>
    intro p fuel h _ hf
    obtain ⟨k, rfl⟩ : ∃ k, fuel = k + 1 := ⟨fuel - 1, by omega⟩
    obtain ⟨hp, e, he, _⟩ := h
    subst hp
    have hk : e.key = key := by rwa [key_at_eq he] at hka
    simp only [search_loop, he, hk, if_true]
  | cons b pre ih =>
    intro p fuel h hk hf
    obtain ⟨k, rfl⟩ : ∃ k, fuel = k + 1 := ⟨fuel - 1, by omega⟩
    obtain ⟨hp, e, he, hrest⟩ := h
    subst hp
    have hne : e.key ≠ key := by
      have := hk b (List.mem_cons_self b pre)
      rwa [key_at_eq he] at this
    simp only [search_loop, he, hne, if_false]
    exact ih e.chain k hrest (fun c hc => hk c (List.mem_cons_of_mem b hc)) (by simpa using hf)

theorem first_match {s : State} {key : Int} :
    ∀ (l : List Nat), (∃ c ∈ l, key_at s c = key) →
      ∃ pre a post, l = pre ++ a :: post ∧ (∀ c ∈ pre, key_at s c ≠ key) ∧ key_at s a = key := by
  intro l
  induction l with
  | nil => rintro ⟨c, hc, _⟩; cases hc
  | cons b l ih =>
    rintro ⟨c, hc, hk⟩
    by_cases hb : key_at s b = key
    · exact ⟨[], b, l, rfl, by simp, hb⟩
    · have hcl : c ∈ l := by
        rcases List.mem_cons.mp hc with rfl | hcl
        · exact absurd hk hb
        · exact hcl
      obtain ⟨pre, a, post, hl, hpre, ha⟩ := ih ⟨c, hcl, hk⟩
      refine ⟨b :: pre, a, post, by rw [hl]; rfl, ?_, ha⟩
      intro d hd
      rcases List.mem_cons.mp hd with rfl | hd
      · exact hb
      · exact hpre d hd

/-- A miss of `lru_cache_search`: no entry of the recency list has the key, so the result is
`NULL` and the state is unchanged. -/
theorem lru_cache_search_miss {s : State} {L : List Nat} {C : Nat → List Nat} {key : Int}
    {i : Nat} (h : WF s L C) (hidx : bucket_index s.lru key = some i)
    (hk : ∀ c ∈ L, key_at s c ≠ key) : lru_cache_search s key = some (none, s) := by
  have hilt := bucket_index_lt hidx
  simp only [lru_cache_search, hidx, getElem?_eq_some_getD hilt]
  refine search_loop_miss _ _ (h.chains i) (fun c hc => hk c ((h.mem_iff c).mpr ⟨i, hc⟩)) ?_
  have := (h.chains i).length_le
  simp [fuel_of]; omega

/-- A hit of `lru_cache_search`: the first entry of the bucket chain with the key is popped
and pushed again, which moves it to the front of the recency list and of its chain. -/
theorem lru_cache_search_hit {s : State} {L : List Nat} {C : Nat → List Nat} {key : Int}
    (h : WF s L C) (hcl : s.lru.list_count ≤ s.lru.list_limit)
    (hk : ∃ c ∈ L, key_at s c = key) :
    ∃ a s2 i, a ∈ L ∧ key_at s a = key ∧ bucket_index s.lru key = some i ∧
      lru_cache_search s key = some (some a, s2) ∧
      WF s2 (a :: L.erase a) (fun j => if j = i then a :: (C i).erase a else C j) ∧
      s2.lru.list_count = s.lru.list_count ∧ s2.lru.list_limit = s.lru.list_limit ∧
      s2.lru.bucket_count = s.lru.bucket_count ∧ s2.lru.bucket.length = s.lru.bucket.length ∧
      s2.mem.length = s.mem.length ∧ Keeps obs_kv s.mem s2.mem ∧ s2.lru.head = some a := by
  obtain ⟨c, hcL, hck⟩ := hk
  obtain ⟨i, hci⟩ := (h.mem_iff c).mp hcL
  have hidx : bucket_index s.lru key = some i := by
    rw [← hck]; exact h.hash i c hci
  have hilt := bucket_index_lt hidx
  obtain ⟨pre, a, post, hsplit, hpre, hka⟩ := first_match (C i) ⟨c, hci, hck⟩
  have hai : a ∈ C i := by rw [hsplit]; simp
  have haL : a ∈ L := (h.mem_iff a).mpr ⟨i, hai⟩
  obtain ⟨s1, e, i1, he, hidx1, hai1, hpop, hwf1, he1, hlc1, hll1, hbc1, hbl1, hlen1, hk1⟩ :=
    lru_cache_pop_spec h haL
  have hi1 : i1 = i := h.chain_unique hai hai1
  subst hi1
  have hnot : a ∉ L.erase a := fun hm => ((h.nexts.nodup).mem_erase_iff.mp hm).1 rfl
  have hidx2 : bucket_index s1.lru
      ({ e with next := none, prev := none, chain := none } : lru_entry_t).key = some i1 := by
    rw [bucket_index_congr _ hbc1 hbl1]; exact hidx1
  obtain ⟨s2, hpush, hwf2, hlc2, hll2, hbc2, hbl2, hlen2, hk2, hh2⟩ :=
    lru_cache_push_spec hwf1 he1 rfl rfl hidx2 hnot (by rw [hlc1, hll1]; omega)
  have hseg := h.chains i1
  rw [hsplit] at hseg
  have hloop := search_loop_hit hka pre (s.lru.bucket.getD i1 none) (fuel_of s) hseg hpre (by
    have := (h.chains i1).length_le
    rw [hsplit] at this
    simp at this
    simp [fuel_of]; omega)
  refine ⟨a, s2, i1, haL, hka, hidx, ?_, ?_, by rw [hlc2, hlc1]; ring, by rw [hll2, hll1],
    by rw [hbc2, hbc1], by rw [hbl2, hbl1], by rw [hlen2, hlen1], hk1.trans hk2, hh2⟩
  · simp only [lru_cache_search, hidx, getElem?_eq_some_getD hilt]
    rw [hloop, hpop]
    simp only [hpush]
  · have hfun : (fun j => if j = i1 then a :: (C i1).erase a else C j) =
        (fun j => if j = i1 then a :: (fun j => if j = i1 then (C i1).erase a else C j) i1
          else (fun j => if j = i1 then (C i1).erase a else C j) j) := by
      funext j
      by_cases hj : j = i1 <;> simp [hj]
    rw [hfun]
    exact hwf2

/-! ## The paths of add -/

theorem set_append_length (m : List (Option lru_entry_t)) (x y : Option lru_entry_t) :
    (m ++ [x]).set m.length y = m ++ [y] := by
  induction m with
  | nil => rfl
  | cons a m ih => simp [List.set, ih]

theorem lru_cache_add_fresh_eq {s : State} (key value : Int)
    (hlt : s.lru.list_count < s.lru.list_limit) :
    lru_cache_add s key value true =
      match lru_cache_push (add_fresh_state s key value) (some s.mem.length) with
      | none => none
      | some (_, s4) => some (LRU_SUCCESS, s4) := by
  have h1 : load (s.mem ++ [some zero_entry]) (some s.mem.length) = some zero_entry :=
    load_append_new _ _
  have h2 : load (s.mem ++ [some { zero_entry with key := key }]) (some s.mem.length) =
      some { zero_entry with key := key } := load_append_new _ _
  simp only [lru_cache_add, hlt, decide_True, Bool.and_self, if_true, store, h1,
    set_append_length, h2, add_fresh_state]

theorem lru_cache_add_alloc_error {s : State} (key value : Int) (alloc_ok : Bool)
    (hno : ¬ (s.lru.list_count < s.lru.list_limit ∧ alloc_ok = true))
    (ht : s.lru.tail = none) :
    lru_cache_add s key value alloc_ok = some (LRU_ERROR_ALLOC, s) := by
  have hf : (decide (s.lru.list_count < s.lru.list_limit) && alloc_ok) = false := by
    by_contra hc
    simp only [Bool.not_eq_false, Bool.and_eq_true, decide_eq_true_eq] at hc
    exact hno hc
  simp only [lru_cache_add, hf, ht]
  rfl

theorem lru_cache_add_reclaim_eq {s s1 : State} (key value : Int) (alloc_ok : Bool) {t r : Nat}
    {e1 : lru_entry_t}
    (hno : ¬ (s.lru.list_count < s.lru.list_limit ∧ alloc_ok = true))
    (ht : s.lru.tail = some t) (hpop : lru_cache_pop s (some t) = some (r, s1))
    (he1 : load s1.mem (some t) = some e1)
    (hn : e1.next = none) (hp : e1.prev = none) (hc : e1.chain = none) :
    lru_cache_add s key value alloc_ok =
      match lru_cache_push (reclaim_state s1 t key value) (some t) with
      | none => none
      | some (_, s4) => some (LRU_SUCCESS, s4) := by
  have hf : (decide (s.lru.list_count < s.lru.list_limit) && alloc_ok) = false := by
    by_contra hc
    simp only [Bool.not_eq_false, Bool.and_eq_true, decide_eq_true_eq] at hc
    exact hno hc
  obtain ⟨k0, v0, n0, p0, c0⟩ := e1
  simp only at hn hp hc
  subst hn hp hc
  have h2 : load (s1.mem.set t
      (some { key := key, value := v0, next := none, prev := none, chain := none })) (some t) =
      some { key := key, value := v0, next := none, prev := none, chain := none } := by
    rw [load_set _ _ (load_some_lt he1)]; simp
  simp only [lru_cache_add, hf, ht, hpop, Bool.false_eq_true, ↓reduceIte, store, he1, h2,
    List.set_set, reclaim_state]

theorem lru_cache_push_full {s : State} (a : Nat)
    (h : s.lru.list_limit ≤ s.lru.list_count) :
    lru_cache_push s (some a) = some (LRU_ERROR_FULL, s) := by
  simp [lru_cache_push, h]

theorem lru_cache_push_fault {s : State} {a : Nat} {e : lru_entry_t}
    (hlt : s.lru.list_count < s.lru.list_limit) (he : load s.mem (some a) = some e)
    (hidx : bucket_index s.lru e.key = none) : lru_cache_push s (some a) = none := by
  simp [lru_cache_push, not_le.mpr hlt, he, hidx]

theorem WF.tail_mem {s : State} {L : List Nat} {C : Nat → List Nat} (h : WF s L C) {t : Nat}
    (ht : s.lru.tail = some t) : t ∈ L := by
  have hp := h.prevs
  cases hr : L.reverse with
  | nil =>
    rw [hr] at hp
    have : s.lru.tail = none := hp
    rw [ht] at this; cases this
  | cons x r =>
    rw [hr] at hp
    have hx : s.lru.tail = some x := hp.1
    rw [ht] at hx; cases hx
    exact List.mem_reverse.mp (by rw [hr]; exact List.mem_cons_self _ _)

theorem WF.tail_eq {s : State} {L : List Nat} {C : Nat → List Nat} (h : WF s L C) :
    s.lru.tail = L.getLast? := by
  have hp := h.prevs
  rw [List.getLast?_eq_head?_reverse]
  cases hr : L.reverse with
  | nil => rw [hr] at hp; exact hp
  | cons x r => rw [hr] at hp; exact hp.1

theorem WF.head_eq {s : State} {L : List Nat} {C : Nat → List Nat} (h : WF s L C) :
    s.lru.head = L.head? := by
  have hn := h.nexts
  cases L with
  | nil => exact hn
  | cons x r => exact hn.1

theorem add_fresh_wf {s : State} {L : List Nat} {C : Nat → List Nat} (h : WF s L C)
    (key value : Int) :
    WF (add_fresh_state s key value) L C ∧ s.mem.length ∉ L ∧
      load (add_fresh_state s key value).mem (some s.mem.length) =
        some { zero_entry with key := key, value := value } ∧
      (∀ c x, load s.mem (some c) = some x →
        load (add_fresh_state s key value).mem (some c) = some x) := by
  have hk : ∀ c x, load s.mem (some c) = some x →
      load (add_fresh_state s key value).mem (some c) = some x :=
    fun c x hx => load_append_left _ hx
  have hnot : s.mem.length ∉ L := by
    intro hm
    obtain ⟨e, he⟩ := h.allocated hm
    exact absurd (load_some_lt he) (lt_irrefl _)
  refine ⟨h.of_frame rfl rfl rfl rfl ?_, hnot, load_append_new _ _, hk⟩
  intro c hc
  obtain ⟨e, he⟩ := h.allocated hc
  rw [he]; exact hk c e he

theorem lru_cache_add_fresh_push_spec {s : State} {L : List Nat} {C : Nat → List Nat}
    {key : Int} {i : Nat} (value : Int) (h : WF s L C)
    (hlt : s.lru.list_count + 1 < s.lru.list_limit)
    (hidx : bucket_index s.lru key = some i) :
    ∃ s4, lru_cache_add s key value true = some (LRU_SUCCESS, s4) ∧
      WF s4 (s.mem.length :: L) (fun j => if j = i then s.mem.length :: C i else C j) ∧
      s4.lru.list_count = s.lru.list_count + 2 ∧ s4.lru.list_limit = s.lru.list_limit ∧
      s4.lru.bucket_count = s.lru.bucket_count ∧ s4.lru.bucket.length = s.lru.bucket.length ∧
      s4.mem.length = s.mem.length + 1 ∧ Keeps obs_kv s.mem s4.mem ∧
      s4.lru.head = some s.mem.length ∧ key_at s4 s.mem.length = key ∧
      value_at s4 s.mem.length = value := by
  obtain ⟨hwf, hnot, hl, hk⟩ := add_fresh_wf h key value
  have hidx3 : bucket_index (add_fresh_state s key value).lru
      ({ zero_entry with key := key, value := value } : lru_entry_t).key = some i := by
    have hc : bucket_index (add_fresh_state s key value).lru key = bucket_index s.lru key :=
      bucket_index_congr key rfl rfl
    exact hc.trans hidx
  obtain ⟨s4, hpush, hwf4, hlc, hll, hbc, hbl, hlen, hk4, hh⟩ :=
    lru_cache_push_spec hwf hl rfl rfl hidx3 hnot (by simp [add_fresh_state]; omega)
  have hkv : Keeps obs_kv s.mem (add_fresh_state s key value).mem :=
    fun c x hx => ⟨x, hk c x hx, rfl⟩
  have hkey := hk4.key_at hl
  rw [key_at_eq hl, value_at_eq hl] at hkey
  refine ⟨s4, ?_, hwf4, ?_, hll, hbc, hbl, ?_, hkv.trans hk4, hh, hkey.1, hkey.2⟩
  · rw [lru_cache_add_fresh_eq key value (by omega), hpush]
  · rw [hlc]; simp [add_fresh_state]; ring
  · rw [hlen]; simp [add_fresh_state]

theorem lru_cache_add_fresh_full_spec {s : State} {L : List Nat} {C : Nat → List Nat}
    (key value : Int) (h : WF s L C) (hlt : s.lru.list_count < s.lru.list_limit)
    (hfull : s.lru.list_limit ≤ s.lru.list_count + 1) :
    lru_cache_add s key value true = some (LRU_SUCCESS, add_fresh_state s key value) ∧
      WF (add_fresh_state s key value) L C := by
  refine ⟨?_, (add_fresh_wf h key value).1⟩
  rw [lru_cache_add_fresh_eq key value hlt, lru_cache_push_full _ (by simpa [add_fresh_state] using hfull)]

theorem lru_cache_add_fresh_fault {s : State} {L : List Nat} {C : Nat → List Nat}
    {key : Int} (value : Int) (h : WF s L C)
    (hlt : s.lru.list_count + 1 < s.lru.list_limit)
    (hidx : bucket_index s.lru key = none) : lru_cache_add s key value true = none := by
  obtain ⟨_, _, hl, _⟩ := add_fresh_wf h key value
  have hidx3 : bucket_index (add_fresh_state s key value).lru
      ({ zero_entry with key := key, value := value } : lru_entry_t).key = none := by
    have hc : bucket_index (add_fresh_state s key value).lru key = bucket_index s.lru key :=
      bucket_index_congr key rfl rfl
    exact hc.trans hidx
  rw [lru_cache_add_fresh_eq key value (by omega),
    lru_cache_push_fault (by simp [add_fresh_state]; omega) hl hidx3]

theorem lru_cache_add_reclaim_spec {s : State} {L : List Nat} {C : Nat → List Nat}
    {key : Int} {i t : Nat} (value : Int) (alloc_ok : Bool) (h : WF s L C)
    (hcl : s.lru.list_count ≤ s.lru.list_limit)
    (hno : ¬ (s.lru.list_count < s.lru.list_limit ∧ alloc_ok = true))
    (ht : s.lru.tail = some t) (hidx : bucket_index s.lru key = some i) :
    ∃ s4 C4, lru_cache_add s key value alloc_ok = some (LRU_SUCCESS, s4) ∧ t ∈ L ∧
      WF s4 (t :: L.erase t) C4 ∧
      s4.lru.list_count = s.lru.list_count ∧ s4.lru.list_limit = s.lru.list_limit ∧
      s4.lru.bucket_count = s.lru.bucket_count ∧ s4.lru.bucket.length = s.lru.bucket.length ∧
      s4.mem.length = s.mem.length ∧ s4.lru.head = some t ∧ key_at s4 t = key ∧
      value_at s4 t = value ∧
      (∀ c ∈ L, c ≠ t → key_at s4 c = key_at s c ∧ value_at s4 c = value_at s c) := by
  have htL := h.tail_mem ht
  obtain ⟨s1, e, i0, he, _, _, hpop, hwf1, he1, hlc1, hll1, hbc1, hbl1, hlen1, hk1⟩ :=
    lru_cache_pop_spec h htL
  have hnot : t ∉ L.erase t := fun hm => ((h.nexts.nodup).mem_erase_iff.mp hm).1 rfl
  have ht1 := load_some_lt he1
  have hwf3 : WF (reclaim_state s1 t key value) (L.erase t)
      (fun j => if j = i0 then (C i0).erase t else C j) :=
    hwf1.of_frame rfl rfl rfl rfl (fun c hc => load_set_of_ne _ (fun hct => hnot (hct ▸ hc)))
  have hl3 : load (reclaim_state s1 t key value).mem (some t) =
      some { key := key, value := value, next := none, prev := none, chain := none } := by
    show load (s1.mem.set t _) (some t) = _
    rw [load_set _ _ ht1]; simp
  have hidx3 : bucket_index (reclaim_state s1 t key value).lru
      ({ key := key, value := value, next := none, prev := none, chain := none } :
        lru_entry_t).key = some i :=
    (bucket_index_congr key hbc1 hbl1).trans hidx
  obtain ⟨s4, hpush, hwf4, hlc4, hll4, hbc4, hbl4, hlen4, hk4, hh4⟩ :=
    lru_cache_push_spec hwf3 hl3 rfl rfl hidx3 hnot (by
      show s1.lru.list_count < s1.lru.list_limit
      rw [hlc1, hll1]; omega)
  have hkey := hk4.key_at hl3
  rw [key_at_eq hl3, value_at_eq hl3] at hkey
  refine ⟨s4, _, ?_, htL, hwf4, ?_, ?_, ?_, ?_, ?_, hh4, hkey.1, hkey.2, ?_⟩
  · rw [lru_cache_add_reclaim_eq key value alloc_ok hno ht hpop he1 rfl rfl rfl, hpush]
  · rw [hlc4]; show s1.lru.list_count + 1 = _; rw [hlc1]; ring
  · rw [hll4]; exact hll1
  · rw [hbc4]; exact hbc1
  · rw [hbl4]; exact hbl1
  · rw [hlen4]
    show (s1.mem.set t _).length = _
    rw [List.length_set]; exact hlen1
  · intro c hc hct
    obtain ⟨x, hx⟩ := h.allocated hc
    obtain ⟨x1, hx1, hobs1⟩ := hk1 c x hx
    have hx3 : load (reclaim_state s1 t key value).mem (some c) = some x1 := by
      show load (s1.mem.set t _) (some c) = _
      rw [load_set_of_ne _ hct]; exact hx1
    have h4 := hk4.key_at hx3
    rw [key_at_eq hx3, value_at_eq hx3] at h4
    simp only [obs_kv, Prod.mk.injEq] at hobs1
    rw [h4.1, h4.2, key_at_eq hx, value_at_eq hx]
    exact hobs1

theorem lru_cache_add_reclaim_fault {s : State} {L : List Nat} {C : Nat → List Nat}
    {key : Int} {t : Nat} (value : Int) (alloc_ok : Bool) (h : WF s L C)
    (hcl : s.lru.list_count ≤ s.lru.list_limit)
    (hno : ¬ (s.lru.list_count < s.lru.list_limit ∧ alloc_ok = true))
    (ht : s.lru.tail = some t) (hidx : bucket_index s.lru key = none) :
    lru_cache_add s key value alloc_ok = none := by
  have htL := h.tail_mem ht
  obtain ⟨s1, e, i0, he, _, _, hpop, hwf1, he1, hlc1, hll1, hbc1, hbl1, hlen1, hk1⟩ :=
    lru_cache_pop_spec h htL
  have ht1 := load_some_lt he1
  have hl3 : load (reclaim_state s1 t key value).mem (some t) =
      some { key := key, value := value, next := none, prev := none, chain := none } := by
    show load (s1.mem.set t _) (some t) = _
    rw [load_set _ _ ht1]; simp
  have hidx3 : bucket_index (reclaim_state s1 t key value).lru
      ({ key := key, value := value, next := none, prev := none, chain := none } :
        lru_entry_t).key = none :=
    (bucket_index_congr key hbc1 hbl1).trans hidx
  rw [lru_cache_add_reclaim_eq key value alloc_ok hno ht hpop he1 rfl rfl rfl,
    lru_cache_push_fault (by
      show s1.lru.list_count < s1.lru.list_limit
      rw [hlc1, hll1]; omega) hl3 hidx3]

/-- A hit of `lru_cache_remove`: the entry found by the search is popped and freed, and
`list_limit` is decremented. -/
theorem lru_cache_remove_hit {s : State} {L : List Nat} {C : Nat → List Nat} {key : Int}
    (h : WF s L C) (hcl : s.lru.list_count ≤ s.lru.list_limit)
    (hk : ∃ c ∈ L, key_at s c = key) :
    ∃ a s3 C3, a ∈ L ∧ key_at s a = key ∧ lru_cache_remove s key = some s3 ∧
      WF s3 (L.erase a) C3 ∧
      s3.lru.list_count = s.lru.list_count - 1 ∧ s3.lru.list_limit = s.lru.list_limit - 1 ∧
      s3.lru.bucket_count = s.lru.bucket_count ∧ s3.lru.bucket.length = s.lru.bucket.length ∧
      s3.mem.length = s.mem.length ∧
      (∀ c ∈ L, c ≠ a → key_at s3 c = key_at s c ∧ value_at s3 c = value_at s c) := by
  obtain ⟨a, s1, i, haL, hka, hidx, hsearch, hwf1, hlc1, hll1, hbc1, hbl1, hlen1, hk1, hh1⟩ :=
    lru_cache_search_hit h hcl hk
  obtain ⟨s2, e, i2, he, _, _, hpop, hwf2, he2, hlc2, hll2, hbc2, hbl2, hlen2, hk2⟩ :=
    lru_cache_pop_spec hwf1 (List.mem_cons_self a _)
  rw [List.erase_cons_head] at hwf2
  have hnot : a ∉ L.erase a := fun hm => ((h.nexts.nodup).mem_erase_iff.mp hm).1 rfl
  have hwf3 : WF { mem := s2.mem.set a none
                   lru := { s2.lru with list_limit := s2.lru.list_limit - 1 } } (L.erase a) _ :=
    hwf2.of_frame rfl rfl rfl rfl (fun c hc => load_set_of_ne _ (fun hca => hnot (hca ▸ hc)))
  refine ⟨a, _, _, haL, hka, ?_, hwf3, ?_, ?_, ?_, ?_, ?_, ?_⟩
  · simp only [lru_cache_remove, hsearch, hpop]
  · show s2.lru.list_count = _; rw [hlc2, hlc1]
  · show s2.lru.list_limit - 1 = _; rw [hll2, hll1]
  · show s2.lru.bucket_count = _; rw [hbc2, hbc1]
  · show s2.lru.bucket.length = _; rw [hbl2, hbl1]
  · show (s2.mem.set a none).length = _; rw [List.length_set, hlen2, hlen1]
  · intro c hc hca
    obtain ⟨x, hx⟩ := h.allocated hc
    have h12 := (hk1.trans hk2) c x hx
    obtain ⟨x2, hx2, hobs⟩ := h12
    have hx3 : load ({ mem := s2.mem.set a none
                       lru := { s2.lru with list_limit := s2.lru.list_limit - 1 } } : State).mem
        (some c) = some x2 := by
      rw [load_set_of_ne _ hca]; exact hx2
    simp only [obs_kv, Prod.mk.injEq] at hobs
    rw [key_at_eq hx3, value_at_eq hx3, key_at_eq hx, value_at_eq hx]
    exact hobs

theorem lru_cache_remove_miss {s : State} {L : List Nat} {C : Nat → List Nat} {key : Int}
    {i : Nat} (h : WF s L C) (hidx : bucket_index s.lru key = some i)
    (hk : ∀ c ∈ L, key_at s c ≠ key) : lru_cache_remove s key = some s := by
  simp only [lru_cache_remove, lru_cache_search_miss h hidx hk]

/-! ## The invariant of the reachable states -/

theorem length_erase_of_mem {L : List Nat} {a : Nat} (h : a ∈ L) :
    ((L.erase a).length : Int) = (L.length : Int) - 1 := by
  rw [List.length_erase_of_mem h]
  have : 0 < L.length := List.length_pos_of_mem h
  omega

theorem Inv.add_inv {s s1 : State} {L : List Nat} {C : Nat → List Nat} {key value : Int}
    {alloc_ok : Bool} {r : Nat} (h : Inv s L C)
    (hrun : lru_cache_add s key value alloc_ok = some (r, s1)) : ∃ L1 C1, Inv s1 L1 C1 := by
  by_cases hfresh : s.lru.list_count < s.lru.list_limit ∧ alloc_ok = true
  · obtain ⟨hlt, hok⟩ := hfresh
    subst hok
    by_cases hroom : s.lru.list_count + 1 < s.lru.list_limit
    · cases hidx : bucket_index s.lru key with
      | none =>
        rw [lru_cache_add_fresh_fault value h.wf hroom hidx] at hrun
        cases hrun
      | some i =>
        obtain ⟨s4, hadd, hwf4, hlc, hll, _⟩ :=
          lru_cache_add_fresh_push_spec value h.wf hroom hidx
        rw [hadd] at hrun
        cases hrun
        refine ⟨_, _, hwf4, ?_, ?_⟩
        · have := h.count_lo
          rw [hlc]; simp only [List.length_cons]; push_cast; omega
        · rw [hlc, hll]; omega
    · obtain ⟨hadd, hwf⟩ := lru_cache_add_fresh_full_spec key value h.wf hlt (by omega)
      rw [hadd] at hrun
      cases hrun
      refine ⟨L, C, hwf, ?_, ?_⟩
      · have := h.count_lo
        simp only [add_fresh_state]; omega
      · simp only [add_fresh_state]; omega
  · cases ht : s.lru.tail with
    | none =>
      rw [lru_cache_add_alloc_error key value alloc_ok hfresh ht] at hrun
      cases hrun
      exact ⟨L, C, h⟩
    | some t =>
      cases hidx : bucket_index s.lru key with
      | none =>
        rw [lru_cache_add_reclaim_fault value alloc_ok h.wf h.count_hi hfresh ht hidx] at hrun
        cases hrun
      | some i =>
        obtain ⟨s4, C4, hadd, htL, hwf4, hlc, hll, _⟩ :=
          lru_cache_add_reclaim_spec value alloc_ok h.wf h.count_hi hfresh ht hidx
        rw [hadd] at hrun
        cases hrun
        refine ⟨_, _, hwf4, ?_, ?_⟩
        · have := h.count_lo
          have := length_erase_of_mem htL
          rw [hlc]; simp only [List.length_cons]; push_cast; omega
        · rw [hlc, hll]; exact h.count_hi

theorem Inv.search_inv {s s1 : State} {L : List Nat} {C : Nat → List Nat} {key : Int}
    {p : Option Nat} (h : Inv s L C)
    (hrun : lru_cache_search s key = some (p, s1)) : ∃ L1 C1, Inv s1 L1 C1 := by
  by_cases hk : ∃ c ∈ L, key_at s c = key
  · obtain ⟨a, s2, i, haL, _, _, hs, hwf2, hlc, hll, _⟩ := lru_cache_search_hit h.wf h.count_hi hk
    rw [hs] at hrun
    cases hrun
    refine ⟨_, _, hwf2, ?_, ?_⟩
    · have := h.count_lo
      have := length_erase_of_mem haL
      rw [hlc]; simp only [List.length_cons]; push_cast; omega
    · rw [hlc, hll]; exact h.count_hi
  · cases hidx : bucket_index s.lru key with
    | none => simp [lru_cache_search, hidx] at hrun
    | some i =>
      rw [lru_cache_search_miss h.wf hidx (fun c hc hck => hk ⟨c, hc, hck⟩)] at hrun
      cases hrun
      exact ⟨L, C, h⟩

theorem Inv.remove_inv {s s1 : State} {L : List Nat} {C : Nat → List Nat} {key : Int}
    (h : Inv s L C) (hrun : lru_cache_remove s key = some s1) : ∃ L1 C1, Inv s1 L1 C1 := by
  by_cases hk : ∃ c ∈ L, key_at s c = key
  · obtain ⟨a, s3, C3, haL, _, hs, hwf3, hlc, hll, _⟩ := lru_cache_remove_hit h.wf h.count_hi hk
    rw [hs] at hrun
    cases hrun
    refine ⟨_, _, hwf3, ?_, ?_⟩
    · have := h.count_lo
      have := length_erase_of_mem haL
      rw [hlc]; omega
    · have := h.count_hi
      rw [hlc, hll]; omega
  · cases hidx : bucket_index s.lru key with
    | none => simp [lru_cache_remove, lru_cache_search, hidx] at hrun
    | some i =>
      rw [lru_cache_remove_miss h.wf hidx (fun c hc hck => hk ⟨c, hc, hck⟩)] at hrun
      cases hrun
      exact ⟨L, C, h⟩

theorem Inv.apply_op_inv {s s1 : State} {L : List Nat} {C : Nat → List Nat} (op : Op)
    (h : Inv s L C) (hrun : apply_op s op = some s1) : ∃ L1 C1, Inv s1 L1 C1 := by
  cases op with
  | add key value alloc_ok =>
    simp only [LRU.apply_op, Option.map_eq_some'] at hrun
    obtain ⟨⟨r, s2⟩, hadd, rfl⟩ := hrun
    exact h.add_inv hadd
  | search key =>
    simp only [LRU.apply_op, Option.map_eq_some'] at hrun
    obtain ⟨⟨p, s2⟩, hs, rfl⟩ := hrun
    exact h.search_inv hs
  | remove key => exact h.remove_inv hrun

theorem Inv.run_inv {ops : List Op} :
    ∀ {s s1 : State} {L : List Nat} {C : Nat → List Nat}, Inv s L C →
      run s ops = some s1 → ∃ L1 C1, Inv s1 L1 C1 := by
  induction ops with
  | nil =>
    intro s s1 L C h hrun
    simp only [LRU.run, Option.some.injEq] at hrun
    subst hrun
    exact ⟨L, C, h⟩
  | cons op ops ih =>
    intro s s1 L C h hrun
    simp only [LRU.run] at hrun
    cases hop : LRU.apply_op s op with
    | none => rw [hop] at hrun; cases hrun
    | some s2 =>
      rw [hop] at hrun
      obtain ⟨L2, C2, h2⟩ := h.apply_op_inv op hop
      exact ih h2 hrun

theorem Inv.create_inv {bucket_count entry_max : Int} {s : State} (hb : 1 ≤ bucket_count)
    (hc : 0 ≤ entry_max) (h : lru_cache_create bucket_count entry_max = some s) :
    Inv s [] (fun _ => []) := by
  simp only [lru_cache_create, not_lt.mpr (by omega : 0 ≤ bucket_count), if_false,
    Option.some.injEq] at h
  subst h
  refine ⟨⟨by simpa using hb, by simp; omega, rfl, rfl, ?_, ?_, ?_⟩, by simp, by simpa using hc⟩
  · intro i
    show IsSeg _ _ _ [] none
    simp [IsSeg, List.getD_eq_getElem?_getD, List.getElem?_replicate]
    split_ifs <;> rfl
  · intro i a ha; cases ha
  · intro a; simp

/-- Every state reachable from `lru_cache_create` with a positive bucket count and a capacity
that is not negative satisfies the invariant. -/
theorem Reachable.inv {bucket_count entry_max : Int} {s : State} (hb : 1 ≤ bucket_count)
    (hc : 0 ≤ entry_max) (h : Reachable bucket_count entry_max s) : ∃ L C, Inv s L C := by
  obtain ⟨s0, ops, hcreate, hrun⟩ := h
  exact (Inv.create_inv hb hc hcreate).run_inv hrun

/-! ## The error paths of pop and push -/

theorem static_pop_bucket_error {s s1 : State} {a r : Nat}
    (h : static_pop_bucket s a = some (r, s1)) (hr : r ≠ 0) :
    r = LRU_ERROR_NOT_FOUND ∧ s1 = s := by
  unfold static_pop_bucket at h
  split at h
  · cases h
  · split at h
    · cases h
    · split at h
      · cases h
      · simp only [Option.some.injEq, Prod.mk.injEq] at h
        exact ⟨h.1.symm, h.2.symm⟩
      · split at h
        · split at h
          · cases h
          · simp only [Option.map_eq_some', Prod.mk.injEq] at h
            obtain ⟨_, _, h0, _⟩ := h
            exact absurd h0.symm hr
        · split at h
          · cases h
          · split at h
            · cases h
            · split at h
              · simp only [Option.some.injEq, Prod.mk.injEq] at h
                exact ⟨h.1.symm, h.2.symm⟩
              · split at h
                · cases h
                · simp only [Option.map_eq_some', Prod.mk.injEq] at h
                  obtain ⟨_, _, h0, _⟩ := h
                  exact absurd h0.symm hr

theorem lru_cache_pop_not_found {s s1 : State} {entry : Option Nat}
    (h : lru_cache_pop s entry = some (LRU_ERROR_NOT_FOUND, s1)) :
    s1 = s ∧ ∃ a, entry = some a ∧ static_pop_bucket s a = some (LRU_ERROR_NOT_FOUND, s) := by
  unfold lru_cache_pop at h
  split at h
  · simp [LRU_ERROR_NULL, LRU_ERROR_NOT_FOUND] at h
  · rename_i a
    split at h
    · cases h
    · rename_i r s2 hb
      split at h
      · rename_i hr
        simp only [Option.some.injEq, Prod.mk.injEq] at h
        obtain ⟨h1, h2⟩ := h
        subst h1 h2
        obtain ⟨_, hs⟩ := static_pop_bucket_error hb hr
        subst hs
        exact ⟨rfl, a, rfl, hb⟩
      · split at h
        · cases h
        · simp [LRU_SUCCESS, LRU_ERROR_NOT_FOUND] at h

theorem lru_cache_push_full_iff (s : State) (a : Nat) :
    (∃ s1, lru_cache_push s (some a) = some (LRU_ERROR_FULL, s1)) ↔
      s.lru.list_limit ≤ s.lru.list_count := by
  constructor
  · rintro ⟨s1, h⟩
    by_contra hlt
    unfold lru_cache_push at h
    simp only [ge_iff_le, hlt, if_false] at h
    split at h
    · cases h
    · split at h
      · cases h
      · split at h
        · cases h
        · split at h
          · cases h
          · split at h
            · cases h
            · simp [LRU_SUCCESS, LRU_ERROR_FULL] at h
  · intro h
    exact ⟨s, lru_cache_push_full a h⟩

theorem lru_cache_push_full_state {s s1 : State} {entry : Option Nat}
    (h : lru_cache_push s entry = some (LRU_ERROR_FULL, s1)) : s1 = s := by
  cases entry with
  | none => simp [lru_cache_push, LRU_ERROR_NULL, LRU_ERROR_FULL] at h
  | some a =>
    have hfull := (lru_cache_push_full_iff s a).mp ⟨s1, h⟩
    rw [lru_cache_push_full a hfull] at h
    simp only [Option.some.injEq, Prod.mk.injEq, true_and] at h
    exact h.symm

/-- When the loop of `static_pop_bucket` ends at a cell whose `chain` is `NULL`, the entry is
not met on the chain. -/
theorem pop_bucket_loop_not_mem {m : List (Option lru_entry_t)} {a b2 : Nat}
    {e2 : lru_entry_t} (he2 : load m (some b2) = some e2) (hc2 : e2.chain = none) :
    ∀ (fuel fuel1 b : Nat), pop_bucket_loop fuel m b a = some b2 → b ≠ a →
      a ∉ walk_chain fuel1 m (some b) := by
  intro fuel
  induction fuel with
  | zero => intro fuel1 b h; simp [pop_bucket_loop] at h
  | succ k ih =>
    intro fuel1 b h hba
    cases fuel1 with
    | zero => simp [walk_chain]
    | succ k1 =>
      simp only [pop_bucket_loop] at h
      cases hb : load m (some b) with
      | none => simp [hb] at h
      | some eb =>
        simp only [hb] at h
        simp only [walk_chain, hb]
        cases hc : eb.chain with
        | none =>
          cases k1 <;> simp [walk_chain, Ne.symm hba]
        | some c =>
          simp only [hc] at h
          by_cases hca : c = a
          · simp only [hca, if_true, Option.some.injEq] at h
            subst h
            rw [hb] at he2
            cases he2
            rw [hc] at hc2
            cases hc2
          · simp only [hca, if_false] at h
            have := ih k1 c h hca
            simp [Ne.symm hba, this]

theorem static_pop_bucket_not_found_not_mem {s : State} {a i : Nat} {e : lru_entry_t}
    (h : static_pop_bucket s a = some (LRU_ERROR_NOT_FOUND, s))
    (he : load s.mem (some a) = some e) (hidx : bucket_index s.lru e.key = some i) :
    a ∉ chain_of s i := by
  have hilt := bucket_index_lt hidx
  unfold static_pop_bucket at h
  simp only [he, hidx, getElem?_eq_some_getD hilt] at h
  unfold chain_of
  cases hb : s.lru.bucket.getD i none with
  | none => simp [walk_chain, fuel_of]
  | some b =>
    simp only [hb] at h
    by_cases hba : b = a
    · subst hba
      simp only [if_true, he, store, Option.map_some', Option.some.injEq, Prod.mk.injEq] at h
      simp [LRU_SUCCESS, LRU_ERROR_NOT_FOUND] at h
    · simp only [hba, if_false] at h
      cases hl : pop_bucket_loop (fuel_of s) s.mem b a with
      | none => simp [hl] at h
      | some b2 =>
        simp only [hl] at h
        cases hb2 : load s.mem (some b2) with
        | none => simp [hb2] at h
        | some e2 =>
          simp only [hb2] at h
          by_cases hcond : e2.chain = none ∧ b2 ≠ a
          · exact pop_bucket_loop_not_mem hb2 hcond.1 _ _ _ hl hba
          · simp only [hcond, if_false] at h
            split at h
            · cases h
            · simp [LRU_SUCCESS, LRU_ERROR_NOT_FOUND] at h

/-! ## Push followed by pop -/

theorem set_load_self {m : List (Option lru_entry_t)} {a : Nat} {e : lru_entry_t}
    (h : load m (some a) = some e) : m.set a (some e) = m := by
  have hlt := load_some_lt h
  apply List.ext_getElem?
  intro n
  rw [List.getElem?_set]
  by_cases hn : a = n
  · subst hn
    simp only [load, List.getD_eq_getElem?_getD] at h
    simp only [if_true, hlt]
    rw [List.getElem?_eq_getElem hlt] at h ⊢
    simp only [Option.getD_some] at h
    rw [h]
  · simp [hn]

theorem getElem?_of_load {m : List (Option lru_entry_t)} {a : Nat} {e : lru_entry_t}
    (h : load m (some a) = some e) : m[a]? = some (some e) := by
  have hlt := load_some_lt h
  simp only [load, List.getD_eq_getElem?_getD] at h
  rw [List.getElem?_eq_getElem hlt] at h ⊢
  simp only [Option.getD_some] at h
  rw [h]

theorem set_getD_self {l : List (Option Nat)} {i : Nat} (h : i < l.length) :
    l.set i (l.getD i none) = l := by
  apply List.ext_getElem?
  intro n
  rw [List.getElem?_set]
  by_cases hn : i = n
  · subst hn
    simp [h, List.getD_eq_getElem?_getD, List.getElem?_eq_getElem h]
  · simp [hn]

theorem lru_cache_push_empty_eq {s : State} {a i : Nat} {e : lru_entry_t}
    (hlt : s.lru.list_count < s.lru.list_limit) (he : load s.mem (some a) = some e)
    (hidx : bucket_index s.lru e.key = some i)
    (hh : s.lru.head = none) (ht : s.lru.tail = none) :
    lru_cache_push s (some a) = some (LRU_SUCCESS, push_empty_state s a i e) := by
  have hb : s.lru.bucket[i]? = some (s.lru.bucket.getD i none) :=
    getElem?_eq_some_getD (bucket_index_lt hidx)
  have hfull : ¬ (s.lru.list_count ≥ s.lru.list_limit) := not_le.mpr hlt
  simp only [lru_cache_push, hfull, if_false, he, hidx, hb, store, hh, ht, LRU_SUCCESS,
    push_empty_state]
  simp

theorem lru_cache_push_cons_eq {s : State} {a i hd : Nat} {e ehd : lru_entry_t}
    (hlt : s.lru.list_count < s.lru.list_limit) (he : load s.mem (some a) = some e)
    (hidx : bucket_index s.lru e.key = some i)
    (hh : s.lru.head = some hd) (hehd : load s.mem (some hd) = some ehd) (hne : hd ≠ a) :
    lru_cache_push s (some a) = some (LRU_SUCCESS, push_cons_state s a i hd e ehd) := by
  have hb : s.lru.bucket[i]? = some (s.lru.bucket.getD i none) :=
    getElem?_eq_some_getD (bucket_index_lt hidx)
  have hfull : ¬ (s.lru.list_count ≥ s.lru.list_limit) := not_le.mpr hlt
  have halt := load_some_lt he
  have hhd1 : load (s.mem.set a (some { e with chain := s.lru.bucket.getD i none })) (some hd) =
      some ehd := by
    rw [load_set_of_ne _ hne]; exact hehd
  have hea2 : load ((s.mem.set a (some { e with chain := s.lru.bucket.getD i none })).set hd
      (some { ehd with prev := some a })) (some a) =
      some { e with chain := s.lru.bucket.getD i none } := by
    rw [load_set_of_ne _ (Ne.symm hne), load_set _ _ halt]; simp
  simp only [lru_cache_push, hfull, if_false, he, hidx, hb, store, hh, hhd1, hea2, LRU_SUCCESS,
    push_cons_state]
  simp

theorem lru_cache_pop_push_empty {s : State} {a i : Nat} {e : lru_entry_t}
    (he : load s.mem (some a) = some e)
    (hn : e.next = none) (hp : e.prev = none) (hc : e.chain = none)
    (hidx : bucket_index s.lru e.key = some i)
    (hh : s.lru.head = none) (ht : s.lru.tail = none) :
    lru_cache_pop (push_empty_state s a i e) (some a) = some (LRU_SUCCESS, s) := by
  have hilt := bucket_index_lt hidx
  have halt := load_some_lt he
  obtain ⟨k0, v0, n0, p0, c0⟩ := e
  simp only at hn hp hc hidx
  subst hn hp hc
  obtain ⟨m, ⟨bk, hd0, tl0, bc, lc, ll⟩⟩ := s
  simp only at hh ht hilt halt he hidx
  subst hh ht
  have hidx1 : ∀ (h1 t1 : Option Nat) (c1 : Int),
      bucket_index { bucket := bk.set i (some a), head := h1, tail := t1, bucket_count := bc,
                     list_count := c1, list_limit := ll } k0 = some i :=
    fun h1 t1 c1 => by
      simp only [bucket_index, List.length_set] at hidx ⊢
      exact hidx
  have hb1 : (bk.set i (some a))[i]? = some (some a) := by
    rw [List.getElem?_set]; simp [hilt]
  simp only [push_empty_state, lru_cache_pop, static_pop_bucket, load_set _ _ halt, if_true,
    hidx1, hb1, store, Option.map_some', List.set_set, static_pop_list, static_pop_list_unlink,
    and_self, LRU_SUCCESS, ne_eq, not_true_eq_false, if_false, set_getD_self hilt,
    set_load_self he, add_sub_cancel_right, List.length_set, he]

theorem lru_cache_pop_push_cons {s : State} {a i hd : Nat} {e ehd : lru_entry_t}
    (he : load s.mem (some a) = some e)
    (hn : e.next = none) (hp : e.prev = none) (hc : e.chain = none)
    (hidx : bucket_index s.lru e.key = some i)
    (hh : s.lru.head = some hd) (hehd : load s.mem (some hd) = some ehd) (hne : hd ≠ a)
    (hpv : ehd.prev = none) (ht : s.lru.tail ≠ some a) :
    lru_cache_pop (push_cons_state s a i hd e ehd) (some a) = some (LRU_SUCCESS, s) := by
  have hilt := bucket_index_lt hidx
  have halt := load_some_lt he
  have hhdlt := load_some_lt hehd
  obtain ⟨k0, v0, n0, p0, c0⟩ := e
  simp only at hn hp hc hidx
  subst hn hp hc
  obtain ⟨hk, hv, hnx, hpr, hch⟩ := ehd
  simp only at hpv
  subst hpv
  obtain ⟨m, ⟨bk, hd0, tl0, bc, lc, ll⟩⟩ := s
  simp only at hh ht hilt halt he hidx hehd hhdlt
  subst hh
  have hidx1 : ∀ (h1 t1 : Option Nat) (c1 : Int),
      bucket_index { bucket := bk.set i (some a), head := h1, tail := t1, bucket_count := bc,
                     list_count := c1, list_limit := ll } k0 = some i :=
    fun h1 t1 c1 => by
      simp only [bucket_index, List.length_set] at hidx ⊢
      exact hidx
  have hb1 : (bk.set i (some a))[i]? = some (some a) := by
    rw [List.getElem?_set]; simp [hilt]
  have ht1 : ¬ (some a = tl0) := fun h => ht h.symm
  have hl : ∀ (l : List (Option lru_entry_t)) (x : Option lru_entry_t) (b : Nat),
      a < l.length → load (l.set a x) (some b) = if b = a then x else load l (some b) :=
    fun l x b h => load_set x b h
  have hl2 : ∀ (l : List (Option lru_entry_t)) (x : Option lru_entry_t) (b : Nat),
      hd < l.length → load (l.set hd x) (some b) = if b = hd then x else load l (some b) :=
    fun l x b h => load_set x b h
  simp (disch := simp [halt, hhdlt]) only [push_cons_state, lru_cache_pop, static_pop_bucket,
    hl, hl2, if_true,
    hidx1, hb1, store, Option.map_some', List.set_set, static_pop_list, static_pop_list_unlink,
    LRU_SUCCESS, ne_eq, not_true_eq_false, if_false, set_getD_self hilt, true_and, ht1,
    add_sub_cancel_right, List.length_set, hne, Ne.symm hne, he, hehd]
  simp only [Option.some.injEq, Prod.mk.injEq, State.mk.injEq, true_and, and_true]
  apply List.ext_getElem?
  intro n
  simp only [List.getElem?_set, List.length_set]
  by_cases h1 : a = n
  · subst h1
    simp [halt, getElem?_of_load he]
  · by_cases h2 : hd = n
    · subst h2
      simp [h1, hhdlt, getElem?_of_load hehd]
    · simp [h1, h2]

theorem bucket_index_of_nonneg {c : lru_cache_t} {key : Int} (hpos : 0 < c.bucket_count)
    (hlen : (c.bucket.length : Int) = c.bucket_count) (hkey : 0 ≤ HASH key c.bucket_count) :
    ∃ i, bucket_index c key = some i := by
  have hlt : HASH key c.bucket_count < c.bucket_count := Int.tmod_lt_of_pos key hpos
  have hlt1 : (HASH key c.bucket_count).toNat < c.bucket.length := by
    rw [Int.toNat_lt hkey, hlen]; exact hlt
  exact ⟨(HASH key c.bucket_count).toNat, by simp [bucket_index, hpos.ne', hkey, hlt1]⟩

/-- A cache without entries in its lists is well formed, whatever the heap holds. -/
theorem WF.empty (m : List (Option lru_entry_t)) (n : Nat) (count limit : Int) (hn : 0 < n) :
    WF { mem := m
         lru := { bucket := List.replicate n none, head := none, tail := none,
                  bucket_count := n, list_count := count, list_limit := limit } }
      [] (fun _ => []) := by
  refine ⟨by simpa using hn, by simp, rfl, rfl, ?_, ?_, ?_⟩
  · intro i
    show IsSeg _ _ _ [] none
    simp only [IsSeg, List.getD_eq_getElem?_getD, List.getElem?_replicate]
    split_ifs <;> rfl
  · intro i a ha; cases ha
  · intro a; simp

theorem Reachable.wellFormed {bucket_count entry_max : Int} {s : State} (hb : 1 ≤ bucket_count)
    (hc : 0 ≤ entry_max) (h : Reachable bucket_count entry_max s) : WellFormed s := by
  obtain ⟨L, C, hinv⟩ := h.inv hb hc
  exact ⟨L, C, hinv.wf⟩

theorem ReachableBy.reachable {allowed : Op → Bool} {bucket_count entry_max : Int} {s : State}
    (h : ReachableBy allowed bucket_count entry_max s) : Reachable bucket_count entry_max s := by
  obtain ⟨s0, ops, hc, _, hrun⟩ := h
  exact ⟨s0, ops, hc, hrun⟩

/-! ## Caches that can never hold an entry -/

theorem Dead.add_dead {s s1 : State} {key value : Int} {alloc_ok : Bool} {r : Nat} (h : Dead s)
    (hrun : lru_cache_add s key value alloc_ok = some (r, s1)) : Dead s1 := by
  obtain ⟨ht, hbk, hcase⟩ := h
  by_cases hfresh : s.lru.list_count < s.lru.list_limit ∧ alloc_ok = true
  · obtain ⟨hlt, hok⟩ := hfresh
    subst hok
    have hbc : s.lru.bucket_count = 0 := by
      rcases hcase with h0 | ⟨h1, h2⟩
      · exact h0
      · omega
    rw [lru_cache_add_fresh_eq key value hlt] at hrun
    by_cases hroom : s.lru.list_count + 1 < s.lru.list_limit
    · have hidx : bucket_index (add_fresh_state s key value).lru
          ({ zero_entry with key := key, value := value } : lru_entry_t).key = none := by
        simp [bucket_index, add_fresh_state, hbc]
      rw [lru_cache_push_fault (by simp [add_fresh_state]; omega) (load_append_new _ _) hidx]
        at hrun
      cases hrun
    · rw [lru_cache_push_full _ (by simp [add_fresh_state]; omega)] at hrun
      simp only [Option.some.injEq, Prod.mk.injEq] at hrun
      obtain ⟨_, rfl⟩ := hrun
      exact ⟨ht, hbk, Or.inl hbc⟩
  · rw [lru_cache_add_alloc_error key value alloc_ok hfresh ht] at hrun
    cases hrun
    exact ⟨ht, hbk, hcase⟩

theorem Dead.search_dead {s s1 : State} {key : Int} {p : Option Nat} (h : Dead s)
    (hrun : lru_cache_search s key = some (p, s1)) : p = none ∧ s1 = s := by
  obtain ⟨_, hbk, _⟩ := h
  unfold lru_cache_search at hrun
  cases hidx : bucket_index s.lru key with
  | none => simp [hidx] at hrun
  | some i =>
    simp only [hidx, getElem?_eq_some_getD (bucket_index_lt hidx), hbk i, fuel_of, search_loop,
      Option.some.injEq, Prod.mk.injEq] at hrun
    exact ⟨hrun.1.symm, hrun.2.symm⟩

theorem Dead.apply_op_dead {s s1 : State} (op : Op) (h : Dead s)
    (hrun : apply_op s op = some s1) : Dead s1 := by
  cases op with
  | add key value alloc_ok =>
    simp only [LRU.apply_op, Option.map_eq_some'] at hrun
    obtain ⟨⟨r, s2⟩, hadd, rfl⟩ := hrun
    exact h.add_dead hadd
  | search key =>
    simp only [LRU.apply_op, Option.map_eq_some'] at hrun
    obtain ⟨⟨p, s2⟩, hs, rfl⟩ := hrun
    rw [(h.search_dead hs).2]; exact h
  | remove key =>
    simp only [LRU.apply_op, lru_cache_remove] at hrun
    cases hs : lru_cache_search s key with
    | none => simp [hs] at hrun
    | some ps =>
      obtain ⟨p, s2⟩ := ps
      obtain ⟨hp, hs2⟩ := h.search_dead hs
      subst hp hs2
      simp only [hs, Option.some.injEq] at hrun
      rw [← hrun]; exact h

theorem Dead.run_dead {ops : List Op} :
    ∀ {s s1 : State}, Dead s → run s ops = some s1 → Dead s1 := by
  induction ops with
  | nil =>
    intro s s1 h hrun
    simp only [LRU.run, Option.some.injEq] at hrun
    subst hrun
    exact h
  | cons op ops ih =>
    intro s s1 h hrun
    simp only [LRU.run] at hrun
    cases hop : LRU.apply_op s op with
    | none => rw [hop] at hrun; cases hrun
    | some s2 =>
      rw [hop] at hrun
      exact ih (h.apply_op_dead op hop) hrun

/-- Every reachable state, whatever the arguments of `lru_cache_create`, satisfies the
invariant or belongs to a cache that can never hold an entry. -/
theorem Reachable.inv_or_dead {bucket_count entry_max : Int} {s : State}
    (h : Reachable bucket_count entry_max s) : (∃ L C, Inv s L C) ∨ Dead s := by
  by_cases hgood : 1 ≤ bucket_count ∧ 0 ≤ entry_max
  · exact Or.inl (h.inv hgood.1 hgood.2)
  · right
    obtain ⟨s0, ops, hcreate, hrun⟩ := h
    refine Dead.run_dead ?_ hrun
    unfold lru_cache_create at hcreate
    split_ifs at hcreate with hneg
    simp only [Option.some.injEq] at hcreate
    subst hcreate
    refine ⟨rfl, ?_, ?_⟩
    · intro i
      simp only [List.getD_eq_getElem?_getD, List.getElem?_replicate]
      split_ifs <;> rfl
    · by_cases h0 : bucket_count = 0
      · exact Or.inl h0
      · exact Or.inr ⟨by simp only; omega, rfl⟩

/-! ## Reachable states, whatever the arguments of create -/

theorem Dead.add_head {s s1 : State} {key value : Int} {alloc_ok : Bool} {r : Nat} (h : Dead s)
    (hrun : lru_cache_add s key value alloc_ok = some (r, s1)) : s1.lru.head = s.lru.head := by
  obtain ⟨ht, hbk, hcase⟩ := h
  by_cases hfresh : s.lru.list_count < s.lru.list_limit ∧ alloc_ok = true
  · obtain ⟨hlt, hok⟩ := hfresh
    subst hok
    have hbc : s.lru.bucket_count = 0 := by
      rcases hcase with h0 | ⟨h1, h2⟩
      · exact h0
      · omega
    rw [lru_cache_add_fresh_eq key value hlt] at hrun
    by_cases hroom : s.lru.list_count + 1 < s.lru.list_limit
    · have hidx : bucket_index (add_fresh_state s key value).lru
          ({ zero_entry with key := key, value := value } : lru_entry_t).key = none := by
        simp [bucket_index, add_fresh_state, hbc]
      rw [lru_cache_push_fault (by simp [add_fresh_state]; omega) (load_append_new _ _) hidx]
        at hrun
      cases hrun
    · rw [lru_cache_push_full _ (by simp [add_fresh_state]; omega)] at hrun
      simp only [Option.some.injEq, Prod.mk.injEq] at hrun
      obtain ⟨_, rfl⟩ := hrun
      rfl
  · rw [lru_cache_add_alloc_error key value alloc_ok hfresh ht] at hrun
    cases hrun
    rfl

theorem Dead.apply_op_head {s s1 : State} (op : Op) (h : Dead s)
    (hrun : apply_op s op = some s1) : s1.lru.head = s.lru.head := by
  cases op with
  | add key value alloc_ok =>
    simp only [apply_op, Option.map_eq_some'] at hrun
    obtain ⟨⟨r, s2⟩, hadd, rfl⟩ := hrun
    exact h.add_head hadd
  | search key =>
    simp only [apply_op, Option.map_eq_some'] at hrun
    obtain ⟨⟨p, s2⟩, hs, rfl⟩ := hrun
    rw [(h.search_dead hs).2]
  | remove key =>
    simp only [apply_op, lru_cache_remove] at hrun
    cases hs : lru_cache_search s key with
    | none => simp [hs] at hrun
    | some ps =>
      obtain ⟨p, s2⟩ := ps
      obtain ⟨hp, hs2⟩ := h.search_dead hs
      subst hp hs2
      simp only [hs, Option.some.injEq] at hrun
      rw [← hrun]

theorem Dead.run_head {ops : List Op} :
    ∀ {s s1 : State}, Dead s → s.lru.head = none → run s ops = some s1 →
      s1.lru.head = none := by
  induction ops with
  | nil =>
    intro s s1 _ hh hrun
    simp only [run, Option.some.injEq] at hrun
    subst hrun
    exact hh
  | cons op ops ih =>
    intro s s1 h hh hrun
    simp only [run] at hrun
    cases hop : apply_op s op with
    | none => rw [hop] at hrun; cases hrun
    | some s2 =>
      rw [hop] at hrun
      exact ih (h.apply_op_dead op hop) (by rw [h.apply_op_head op hop]; exact hh) hrun

theorem Dead.chain_of_nil {s : State} (h : Dead s) (i : Nat) : chain_of s i = [] := by
  unfold chain_of
  rw [h.2.1 i]
  simp [fuel_of, walk_chain]

theorem recency_nil_of_head {s : State} (h : s.lru.head = none) : recency s = [] := by
  simp [recency, h, fuel_of, walk_next]

/-- Every reachable state, whatever the arguments of `lru_cache_create`, satisfies the
invariant, or has empty lists: no head, no tail, empty recency list and empty chains. -/
theorem Reachable.inv_or_nil {bucket_count entry_max : Int} {s : State}
    (h : Reachable bucket_count entry_max s) :
    (∃ L C, Inv s L C) ∨
      (s.lru.head = none ∧ s.lru.tail = none ∧ recency s = [] ∧ ∀ i, chain_of s i = []) := by
  rcases h.inv_or_dead with hinv | hdead
  · exact Or.inl hinv
  · right
    have hh : s.lru.head = none := by
      obtain ⟨s0, ops, hcreate, hrun⟩ := h
      by_cases hgood : 1 ≤ bucket_count ∧ 0 ≤ entry_max
      · obtain ⟨L, C, hinv⟩ := Reachable.inv hgood.1 hgood.2 ⟨s0, ops, hcreate, hrun⟩
        rw [hinv.wf.head_eq]
        have ht := hinv.wf.tail_eq
        rw [hdead.1] at ht
        cases L with
        | nil => rfl
        | cons x r => simp [List.getLast?_cons] at ht
      · have hd0 : Dead s0 ∧ s0.lru.head = none := by
          unfold lru_cache_create at hcreate
          split_ifs at hcreate with hneg
          simp only [Option.some.injEq] at hcreate
          subst hcreate
          refine ⟨⟨rfl, ?_, ?_⟩, rfl⟩
          · intro i
            simp only [List.getD_eq_getElem?_getD, List.getElem?_replicate]
            split_ifs <;> rfl
          · by_cases h0 : bucket_count = 0
            · exact Or.inl h0
            · exact Or.inr ⟨by simp only; omega, rfl⟩
        exact Dead.run_head hd0.1 hd0.2 hrun
    exact ⟨hh, hdead.1, recency_nil_of_head hh, hdead.chain_of_nil⟩

/-! ## Lemmas for the structure claims -/

theorem bucket_index_eq {c : lru_cache_t} {key : Int} {i : Nat}
    (h : bucket_index c key = some i) :
    0 ≤ HASH key c.bucket_count ∧ (i : Int) = HASH key c.bucket_count ∧ i < c.bucket.length := by
  unfold bucket_index at h
  split_ifs at h with h0 h1
  simp only [Option.some.injEq] at h
  subst h
  exact ⟨h1.1, Int.toNat_of_nonneg h1.1, h1.2⟩

/-- In a well-formed cache the entry after `a` in the recency list points back to `a`. -/
theorem WF.next_prev {s : State} {L : List Nat} {C : Nat → List Nat} (h : WF s L C)
    {a b : Nat} {ea : lru_entry_t} (ha : a ∈ L) (hea : load s.mem (some a) = some ea)
    (hn : ea.next = some b) :
    ∃ eb, load s.mem (some b) = some eb ∧ eb.prev = some a := by
  obtain ⟨pre, post, hsplit⟩ := List.append_of_mem ha
  have hnext := h.nexts
  rw [hsplit] at hnext
  obtain ⟨r, _, hr2⟩ := IsSeg.append.mp hnext
  obtain ⟨_, e1, he1, hpost⟩ := hr2
  rw [hea] at he1; cases he1
  cases post with
  | nil =>
    have : ea.next = none := hpost
    rw [hn] at this; cases this
  | cons b1 post1 =>
    have hb1 : ea.next = some b1 := hpost.1
    rw [hn] at hb1
    cases hb1
    have hprev := h.prevs
    rw [hsplit] at hprev
    have hrev : (pre ++ a :: b :: post1).reverse = post1.reverse ++ b :: a :: pre.reverse := by
      simp
    rw [hrev] at hprev
    obtain ⟨r2, _, hr3⟩ := IsSeg.append.mp hprev
    obtain ⟨_, eb, heb, hrest⟩ := hr3
    exact ⟨eb, heb, hrest.1⟩

theorem WF.head_prev {s : State} {L : List Nat} {C : Nat → List Nat} (h : WF s L C)
    {x : Nat} (hx : s.lru.head = some x) :
    ∃ e, load s.mem (some x) = some e ∧ e.prev = none := by
  cases L with
  | nil =>
    have : s.lru.head = none := h.nexts
    rw [hx] at this; cases this
  | cons y L1 =>
    have hy : s.lru.head = some y := h.nexts.1
    rw [hx] at hy
    cases hy
    have hp := h.prevs
    rw [List.reverse_cons] at hp
    obtain ⟨_, e, he, hpv⟩ := IsSeg.snoc_iff.mp hp
    exact ⟨e, he, hpv⟩

theorem WF.tail_next {s : State} {L : List Nat} {C : Nat → List Nat} (h : WF s L C)
    {x : Nat} (hx : s.lru.tail = some x) :
    ∃ e, load s.mem (some x) = some e ∧ e.next = none := by
  have hp := h.prevs
  cases hr : L.reverse with
  | nil =>
    rw [hr] at hp
    have : s.lru.tail = none := hp
    rw [hx] at this; cases this
  | cons y R =>
    rw [hr] at hp
    have hy : s.lru.tail = some y := hp.1
    rw [hx] at hy
    cases hy
    have hL : L = R.reverse ++ [x] := by
      have := congrArg List.reverse hr
      simpa using this
    have hn := h.nexts
    rw [hL] at hn
    obtain ⟨_, e, he, hnx⟩ := IsSeg.snoc_iff.mp hn
    exact ⟨e, he, hnx⟩

theorem Inv.add_limit {s s1 : State} {L : List Nat} {C : Nat → List Nat} {key value : Int}
    {alloc_ok : Bool} {r : Nat} (h : Inv s L C)
    (hrun : lru_cache_add s key value alloc_ok = some (r, s1)) :
    s1.lru.list_limit = s.lru.list_limit := by
  by_cases hfresh : s.lru.list_count < s.lru.list_limit ∧ alloc_ok = true
  · obtain ⟨hlt, hok⟩ := hfresh
    subst hok
    by_cases hroom : s.lru.list_count + 1 < s.lru.list_limit
    · cases hidx : bucket_index s.lru key with
      | none =>
        rw [lru_cache_add_fresh_fault value h.wf hroom hidx] at hrun
        cases hrun
      | some i =>
        obtain ⟨s4, hadd, _, _, hll, _⟩ := lru_cache_add_fresh_push_spec value h.wf hroom hidx
        rw [hadd] at hrun
        cases hrun
        exact hll
    · obtain ⟨hadd, _⟩ := lru_cache_add_fresh_full_spec key value h.wf hlt (by omega)
      rw [hadd] at hrun
      cases hrun
      rfl
  · cases ht : s.lru.tail with
    | none =>
      rw [lru_cache_add_alloc_error key value alloc_ok hfresh ht] at hrun
      cases hrun
      rfl
    | some t =>
      cases hidx : bucket_index s.lru key with
      | none =>
        rw [lru_cache_add_reclaim_fault value alloc_ok h.wf h.count_hi hfresh ht hidx] at hrun
        cases hrun
      | some i =>
        obtain ⟨s4, C4, hadd, _, _, _, hll, _⟩ :=
          lru_cache_add_reclaim_spec value alloc_ok h.wf h.count_hi hfresh ht hidx
        rw [hadd] at hrun
        cases hrun
        exact hll

theorem Inv.run_adds_limit {ops : List Op} :
    ∀ {s s1 : State} {L : List Nat} {C : Nat → List Nat}, Inv s L C →
      (∀ op ∈ ops, Op.is_add op = true) → run s ops = some s1 →
      s1.lru.list_limit = s.lru.list_limit := by
  induction ops with
  | nil =>
    intro s s1 L C _ _ hrun
    simp only [run, Option.some.injEq] at hrun
    subst hrun
    rfl
  | cons op ops ih =>
    intro s s1 L C h hall hrun
    simp only [run] at hrun
    cases hop : apply_op s op with
    | none => rw [hop] at hrun; cases hrun
    | some s2 =>
      rw [hop] at hrun
      obtain ⟨L2, C2, h2⟩ := h.apply_op_inv op hop
      have hrest := ih h2 (fun o ho => hall o (List.mem_cons_of_mem op ho)) hrun
      have hstep : s2.lru.list_limit = s.lru.list_limit := by
        have hop1 := hall op (List.mem_cons_self op ops)
        cases op with
        | add key value alloc_ok =>
          simp only [apply_op, Option.map_eq_some'] at hop
          obtain ⟨⟨r, s3⟩, hadd, rfl⟩ := hop
          exact h.add_limit hadd
        | search key => simp [Op.is_add] at hop1
        | remove key => simp [Op.is_add] at hop1
      rw [hrest, hstep]

theorem ReachableBy.adds_limit {bucket_count entry_max : Int} {s : State}
    (hb : 1 ≤ bucket_count) (hc : 0 ≤ entry_max)
    (h : ReachableBy Op.is_add bucket_count entry_max s) : s.lru.list_limit = entry_max := by
  obtain ⟨s0, ops, hcreate, hall, hrun⟩ := h
  rw [Inv.run_adds_limit (Inv.create_inv hb hc hcreate) hall hrun]
  simp only [lru_cache_create, not_lt.mpr (by omega : 0 ≤ bucket_count), if_false,
    Option.some.injEq] at hcreate
  rw [← hcreate]

/-! ## Lemmas for the frame of search -/

theorem create_wf {bucket_count entry_max : Int} {s : State} (hb : 1 ≤ bucket_count)
    (h : lru_cache_create bucket_count entry_max = some s) :
    WF s [] (fun _ => []) ∧ s.lru.list_count = 0 ∧ s.lru.list_limit = entry_max := by
  simp only [lru_cache_create, not_lt.mpr (by omega : 0 ≤ bucket_count), if_false,
    Option.some.injEq] at h
  subst h
  refine ⟨⟨by simpa using hb, by simp; omega, rfl, rfl, ?_, ?_, ?_⟩, rfl, rfl⟩
  · intro i
    show IsSeg _ _ _ [] none
    simp [IsSeg, List.getD_eq_getElem?_getD, List.getElem?_replicate]
    split_ifs <;> rfl
  · intro i a ha; cases ha
  · intro a; simp

/-- With a negative `list_limit` and empty lists no call changes the state. -/
theorem apply_op_of_negative_limit {s s1 : State} {C : Nat → List Nat} (op : Op)
    (h : WF s [] C) (hl : s.lru.list_limit < 0) (hc : s.lru.list_count = 0)
    (hrun : apply_op s op = some s1) : s1 = s := by
  have ht : s.lru.tail = none := h.prevs
  cases op with
  | add key value alloc_ok =>
    simp only [apply_op, Option.map_eq_some'] at hrun
    obtain ⟨⟨r, s2⟩, hadd, rfl⟩ := hrun
    rw [lru_cache_add_alloc_error key value alloc_ok (by rintro ⟨hlt, _⟩; omega) ht] at hadd
    cases hadd
    rfl
  | search key =>
    simp only [apply_op, Option.map_eq_some'] at hrun
    obtain ⟨⟨p, s2⟩, hs, rfl⟩ := hrun
    cases hidx : bucket_index s.lru key with
    | none => simp [lru_cache_search, hidx] at hs
    | some i =>
      rw [lru_cache_search_miss h hidx (fun c hc => by cases hc)] at hs
      cases hs
      rfl
  | remove key =>
    simp only [apply_op] at hrun
    cases hidx : bucket_index s.lru key with
    | none => simp [lru_cache_remove, lru_cache_search, hidx] at hrun
    | some i =>
      rw [lru_cache_remove_miss h hidx (fun c hc => by cases hc)] at hrun
      cases hrun
      rfl

theorem run_of_negative_limit {ops : List Op} :
    ∀ {s s1 : State} {C : Nat → List Nat}, WF s [] C → s.lru.list_limit < 0 →
      s.lru.list_count = 0 → run s ops = some s1 → s1 = s := by
  induction ops with
  | nil =>
    intro s s1 C _ _ _ hrun
    simp only [run, Option.some.injEq] at hrun
    exact hrun.symm
  | cons op ops ih =>
    intro s s1 C h hl hc hrun
    simp only [run] at hrun
    cases hop : apply_op s op with
    | none => rw [hop] at hrun; cases hrun
    | some s2 =>
      rw [hop] at hrun
      have h2 := apply_op_of_negative_limit op h hl hc hop
      subst h2
      exact ih h hl hc hrun

/-- A reachable state of a cache with a positive bucket count is well formed, and its
`list_count` is at most `list_limit` unless its recency list is empty. -/
theorem Reachable.wf_count {bucket_count entry_max : Int} {s : State} (hb : 1 ≤ bucket_count)
    (h : Reachable bucket_count entry_max s) :
    ∃ L C, WF s L C ∧ (s.lru.list_count ≤ s.lru.list_limit ∨ L = []) := by
  by_cases hc : 0 ≤ entry_max
  · obtain ⟨L, C, hinv⟩ := h.inv hb hc
    exact ⟨L, C, hinv.wf, Or.inl hinv.count_hi⟩
  · obtain ⟨s0, ops, hcreate, hrun⟩ := h
    obtain ⟨hwf, hcnt, hlim⟩ := create_wf hb hcreate
    have hs := run_of_negative_limit hwf (by rw [hlim]; omega) hcnt hrun
    subst hs
    exact ⟨[], _, hwf, Or.inr rfl⟩

/-- What `lru_cache_search` keeps, on a well-formed cache and for a key with a bucket. -/
theorem lru_cache_search_frame {s : State} {L : List Nat} {C : Nat → List Nat} {key : Int}
    {i : Nat} (h : WF s L C) (hcl : s.lru.list_count ≤ s.lru.list_limit ∨ L = [])
    (hidx : bucket_index s.lru key = some i) :
    ∃ p s1, lru_cache_search s key = some (p, s1) ∧
      (∀ j c, c ∈ chain_of s1 j ↔ c ∈ chain_of s j) ∧
      (recency s1).Perm (recency s) ∧
      (∀ c ∈ recency s, key_at s1 c = key_at s c ∧ value_at s1 c = value_at s c) ∧
      s1.mem.length = s.mem.length ∧
      s1.lru.list_count = s.lru.list_count ∧ s1.lru.list_limit = s.lru.list_limit ∧
      ((∀ c ∈ recency s, key_at s c ≠ key) → p = none ∧ s1 = s) := by
  by_cases hk : ∃ c ∈ L, key_at s c = key
  · have hcount : s.lru.list_count ≤ s.lru.list_limit := by
      rcases hcl with hc | hnil
      · exact hc
      · obtain ⟨c, hc, _⟩ := hk
        rw [hnil] at hc
        cases hc
    obtain ⟨a, s2, i1, haL, hka, hidx1, hsearch, hwf2, hlc, hll, _, _, hlen, hkv, _⟩ :=
      lru_cache_search_hit h hcount hk
    obtain ⟨ea, hea⟩ := h.allocated haL
    obtain ⟨i2, hidx2, hai2⟩ := h.index_of_mem haL hea
    have hi : i2 = i1 := by
      rw [← key_at_eq hea, hka, hidx1] at hidx2
      exact (Option.some.inj hidx2).symm
    subst hi
    refine ⟨some a, s2, hsearch, ?_, ?_, ?_, hlen, hlc, hll, ?_⟩
    · intro j c
      rw [hwf2.chain_of_eq j, h.chain_of_eq j]
      by_cases hj : j = i2
      · subst hj
        simp only [↓reduceIte, List.mem_cons]
        constructor
        · rintro (rfl | hc)
          · exact hai2
          · exact List.mem_of_mem_erase hc
        · intro hc
          by_cases hca : c = a
          · exact Or.inl hca
          · exact Or.inr ((List.mem_erase_of_ne hca).mpr hc)
      · simp only [hj, if_false]
    · rw [hwf2.recency_eq, h.recency_eq]
      exact (List.perm_cons_erase haL).symm
    · rw [h.recency_eq]
      intro c hc
      obtain ⟨ec, hec⟩ := h.allocated hc
      exact hkv.key_at hec
    · intro hno
      rw [h.recency_eq] at hno
      exact absurd hka (hno a haL)
  · have hmiss := lru_cache_search_miss h hidx (fun c hc hck => hk ⟨c, hc, hck⟩)
    exact ⟨none, s, hmiss, fun _ _ => Iff.rfl, List.Perm.refl _, fun _ _ => ⟨rfl, rfl⟩, rfl, rfl,
      rfl, fun _ => ⟨rfl, rfl⟩⟩

/-! ## Lemmas on the remainder and on the first match of search -/

theorem tmod_nonpos_of_neg (a b : Int) (ha : a < 0) : a.tmod b ≤ 0 := by
  cases a with
  | ofNat m => exact absurd ha (by simp)
  | negSucc m =>
    cases b with
    | ofNat n =>
      show -((((m + 1) % n : Nat)) : Int) ≤ 0
      omega
    | negSucc n =>
      show -((((m + 1) % (n + 1) : Nat)) : Int) ≤ 0
      omega

theorem neg_lt_tmod_of_pos (a b : Int) (hb : 0 < b) : -b < a.tmod b := by
  cases b with
  | negSucc n => exact absurd hb (by simp [Int.negSucc_lt_zero])
  | ofNat n =>
    have hn : 0 < n := by simpa using hb
    cases a with
    | ofNat m =>
      show -(n : Int) < (((m % n : Nat)) : Int)
      omega
    | negSucc m =>
      show -(n : Int) < -((((m + 1) % n : Nat)) : Int)
      have := Nat.mod_lt (m + 1) hn
      omega

theorem bucket_index_some_iff {c : lru_cache_t} (key : Int) (hpos : 0 < c.bucket_count)
    (hlen : (c.bucket.length : Int) = c.bucket_count) :
    (∃ i, bucket_index c key = some i) ↔ 0 ≤ HASH key c.bucket_count := by
  constructor
  · rintro ⟨i, hi⟩
    exact (bucket_index_eq hi).1
  · exact bucket_index_of_nonneg hpos hlen

/-- A hit of `lru_cache_search` at the first entry of the bucket chain that has the key. -/
theorem lru_cache_search_hit_first {s : State} {L : List Nat} {C : Nat → List Nat} {key : Int}
    {i a : Nat} {pre post : List Nat}
    (h : WF s L C) (hcl : s.lru.list_count ≤ s.lru.list_limit)
    (hidx : bucket_index s.lru key = some i) (hsplit : C i = pre ++ a :: post)
    (hpre : ∀ c ∈ pre, key_at s c ≠ key) (hka : key_at s a = key) :
    ∃ s2, lru_cache_search s key = some (some a, s2) ∧
      WF s2 (a :: L.erase a) (fun j => if j = i then a :: (C i).erase a else C j) ∧
      s2.lru.list_count = s.lru.list_count ∧ s2.lru.list_limit = s.lru.list_limit ∧
      s2.lru.bucket_count = s.lru.bucket_count ∧ s2.lru.bucket.length = s.lru.bucket.length ∧
      s2.mem.length = s.mem.length ∧ Keeps obs_kv s.mem s2.mem ∧ s2.lru.head = some a := by
  have hilt := bucket_index_lt hidx
  have hai : a ∈ C i := by rw [hsplit]; simp
  have haL : a ∈ L := (h.mem_iff a).mpr ⟨i, hai⟩
  obtain ⟨s1, e, i1, he, hidx1, hai1, hpop, hwf1, he1, hlc1, hll1, hbc1, hbl1, hlen1, hk1⟩ :=
    lru_cache_pop_spec h haL
  have hi1 : i1 = i := h.chain_unique hai hai1
  subst hi1
  have hnot : a ∉ L.erase a := fun hm => ((h.nexts.nodup).mem_erase_iff.mp hm).1 rfl
  have hidx2 : bucket_index s1.lru
      ({ e with next := none, prev := none, chain := none } : lru_entry_t).key = some i1 := by
    rw [bucket_index_congr _ hbc1 hbl1]; exact hidx1
  obtain ⟨s2, hpush, hwf2, hlc2, hll2, hbc2, hbl2, hlen2, hk2, hh2⟩ :=
    lru_cache_push_spec hwf1 he1 rfl rfl hidx2 hnot (by rw [hlc1, hll1]; omega)
  have hseg := h.chains i1
  rw [hsplit] at hseg
  have hloop := search_loop_hit hka pre (s.lru.bucket.getD i1 none) (fuel_of s) hseg hpre (by
    have := (h.chains i1).length_le
    rw [hsplit] at this
    simp at this
    simp [fuel_of]; omega)
  refine ⟨s2, ?_, ?_, by rw [hlc2, hlc1]; ring, by rw [hll2, hll1],
    by rw [hbc2, hbc1], by rw [hbl2, hbl1], by rw [hlen2, hlen1], hk1.trans hk2, hh2⟩
  · simp only [lru_cache_search, hidx, getElem?_eq_some_getD hilt]
    rw [hloop, hpop]
    simp only [hpush]
  · have hfun : (fun j => if j = i1 then a :: (C i1).erase a else C j) =
        (fun j => if j = i1 then a :: (fun j => if j = i1 then (C i1).erase a else C j) i1
          else (fun j => if j = i1 then (C i1).erase a else C j) j) := by
      funext j
      by_cases hj : j = i1 <;> simp [hj]
    rw [hfun]
    exact hwf2

theorem example_one_reachable : Reachable 4 4 example_one :=
  ⟨_, [Op.add 1 10 true], rfl, by decide⟩

theorem example_duplicate_wellFormed : WellFormed example_duplicate := by
  obtain ⟨L, C, hinv⟩ := example_one_reachable.inv (by decide) (by decide)
  have hL : L = [0] := by
    rw [← hinv.wf.recency_eq]
    decide
  refine ⟨L, C, hinv.wf.of_frame rfl rfl rfl rfl ?_⟩
  intro c hc
  rw [hL] at hc
  simp only [List.mem_singleton] at hc
  subst hc
  rfl

/-! ## The claims -/

/-- C1: on the cache of `lru_cache_create(4, 3)`, three calls of `lru_cache_add` with the
distinct keys 1, 2, 3 (every `calloc` succeeding) should leave three live entries, each found
by `lru_cache_search`.  The code leaves one: `list_count` is incremented by `lru_cache_add`
and again by `lru_cache_push`, so the second entry is refused by push and the third call
reuses the first entry; the keys 1 and 2 are not found. -/
theorem add_below_capacity_loses_entries :
    ∃ s0 s, lru_cache_create 4 3 = some s0 ∧
      run s0 [Op.add 1 10 true, Op.add 2 20 true, Op.add 3 30 true] = some s ∧
      recency_keys s = [3] ∧ s.lru.list_count = 3 ∧
      (lru_cache_search s 1).map Prod.fst = some none ∧
      (lru_cache_search s 2).map Prod.fst = some none := by
  refine ⟨_, _, rfl, rfl, ?_, ?_, ?_, ?_⟩ <;> decide

/-- C2: the scenario of the specification on `lru_cache_create(4, 2)`.  After `add(1,10)` and
`add(2,20)` the code holds key 2 only, `search(1)` returns `NULL` there, and after the whole
scenario `search(1)` still returns `NULL`, where the scenario expects an entry both times. -/
theorem scenario_capacity_two_loses_key_one :
    ∃ s0 s2 s6, lru_cache_create 4 2 = some s0 ∧
      run s0 [Op.add 1 10 true, Op.add 2 20 true] = some s2 ∧
      recency_keys s2 = [2] ∧ (lru_cache_search s2 1).map Prod.fst = some none ∧
      run s2 [Op.search 1, Op.add 3 30 true, Op.search 2, Op.search 3] = some s6 ∧
      recency_keys s6 = [3] ∧ (lru_cache_search s6 1).map Prod.fst = some none := by
  refine ⟨_, _, _, rfl, rfl, ?_, ?_, rfl, ?_, ?_⟩ <;> decide

/-- C3: on the cache of `lru_cache_create(4, 1)` the call `lru_cache_add(lru, 1, 10)` returns
`LRU_SUCCESS` and the recency list stays empty (`head` is `NULL`): the inner push is refused
with `LRU_ERROR_FULL` and its status is dropped.  On `lru_cache_create(4, 3)` the second add
returns `LRU_SUCCESS` while the head still has key 1. -/
theorem add_success_without_new_head :
    (∃ s0 s1, lru_cache_create 4 1 = some s0 ∧
      lru_cache_add s0 1 10 true = some (LRU_SUCCESS, s1) ∧ s1.lru.head = none) ∧
    (∃ s0 s1 s2, lru_cache_create 4 3 = some s0 ∧ run s0 [Op.add 1 10 true] = some s1 ∧
      lru_cache_add s1 2 20 true = some (LRU_SUCCESS, s2) ∧ recency_keys s2 = [1]) := by
  refine ⟨⟨_, _, rfl, rfl, rfl⟩, ⟨_, _, _, rfl, rfl, rfl, ?_⟩⟩
  decide

/-- C4: in every state reachable from `lru_cache_create` (bucket count and capacity at least
1) by add, search and remove calls, `lru_cache_search` of a key that has a live entry returns
an entry of the recency list with that key; afterwards this entry is the head and the recency
list is the old one with the entry moved to the front, the other entries in the same order. -/
theorem search_moves_entry_to_front (bucket_count entry_max : Int) (s : State) (key : Int)
    (hb : 1 ≤ bucket_count) (hc : 1 ≤ entry_max) (hs : Reachable bucket_count entry_max s)
    (hlive : ∃ c ∈ recency s, key_at s c = key) :
    ∃ a s1, lru_cache_search s key = some (some a, s1) ∧ a ∈ recency s ∧
      key_at s a = key ∧ key_at s1 a = key ∧ s1.lru.head = some a ∧
      recency s1 = a :: (recency s).erase a := by
  obtain ⟨L, C, hinv⟩ := hs.inv hb (by omega)
  rw [hinv.wf.recency_eq] at hlive ⊢
  obtain ⟨a, s2, i, haL, hka, _, hsearch, hwf2, _, _, _, _, _, hk, hh⟩ :=
    lru_cache_search_hit hinv.wf hinv.count_hi hlive
  obtain ⟨e, he⟩ := hinv.wf.allocated haL
  refine ⟨a, s2, hsearch, haL, hka, ?_, hh, hwf2.recency_eq⟩
  rw [(hk.key_at he).1]; exact hka

theorem example_state_reachable : Reachable 4 4 example_state :=
  ⟨_, [Op.add 1 10 true, Op.add 2 20 true, Op.search 1], rfl, by decide⟩

theorem search_moves_entry_to_front_witness :
    ∃ a s1, lru_cache_search example_state 2 = some (some a, s1) ∧ a ∈ recency example_state ∧
      key_at example_state a = 2 ∧ key_at s1 a = 2 ∧ s1.lru.head = some a ∧
      recency s1 = a :: (recency example_state).erase a :=
  search_moves_entry_to_front 4 4 example_state 2 (by decide) (by decide)
    example_state_reachable ⟨1, by decide, by decide⟩

/-- C6: in every state reachable from `lru_cache_create` (bucket count and capacity at least
1) by add, search and remove calls, `list_count <= list_limit`. -/
theorem count_le_limit (bucket_count entry_max : Int) (s : State)
    (hb : 1 ≤ bucket_count) (hc : 1 ≤ entry_max) (hs : Reachable bucket_count entry_max s) :
    s.lru.list_count ≤ s.lru.list_limit := by
  obtain ⟨L, C, hinv⟩ := hs.inv hb (by omega)
  exact hinv.count_hi

theorem count_le_limit_witness : example_state.lru.list_count ≤ example_state.lru.list_limit :=
  count_le_limit 4 4 example_state (by decide) (by decide) example_state_reachable

/-- C7: whenever `lru_cache_pop` returns `LRU_ERROR_NOT_FOUND` or `lru_cache_push` returns
`LRU_ERROR_FULL`, the state afterwards (heap of entries, hence the links of the entry, every
bucket, head, tail, `list_count`, `list_limit`) is the state before.  Push of an entry that is
not `NULL` returns `LRU_ERROR_FULL` exactly when `list_count >= list_limit`, and pop returns
`LRU_ERROR_NOT_FOUND` only for an entry that is not met on the bucket chain of its key. -/
theorem pop_push_error_atomic (s s1 : State) (entry : Option Nat)
    (h : lru_cache_pop s entry = some (LRU_ERROR_NOT_FOUND, s1) ∨
         lru_cache_push s entry = some (LRU_ERROR_FULL, s1)) :
    s1 = s ∧
    (∀ a, (∃ s2, lru_cache_push s (some a) = some (LRU_ERROR_FULL, s2)) ↔
      s.lru.list_limit ≤ s.lru.list_count) ∧
    (lru_cache_pop s entry = some (LRU_ERROR_NOT_FOUND, s1) →
      ∃ a e i, entry = some a ∧ load s.mem (some a) = some e ∧
        bucket_index s.lru e.key = some i ∧ a ∉ chain_of s i) := by
  refine ⟨?_, lru_cache_push_full_iff s, ?_⟩
  · rcases h with h | h
    · exact (lru_cache_pop_not_found h).1
    · exact lru_cache_push_full_state h
  · intro hpop
    obtain ⟨_, a, hent, hb⟩ := lru_cache_pop_not_found hpop
    have hb1 := hb
    unfold static_pop_bucket at hb1
    cases he : load s.mem (some a) with
    | none => simp [he] at hb1
    | some e =>
      cases hidx : bucket_index s.lru e.key with
      | none => simp [he, hidx] at hb1
      | some i => exact ⟨a, e, i, hent, he, hidx, static_pop_bucket_not_found_not_mem hb he hidx⟩

theorem pop_push_error_atomic_witness :
    lru_cache_pop example_detached (some 0) = some (LRU_ERROR_NOT_FOUND, example_detached) ∧
    (example_detached = example_detached ∧
      (∀ a, (∃ s2, lru_cache_push example_detached (some a) = some (LRU_ERROR_FULL, s2)) ↔
        example_detached.lru.list_limit ≤ example_detached.lru.list_count) ∧
      (lru_cache_pop example_detached (some 0) = some (LRU_ERROR_NOT_FOUND, example_detached) →
        ∃ a e i, some 0 = some a ∧ load example_detached.mem (some a) = some e ∧
          bucket_index example_detached.lru e.key = some i ∧ a ∉ chain_of example_detached i)) :=
  ⟨by decide, pop_push_error_atomic example_detached example_detached (some 0)
    (Or.inl (by decide))⟩

/-- C8 as stated fails: a well-formed empty cache with `list_count < list_limit` and a
detached entry with key -1, for which `lru_cache_push` has no defined result
(`HASH(-1, 4)` is -1, an index outside the bucket array), so that the pair push, pop does not
return `LRU_SUCCESS` twice. -/
theorem push_pop_roundtrip_negative_key :
    WellFormed example_negative ∧
      example_negative.lru.list_count < example_negative.lru.list_limit ∧
      load example_negative.mem (some 0) =
        some { key := -1, value := 10, next := none, prev := none, chain := none } ∧
      0 ∉ recency example_negative ∧ (∀ i, 0 ∉ chain_of example_negative i) ∧
      HASH (-1) 4 = -1 ∧
      ¬ ∃ s1 s2, lru_cache_push example_negative (some 0) = some (LRU_SUCCESS, s1) ∧
        lru_cache_pop s1 (some 0) = some (LRU_SUCCESS, s2) ∧ s2 = example_negative := by
  have hwf : WF example_negative [] (fun _ => []) := WF.empty _ 4 0 4 (by decide)
  refine ⟨⟨_, _, hwf⟩, by decide, rfl, by decide, ?_, by decide, ?_⟩
  · intro i
    rw [hwf.chain_of_eq i]
    simp
  · rintro ⟨s1, s2, h, _⟩
    have hnone : lru_cache_push example_negative (some 0) = none := by decide
    rw [hnone] at h
    cases h

/-- C8, amended: for every well-formed cache with `list_count < list_limit` and every
allocated entry that is detached (`next`, `prev` and `chain` all `NULL`, not in the recency
list) and whose key has a bucket index that is not negative (every non-negative key has),
`lru_cache_push` followed by `lru_cache_pop` of that entry both return `LRU_SUCCESS`, and the
state after the pop is exactly the state before the push. -/
theorem push_then_pop_restores (s : State) (a : Nat) (e : lru_entry_t)
    (hwf : WellFormed s) (hlt : s.lru.list_count < s.lru.list_limit)
    (he : load s.mem (some a) = some e)
    (hn : e.next = none) (hp : e.prev = none) (hc : e.chain = none)
    (hnot : a ∉ recency s) (hkey : 0 ≤ HASH e.key s.lru.bucket_count) :
    ∃ s1, lru_cache_push s (some a) = some (LRU_SUCCESS, s1) ∧
      lru_cache_pop s1 (some a) = some (LRU_SUCCESS, s) := by
  obtain ⟨L, C, h⟩ := hwf
  rw [h.recency_eq] at hnot
  obtain ⟨i, hidx⟩ := bucket_index_of_nonneg h.bc_pos h.bc_len hkey
  cases L with
  | nil =>
    have hh : s.lru.head = none := h.nexts
    have ht : s.lru.tail = none := h.prevs
    exact ⟨_, lru_cache_push_empty_eq hlt he hidx hh ht,
      lru_cache_pop_push_empty he hn hp hc hidx hh ht⟩
  | cons hd L1 =>
    have hh : s.lru.head = some hd := h.nexts.1
    have hne : hd ≠ a := fun hx => hnot (by simp [hx])
    have hpv := h.prevs
    rw [List.reverse_cons] at hpv
    obtain ⟨_, ehd, hehd, hhdp⟩ := IsSeg.snoc_iff.mp hpv
    have ht : s.lru.tail ≠ some a := fun htl => hnot (h.tail_mem htl)
    exact ⟨_, lru_cache_push_cons_eq hlt he hidx hh hehd hne,
      lru_cache_pop_push_cons he hn hp hc hidx hh hehd hne hhdp ht⟩

theorem push_then_pop_restores_witness :
    ∃ s1, lru_cache_push example_detached (some 0) = some (LRU_SUCCESS, s1) ∧
      lru_cache_pop s1 (some 0) = some (LRU_SUCCESS, example_detached) :=
  push_then_pop_restores example_detached 0
    { key := 1, value := 10, next := none, prev := none, chain := none }
    ⟨_, _, WF.empty _ 4 0 4 (by decide)⟩ (by decide) rfl rfl rfl rfl (by decide) (by decide)

/-- C10 as stated fails: on the well-formed empty cache of `lru_cache_create(4, 2)` the key
-1 has no live entry, and `lru_cache_remove(lru, -1)` has no defined result: its search reads
`lru->bucket[-1]`, outside the bucket array. -/
theorem remove_negative_key_undefined :
    ∃ s, lru_cache_create 4 2 = some s ∧ WellFormed s ∧ (∀ c ∈ recency s, key_at s c ≠ -1) ∧
      HASH (-1) s.lru.bucket_count = -1 ∧ lru_cache_remove s (-1) = none := by
  refine ⟨_, rfl, ⟨_, _, WF.empty [] 4 0 2 (by decide)⟩, by decide, by decide, by decide⟩

/-- C10, amended: for every well-formed cache and every key that has no live entry and whose
bucket index `HASH(key, bucket_count)` is not negative (every non-negative key has),
`lru_cache_remove` returns with the state unchanged: heap, buckets, head, tail, `list_count`
and `list_limit`. -/
theorem remove_absent_key_unchanged (s : State) (key : Int) (hwf : WellFormed s)
    (hkey : 0 ≤ HASH key s.lru.bucket_count) (habs : ∀ c ∈ recency s, key_at s c ≠ key) :
    lru_cache_remove s key = some s := by
  obtain ⟨L, C, h⟩ := hwf
  rw [h.recency_eq] at habs
  obtain ⟨i, hidx⟩ := bucket_index_of_nonneg h.bc_pos h.bc_len hkey
  exact lru_cache_remove_miss h hidx habs

theorem remove_absent_key_unchanged_witness :
    lru_cache_remove example_state 7 = some example_state :=
  remove_absent_key_unchanged example_state 7
    (example_state_reachable.wellFormed (by decide) (by decide)) (by decide) (by decide)

theorem example_full_reachable (allowed : Op → Bool) (h : allowed (Op.add 1 10 true) = true) :
    ReachableBy allowed 4 2 example_full :=
  ⟨_, [Op.add 1 10 true], rfl, by simpa using h, by decide⟩

/-- C5 as stated fails: `example_full` is reached by one add, is full, holds no duplicate
key, and its tail has key 1; the new key -1 is different from 1, and `lru_cache_add` of it has
no defined result: after the tail is popped, push indexes the bucket array at
`HASH(-1, 4) = -1`. -/
theorem add_negative_key_on_full_undefined :
    ReachableBy Op.is_add_or_search 4 2 example_full ∧
      example_full.lru.list_count = example_full.lru.list_limit ∧
      example_full.lru.tail = some 0 ∧ key_at example_full 0 = 1 ∧
      (recency_keys example_full).Nodup ∧ (-1 : Int) ∉ recency_keys example_full ∧
      HASH (-1) example_full.lru.bucket_count = -1 ∧
      lru_cache_add example_full (-1) 5 true = none ∧
      lru_cache_add example_full (-1) 5 false = none := by
  refine ⟨example_full_reachable _ rfl, rfl, rfl, ?_, ?_, ?_, ?_, ?_, ?_⟩ <;> decide

/-- C5, amended: in every state reachable from `lru_cache_create` by add and search calls
that is full (`list_count = list_limit`), has a tail and holds no duplicate keys, for every
key whose bucket index `HASH(key, bucket_count)` is not negative (every non-negative key) and
which differs from the key of the tail, `lru_cache_add` returns `LRU_SUCCESS`; afterwards the
head of the recency list is an entry with the new key and value, and `lru_cache_search` of the
old tail's key returns `NULL`. -/
theorem add_on_full_evicts_tail (bucket_count entry_max : Int) (s : State) (t : Nat)
    (key value : Int) (alloc_ok : Bool)
    (hs : ReachableBy Op.is_add_or_search bucket_count entry_max s)
    (hfull : s.lru.list_count = s.lru.list_limit) (ht : s.lru.tail = some t)
    (hnodup : (recency_keys s).Nodup) (hne : key ≠ key_at s t)
    (hkey : 0 ≤ HASH key s.lru.bucket_count) :
    ∃ s1 a, lru_cache_add s key value alloc_ok = some (LRU_SUCCESS, s1) ∧
      s1.lru.head = some a ∧ key_at s1 a = key ∧ value_at s1 a = value ∧
      lru_cache_search s1 (key_at s t) = some (none, s1) := by
  rcases hs.reachable.inv_or_dead with ⟨L, C, hinv⟩ | hdead
  · have h := hinv.wf
    obtain ⟨i, hidx⟩ := bucket_index_of_nonneg h.bc_pos h.bc_len hkey
    have hno : ¬ (s.lru.list_count < s.lru.list_limit ∧ alloc_ok = true) := by
      rintro ⟨hlt, _⟩; omega
    obtain ⟨s4, C4, hadd, htL, hwf4, _, _, hbc4, hbl4, _, hh4, hk4, hv4, hothers⟩ :=
      lru_cache_add_reclaim_spec value alloc_ok h hinv.count_hi hno ht hidx
    refine ⟨s4, t, hadd, hh4, hk4, hv4, ?_⟩
    obtain ⟨et, het⟩ := h.allocated htL
    obtain ⟨i0, hidx0, _⟩ := h.index_of_mem htL het
    have hidx4 : bucket_index s4.lru (key_at s t) = some i0 := by
      rw [key_at_eq het]
      exact (bucket_index_congr et.key hbc4 hbl4).trans hidx0
    refine lru_cache_search_miss hwf4 hidx4 ?_
    intro c hc
    rcases List.mem_cons.mp hc with rfl | hc
    · rw [hk4]; exact hne
    · obtain ⟨hct, hcL⟩ := (h.nexts.nodup).mem_erase_iff.mp hc
      rw [(hothers c hcL hct).1]
      intro hkeq
      rw [recency_keys, h.recency_eq] at hnodup
      exact hct (List.inj_on_of_nodup_map hnodup hcL htL hkeq)
  · rw [hdead.1] at ht
    cases ht

theorem add_on_full_evicts_tail_witness :
    ∃ s1 a, lru_cache_add example_full 3 30 true = some (LRU_SUCCESS, s1) ∧
      s1.lru.head = some a ∧ key_at s1 a = 3 ∧ value_at s1 a = 30 ∧
      lru_cache_search s1 (key_at example_full 0) = some (none, s1) :=
  add_on_full_evicts_tail 4 2 example_full 0 3 30 true (example_full_reachable _ rfl) rfl rfl
    (by decide) (by decide) (by decide)

/-- C9 as stated fails.  On the fresh cache of `lru_cache_create(4, 2)` an add whose `calloc`
fails returns `LRU_ERROR_ALLOC`; and on `lru_cache_create(4, 1)`, after one add, the next add
returns `LRU_ERROR_ALLOC` with every `calloc` succeeding (the first add left
`list_count = list_limit = 1` and an empty recency list). -/
theorem add_returns_alloc_error :
    (∃ s0, lru_cache_create 4 2 = some s0 ∧
      lru_cache_add s0 1 10 false = some (LRU_ERROR_ALLOC, s0)) ∧
    (∃ s0 s1, lru_cache_create 4 1 = some s0 ∧ run s0 [Op.add 1 10 true] = some s1 ∧
      lru_cache_add s1 2 20 true = some (LRU_ERROR_ALLOC, s1)) :=
  ⟨⟨_, rfl, rfl⟩, ⟨_, _, rfl, rfl, rfl⟩⟩

/-- C9, amended: in every state reached from `lru_cache_create` (bucket count and capacity at
least 1) by add calls only, a call of `lru_cache_add` that returns, returns `LRU_SUCCESS` or
`LRU_ERROR_ALLOC`, and it returns `LRU_ERROR_ALLOC` exactly when it gets no new cell
(`list_count >= list_limit`, or `calloc` fails) and the recency list is empty (`tail` is
`NULL`).  With a live entry in the cache and a key whose bucket index is not negative it
returns `LRU_SUCCESS`, whether or not `calloc` succeeds. -/
theorem add_alloc_error_iff_empty (bucket_count entry_max : Int) (s : State)
    (key value : Int) (alloc_ok : Bool) (hb : 1 ≤ bucket_count) (hc : 1 ≤ entry_max)
    (hs : ReachableBy Op.is_add bucket_count entry_max s) :
    (∀ r s1, lru_cache_add s key value alloc_ok = some (r, s1) →
      (r = LRU_SUCCESS ∨ r = LRU_ERROR_ALLOC) ∧
      (r = LRU_ERROR_ALLOC ↔
        s.lru.tail = none ∧ ¬ (s.lru.list_count < s.lru.list_limit ∧ alloc_ok = true))) ∧
    (s.lru.tail ≠ none → 0 ≤ HASH key s.lru.bucket_count →
      ∃ s1, lru_cache_add s key value alloc_ok = some (LRU_SUCCESS, s1)) := by
  obtain ⟨L, C, hinv⟩ := hs.reachable.inv hb (by omega)
  have h := hinv.wf
  have hne : LRU_SUCCESS ≠ LRU_ERROR_ALLOC := by decide
  constructor
  · intro r s1 hrun
    by_cases hfresh : s.lru.list_count < s.lru.list_limit ∧ alloc_ok = true
    · have hr : r = LRU_SUCCESS := by
        obtain ⟨hlt, hok⟩ := hfresh
        subst hok
        rw [lru_cache_add_fresh_eq key value hlt] at hrun
        split at hrun
        · cases hrun
        · simp only [Option.some.injEq, Prod.mk.injEq] at hrun
          exact hrun.1.symm
      subst hr
      exact ⟨Or.inl rfl, ⟨fun hx => absurd hx hne, fun hx => absurd hfresh hx.2⟩⟩
    · cases ht : s.lru.tail with
      | none =>
        rw [lru_cache_add_alloc_error key value alloc_ok hfresh ht] at hrun
        simp only [Option.some.injEq, Prod.mk.injEq] at hrun
        obtain ⟨rfl, _⟩ := hrun
        exact ⟨Or.inr rfl, ⟨fun _ => ⟨rfl, hfresh⟩, fun _ => rfl⟩⟩
      | some t =>
        have hr : r = LRU_SUCCESS := by
          cases hidx : bucket_index s.lru key with
          | none =>
            rw [lru_cache_add_reclaim_fault value alloc_ok h hinv.count_hi hfresh ht hidx] at hrun
            cases hrun
          | some i =>
            obtain ⟨s4, C4, hadd, _⟩ :=
              lru_cache_add_reclaim_spec value alloc_ok h hinv.count_hi hfresh ht hidx
            rw [hadd] at hrun
            simp only [Option.some.injEq, Prod.mk.injEq] at hrun
            exact hrun.1.symm
        subst hr
        exact ⟨Or.inl rfl, ⟨fun hx => absurd hx hne, fun hx => by cases hx.1⟩⟩
  · intro htail hkey
    obtain ⟨i, hidx⟩ := bucket_index_of_nonneg h.bc_pos h.bc_len hkey
    by_cases hfresh : s.lru.list_count < s.lru.list_limit ∧ alloc_ok = true
    · obtain ⟨hlt, hok⟩ := hfresh
      subst hok
      by_cases hroom : s.lru.list_count + 1 < s.lru.list_limit
      · obtain ⟨s4, hadd, _⟩ := lru_cache_add_fresh_push_spec value h hroom hidx
        exact ⟨s4, hadd⟩
      · exact ⟨_, (lru_cache_add_fresh_full_spec key value h hlt (by omega)).1⟩
    · cases ht : s.lru.tail with
      | none => exact absurd ht htail
      | some t =>
        obtain ⟨s4, C4, hadd, _⟩ :=
          lru_cache_add_reclaim_spec value alloc_ok h hinv.count_hi hfresh ht hidx
        exact ⟨s4, hadd⟩

theorem add_alloc_error_iff_empty_witness :
    (∀ r s1, lru_cache_add example_full 3 30 false = some (r, s1) →
      (r = LRU_SUCCESS ∨ r = LRU_ERROR_ALLOC) ∧
      (r = LRU_ERROR_ALLOC ↔
        example_full.lru.tail = none ∧
          ¬ (example_full.lru.list_count < example_full.lru.list_limit ∧ false = true))) ∧
    (example_full.lru.tail ≠ none → 0 ≤ HASH 3 example_full.lru.bucket_count →
      ∃ s1, lru_cache_add example_full 3 30 false = some (LRU_SUCCESS, s1)) :=
  add_alloc_error_iff_empty 4 2 example_full 3 30 false (by decide) (by decide)
    (example_full_reachable _ rfl)

/-- C11: in every state reachable from `lru_cache_create` by add, search and remove calls that
holds no duplicate keys, `lru_cache_remove` of a key that has a live entry returns, the entry
that had the key is then in neither structure (the recency list is the old one with that
entry erased, the other entries in the same order, and no bucket chain holds it), and
`lru_cache_search` of the key returns `NULL`. -/
theorem remove_deletes_entry (bucket_count entry_max : Int) (s : State) (key : Int)
    (hs : Reachable bucket_count entry_max s) (hnodup : (recency_keys s).Nodup)
    (hlive : ∃ c ∈ recency s, key_at s c = key) :
    ∃ a s1, a ∈ recency s ∧ key_at s a = key ∧ lru_cache_remove s key = some s1 ∧
      recency s1 = (recency s).erase a ∧ a ∉ recency s1 ∧ (∀ i, a ∉ chain_of s1 i) ∧
      lru_cache_search s1 key = some (none, s1) := by
  rcases hs.inv_or_nil with ⟨L, C, hinv⟩ | ⟨_, _, hnil, _⟩
  · have h := hinv.wf
    rw [recency_keys, h.recency_eq] at hnodup
    rw [h.recency_eq] at hlive ⊢
    obtain ⟨a, s3, C3, haL, hka, hrem, hwf3, _, _, hbc, hbl, _, hothers⟩ :=
      lru_cache_remove_hit h hinv.count_hi hlive
    have hnot : a ∉ L.erase a := fun hm => ((h.nexts.nodup).mem_erase_iff.mp hm).1 rfl
    obtain ⟨ea, hea⟩ := h.allocated haL
    obtain ⟨i0, hidx0, _⟩ := h.index_of_mem haL hea
    have hidx3 : bucket_index s3.lru key = some i0 := by
      rw [← hka, key_at_eq hea]
      exact (bucket_index_congr ea.key hbc hbl).trans hidx0
    refine ⟨a, s3, haL, hka, hrem, hwf3.recency_eq, by rw [hwf3.recency_eq]; exact hnot, ?_, ?_⟩
    · intro i
      rw [hwf3.chain_of_eq i]
      exact hwf3.not_mem_chain hnot i
    · refine lru_cache_search_miss hwf3 hidx3 ?_
      intro c hc
      obtain ⟨hca, hcL⟩ := (h.nexts.nodup).mem_erase_iff.mp hc
      rw [(hothers c hcL hca).1]
      intro hkeq
      exact hca (List.inj_on_of_nodup_map hnodup hcL haL (hkeq.trans hka.symm))
  · obtain ⟨c, hc, _⟩ := hlive
    rw [hnil] at hc
    cases hc

theorem remove_deletes_entry_witness :
    ∃ a s1, a ∈ recency example_state ∧ key_at example_state a = 2 ∧
      lru_cache_remove example_state 2 = some s1 ∧
      recency s1 = (recency example_state).erase a ∧ a ∉ recency s1 ∧
      (∀ i, a ∉ chain_of s1 i) ∧ lru_cache_search s1 2 = some (none, s1) :=
  remove_deletes_entry 4 4 example_state 2 example_state_reachable (by decide)
    ⟨1, by decide, by decide⟩

/-- C13: on the cache of `lru_cache_create(4, 2)` after `add(1,10)`, one entry is reachable
from `head` and the bucket chains hold one entry in all, but `list_count` is 2: it is
incremented by `lru_cache_add` and again by `lru_cache_push`. -/
theorem count_is_not_number_of_nodes :
    ∃ s0 s, lru_cache_create 4 2 = some s0 ∧ run s0 [Op.add 1 10 true] = some s ∧
      s.lru.list_count = 2 ∧ (recency s).length = 1 ∧
      ((List.range 4).map (fun i => (chain_of s i).length)).sum = 1 := by
  refine ⟨_, _, rfl, rfl, ?_, ?_, ?_⟩ <;> decide

/-- C16: on the cache of `lru_cache_create(4, 1)` the call `lru_cache_add(lru, 1, 10)` gets a
new cell, increments `list_count` to 1 and calls `lru_cache_push` in the state
`add_fresh_state`; that push returns `LRU_ERROR_FULL` and inserts nothing, and add returns
`LRU_SUCCESS` all the same. -/
theorem add_inner_push_returns_full :
    ∃ s0, lru_cache_create 4 1 = some s0 ∧
      (lru_cache_add s0 1 10 true =
        match lru_cache_push (add_fresh_state s0 1 10) (some s0.mem.length) with
        | none => none
        | some (_, s4) => some (LRU_SUCCESS, s4)) ∧
      lru_cache_push (add_fresh_state s0 1 10) (some s0.mem.length) =
        some (LRU_ERROR_FULL, add_fresh_state s0 1 10) ∧
      lru_cache_add s0 1 10 true = some (LRU_SUCCESS, add_fresh_state s0 1 10) ∧
      recency (add_fresh_state s0 1 10) = [] := by
  refine ⟨_, rfl, ?_, ?_, ?_, ?_⟩ <;> decide

/-- C17: in every state reachable from `lru_cache_create` by add, search and remove calls,
`lru_cache_remove` of a key that has a live entry returns with `list_limit` decreased by
exactly 1 and `list_count` decreased by exactly 1. -/
theorem remove_decrements_limit_and_count (bucket_count entry_max : Int) (s : State)
    (key : Int) (hs : Reachable bucket_count entry_max s)
    (hlive : ∃ c ∈ recency s, key_at s c = key) :
    ∃ s1, lru_cache_remove s key = some s1 ∧
      s1.lru.list_limit = s.lru.list_limit - 1 ∧ s1.lru.list_count = s.lru.list_count - 1 := by
  rcases hs.inv_or_nil with ⟨L, C, hinv⟩ | ⟨_, _, hnil, _⟩
  · rw [hinv.wf.recency_eq] at hlive
    obtain ⟨a, s3, C3, _, _, hrem, _, hlc, hll, _⟩ :=
      lru_cache_remove_hit hinv.wf hinv.count_hi hlive
    exact ⟨s3, hrem, hll, hlc⟩
  · obtain ⟨c, hc, _⟩ := hlive
    rw [hnil] at hc
    cases hc

theorem remove_decrements_limit_and_count_witness :
    ∃ s1, lru_cache_remove example_state 2 = some s1 ∧
      s1.lru.list_limit = example_state.lru.list_limit - 1 ∧
      s1.lru.list_count = example_state.lru.list_count - 1 :=
  remove_decrements_limit_and_count 4 4 example_state 2 example_state_reachable
    ⟨1, by decide, by decide⟩

/-- C14: in every state reachable from `lru_cache_create` by add, search and remove calls,
the entries reachable from `head` via `next` are exactly the entries of the bucket chains;
each occurs once in the recency list, once in its chain and in no other chain; and its chain
is the one at index `HASH(key, bucket_count)`, which is `key mod bucket_count` for a key that
is not negative. -/
theorem entries_in_list_and_one_chain (bucket_count entry_max : Int) (s : State)
    (hs : Reachable bucket_count entry_max s) :
    (∀ c, c ∈ recency s ↔ ∃ i, c ∈ chain_of s i) ∧
    (recency s).Nodup ∧ (∀ i, (chain_of s i).Nodup) ∧
    (∀ i c, c ∈ chain_of s i →
      i < s.lru.bucket.length ∧ (i : Int) = HASH (key_at s c) s.lru.bucket_count ∧
      (0 ≤ key_at s c → (i : Int) = key_at s c % s.lru.bucket_count) ∧
      ∀ j, c ∈ chain_of s j → j = i) := by
  rcases hs.inv_or_nil with ⟨L, C, hinv⟩ | ⟨_, _, hnil, hch⟩
  · have h := hinv.wf
    have hco : ∀ i, chain_of s i = C i := h.chain_of_eq
    rw [h.recency_eq]
    simp only [hco]
    refine ⟨h.mem_iff, h.nexts.nodup, fun i => (h.chains i).nodup, ?_⟩
    intro i c hc
    obtain ⟨hnn, heq, hlt⟩ := bucket_index_eq (h.hash i c hc)
    refine ⟨hlt, heq, ?_, fun j hj => h.chain_unique hc hj⟩
    intro hk
    rw [heq, HASH, Int.tmod_eq_emod hk (le_of_lt h.bc_pos)]
  · simp [hnil, hch]

theorem entries_in_list_and_one_chain_witness :
    (∀ c, c ∈ recency example_state ↔ ∃ i, c ∈ chain_of example_state i) ∧
    (recency example_state).Nodup ∧ (∀ i, (chain_of example_state i).Nodup) ∧
    (∀ i c, c ∈ chain_of example_state i →
      i < example_state.lru.bucket.length ∧
      (i : Int) = HASH (key_at example_state c) example_state.lru.bucket_count ∧
      (0 ≤ key_at example_state c →
        (i : Int) = key_at example_state c % example_state.lru.bucket_count) ∧
      ∀ j, c ∈ chain_of example_state j → j = i) :=
  entries_in_list_and_one_chain 4 4 example_state example_state_reachable

/-- C15: in every state reachable from `lru_cache_create` by add, search and remove calls,
`head` is `NULL` exactly when `tail` is, the `prev` of the head and the `next` of the tail are
`NULL`, the walk from `head` along `next` starts at the head and ends at the tail, and when
the `next` of an entry `a` of the list is `b`, the `prev` of `b` is `a`. -/
theorem recency_list_doubly_linked (bucket_count entry_max : Int) (s : State)
    (hs : Reachable bucket_count entry_max s) :
    (s.lru.head = none ↔ s.lru.tail = none) ∧
    (∀ x, s.lru.head = some x → ∃ e, load s.mem (some x) = some e ∧ e.prev = none) ∧
    (∀ x, s.lru.tail = some x → ∃ e, load s.mem (some x) = some e ∧ e.next = none) ∧
    (recency s).head? = s.lru.head ∧ (recency s).getLast? = s.lru.tail ∧
    (∀ a b ea, a ∈ recency s → load s.mem (some a) = some ea → ea.next = some b →
      ∃ eb, load s.mem (some b) = some eb ∧ eb.prev = some a) := by
  rcases hs.inv_or_nil with ⟨L, C, hinv⟩ | ⟨hh, ht, hnil, _⟩
  · have h := hinv.wf
    rw [h.recency_eq]
    refine ⟨?_, fun x hx => h.head_prev hx, fun x hx => h.tail_next hx, h.head_eq.symm,
      h.tail_eq.symm, fun a b ea ha hea hn => h.next_prev ha hea hn⟩
    rw [h.head_eq, h.tail_eq]
    cases L with
    | nil => simp
    | cons x r => simp [List.getLast?_cons]
  · rw [hnil, hh, ht]
    simp

theorem recency_list_doubly_linked_witness :
    (example_state.lru.head = none ↔ example_state.lru.tail = none) ∧
    (∀ x, example_state.lru.head = some x →
      ∃ e, load example_state.mem (some x) = some e ∧ e.prev = none) ∧
    (∀ x, example_state.lru.tail = some x →
      ∃ e, load example_state.mem (some x) = some e ∧ e.next = none) ∧
    (recency example_state).head? = example_state.lru.head ∧
    (recency example_state).getLast? = example_state.lru.tail ∧
    (∀ a b ea, a ∈ recency example_state → load example_state.mem (some a) = some ea →
      ea.next = some b → ∃ eb, load example_state.mem (some b) = some eb ∧ eb.prev = some a) :=
  recency_list_doubly_linked 4 4 example_state example_state_reachable

/-- C19: in every state reachable from `lru_cache_create` (bucket count at least 1, capacity
`C` at least 0) by add, search and remove calls, twice the number of entries reachable from
`head` is at most `list_count`, which is at most `list_limit`; and when the calls are all
adds, the number of live entries is at most `C / 2` rounded down. -/
theorem count_at_least_twice_live (bucket_count entry_max : Int) (s : State)
    (hb : 1 ≤ bucket_count) (hc : 0 ≤ entry_max) (hs : Reachable bucket_count entry_max s) :
    2 * ((recency s).length : Int) ≤ s.lru.list_count ∧
    s.lru.list_count ≤ s.lru.list_limit ∧
    (ReachableBy Op.is_add bucket_count entry_max s →
      ((recency s).length : Int) ≤ entry_max / 2) := by
  obtain ⟨L, C, hinv⟩ := hs.inv hb hc
  rw [hinv.wf.recency_eq]
  refine ⟨hinv.count_lo, hinv.count_hi, ?_⟩
  intro hadds
  have hlim := hadds.adds_limit hb hc
  have h1 := hinv.count_lo
  have h2 := hinv.count_hi
  omega

theorem count_at_least_twice_live_witness :
    2 * ((recency example_full).length : Int) ≤ example_full.lru.list_count ∧
    example_full.lru.list_count ≤ example_full.lru.list_limit ∧
    (ReachableBy Op.is_add 4 2 example_full →
      ((recency example_full).length : Int) ≤ 2 / 2) :=
  count_at_least_twice_live 4 2 example_full (by decide) (by decide)
    (example_full_reachable (fun _ => true) rfl).reachable

/-- C12, counterexample: `lru_cache_search` has no defined result at the key -1 on the fresh
cache of `lru_cache_create(4, 2)`, where `HASH(-1, 4)` is -1 and the bucket array is read at
index -1, nor at the key 1 on the cache of `lru_cache_create(0, 2)`, where the remainder
divides by zero. -/
theorem search_undefined_outside_index_range :
    (∃ s, lru_cache_create 4 2 = some s ∧ Reachable 4 2 s ∧
      HASH (-1) s.lru.bucket_count = -1 ∧ lru_cache_search s (-1) = none) ∧
    (∃ s, lru_cache_create 0 2 = some s ∧ Reachable 0 2 s ∧
      s.lru.bucket_count = 0 ∧ lru_cache_search s 1 = none) := by
  refine ⟨⟨_, rfl, ⟨_, [], rfl, rfl⟩, by decide, by decide⟩,
    ⟨_, rfl, ⟨_, [], rfl, rfl⟩, by decide, by decide⟩⟩

/-- C12, amended: in every state reachable from `lru_cache_create` with a bucket count of at
least 1 by add, search and remove calls, `lru_cache_search` of a key whose bucket index is not
negative (every non-negative key) returns, every bucket chain holds the same entries after it
as before, the recency list holds the same entries, each with the same key and value, no cell
is allocated, `list_count` and `list_limit` are unchanged, and when no live entry has the key
the result is `NULL` and the state is unchanged. -/
theorem search_keeps_entries (bucket_count entry_max : Int) (s : State) (key : Int)
    (hb : 1 ≤ bucket_count) (hs : Reachable bucket_count entry_max s)
    (hkey : 0 ≤ HASH key s.lru.bucket_count) :
    ∃ p s1, lru_cache_search s key = some (p, s1) ∧
      (∀ j c, c ∈ chain_of s1 j ↔ c ∈ chain_of s j) ∧
      (recency s1).Perm (recency s) ∧
      (∀ c ∈ recency s, key_at s1 c = key_at s c ∧ value_at s1 c = value_at s c) ∧
      s1.mem.length = s.mem.length ∧
      s1.lru.list_count = s.lru.list_count ∧ s1.lru.list_limit = s.lru.list_limit ∧
      ((∀ c ∈ recency s, key_at s c ≠ key) → p = none ∧ s1 = s) := by
  obtain ⟨L, C, h, hcl⟩ := hs.wf_count hb
  obtain ⟨i, hidx⟩ := bucket_index_of_nonneg h.bc_pos h.bc_len hkey
  exact lru_cache_search_frame h hcl hidx

theorem search_keeps_entries_witness :
    ∃ p s1, lru_cache_search example_state 2 = some (p, s1) ∧
      (∀ j c, c ∈ chain_of s1 j ↔ c ∈ chain_of example_state j) ∧
      (recency s1).Perm (recency example_state) ∧
      (∀ c ∈ recency example_state,
        key_at s1 c = key_at example_state c ∧ value_at s1 c = value_at example_state c) ∧
      s1.mem.length = example_state.mem.length ∧
      s1.lru.list_count = example_state.lru.list_count ∧
      s1.lru.list_limit = example_state.lru.list_limit ∧
      ((∀ c ∈ recency example_state, key_at example_state c ≠ 2) →
        p = none ∧ s1 = example_state) :=
  search_keeps_entries 4 4 example_state 2 (by decide) example_state_reachable (by decide)

/-- C18, counterexample: on the cache of `lru_cache_create(4, 2)`, whose bucket count is 4,
the index `HASH(-1, 4)` is -1, which is not in `0 .. 3`: the bucket access has no defined
result, and neither have `lru_cache_add`, `lru_cache_search` and `lru_cache_remove` of the
key -1. -/
theorem hash_of_negative_key_out_of_bounds :
    ∃ s, lru_cache_create 4 2 = some s ∧ 1 ≤ s.lru.bucket_count ∧
      HASH (-1) s.lru.bucket_count = -1 ∧ ¬ 0 ≤ HASH (-1) s.lru.bucket_count ∧
      bucket_index s.lru (-1) = none ∧
      lru_cache_add s (-1) 0 true = none ∧ lru_cache_remove s (-1) = none := by
  refine ⟨_, rfl, by decide, by decide, by decide, by decide, by decide, by decide⟩

/-- C18, amended: for every cache with a bucket count of at least 1 whose bucket array has
that many slots and every key, the index `HASH(key, bucket_count)` lies strictly between
`-bucket_count` and `bucket_count`; for a key that is not negative it is at least 0, so the
bucket access is inside the array; for a negative key it is at most 0; and the bucket access
is inside the array exactly when the index is not negative. -/
theorem hash_index_bounds (c : lru_cache_t) (key : Int) (hb : 1 ≤ c.bucket_count)
    (hlen : (c.bucket.length : Int) = c.bucket_count) :
    -c.bucket_count < HASH key c.bucket_count ∧ HASH key c.bucket_count < c.bucket_count ∧
    (0 ≤ key → 0 ≤ HASH key c.bucket_count ∧
      ∃ i, bucket_index c key = some i ∧ (i : Int) = HASH key c.bucket_count ∧
        i < c.bucket.length) ∧
    (key < 0 → HASH key c.bucket_count ≤ 0) ∧
    ((∃ i, bucket_index c key = some i) ↔ 0 ≤ HASH key c.bucket_count) := by
  have hpos : 0 < c.bucket_count := by omega
  refine ⟨neg_lt_tmod_of_pos key _ hpos, Int.tmod_lt_of_pos key hpos, ?_,
    tmod_nonpos_of_neg key _, bucket_index_some_iff key hpos hlen⟩
  intro hk
  have h0 : 0 ≤ HASH key c.bucket_count := Int.tmod_nonneg _ hk
  obtain ⟨i, hi⟩ := bucket_index_of_nonneg hpos hlen h0
  exact ⟨h0, i, hi, (bucket_index_eq hi).2.1, (bucket_index_eq hi).2.2⟩

theorem hash_index_bounds_witness :
    -example_state.lru.bucket_count < HASH 6 example_state.lru.bucket_count ∧
    HASH 6 example_state.lru.bucket_count < example_state.lru.bucket_count ∧
    (0 ≤ (6 : Int) → 0 ≤ HASH 6 example_state.lru.bucket_count ∧
      ∃ i, bucket_index example_state.lru 6 = some i ∧
        (i : Int) = HASH 6 example_state.lru.bucket_count ∧
        i < example_state.lru.bucket.length) ∧
    ((6 : Int) < 0 → HASH 6 example_state.lru.bucket_count ≤ 0) ∧
    ((∃ i, bucket_index example_state.lru 6 = some i) ↔
      0 ≤ HASH 6 example_state.lru.bucket_count) :=
  hash_index_bounds example_state.lru 6 (by decide) (by decide)

/-- C20: for every well-formed cache with `list_count < list_limit` and every allocated entry
`e` outside the recency list, with `next` and `prev` `NULL` and a key that is not negative,
`lru_cache_push` of `e` returns `LRU_SUCCESS` and `lru_cache_search` of the key of `e` then
returns `e` itself, with its key and value, whatever older entries have the same key; every
entry that was in the recency list or in a bucket chain is still there after the push and
after the search, with the same key and value. -/
theorem push_then_search_returns_new_entry (s : State) (a : Nat) (e : lru_entry_t)
    (hwf : WellFormed s) (hlt : s.lru.list_count < s.lru.list_limit)
    (he : load s.mem (some a) = some e) (hn : e.next = none) (hp : e.prev = none)
    (hnot : a ∉ recency s) (hkey : 0 ≤ e.key) :
    ∃ s1 s2, lru_cache_push s (some a) = some (LRU_SUCCESS, s1) ∧
      lru_cache_search s1 e.key = some (some a, s2) ∧
      key_at s2 a = e.key ∧ value_at s2 a = e.value ∧
      recency s1 = a :: recency s ∧ recency s2 = a :: recency s ∧
      (∀ i c, c ∈ chain_of s i → c ∈ chain_of s1 i ∧ c ∈ chain_of s2 i) ∧
      (∀ c ∈ recency s, key_at s2 c = key_at s c ∧ value_at s2 c = value_at s c) := by
  obtain ⟨L, C, h⟩ := hwf
  rw [h.recency_eq] at hnot ⊢
  have hk0 : 0 ≤ HASH e.key s.lru.bucket_count := Int.tmod_nonneg _ hkey
  obtain ⟨i, hidx⟩ := bucket_index_of_nonneg h.bc_pos h.bc_len hk0
  obtain ⟨s1, hpush, hwf1, hlc1, hll1, hbc1, hbl1, hlen1, hk1, hh1⟩ :=
    lru_cache_push_spec h he hn hp hidx hnot hlt
  have hka1 : key_at s1 a = e.key := by rw [(hk1.key_at he).1, key_at_eq he]
  have hidx1 : bucket_index s1.lru e.key = some i := by
    rw [bucket_index_congr _ hbc1 hbl1]; exact hidx
  have hsplit : (fun j => if j = i then a :: C i else C j) i = [] ++ a :: C i := by simp
  obtain ⟨s2, hsearch, hwf2, hlc2, hll2, hbc2, hbl2, hlen2, hk2, hh2⟩ :=
    lru_cache_search_hit_first hwf1 (by rw [hlc1, hll1]; omega) hidx1 hsplit
      (fun c hc => by cases hc) hka1
  have hk12 := hk1.trans hk2
  have hnd : (a :: C i).Nodup := by
    have := (hwf1.chains i).nodup
    simpa using this
  have hnotC : a ∉ C i := (List.nodup_cons.mp hnd).1
  refine ⟨s1, s2, hpush, hsearch, ?_, ?_, hwf1.recency_eq, ?_, ?_, ?_⟩
  · rw [(hk12.key_at he).1, key_at_eq he]
  · rw [(hk12.key_at he).2, value_at_eq he]
  · rw [hwf2.recency_eq]; simp
  · intro j c hc
    rw [h.chain_of_eq] at hc
    rw [hwf1.chain_of_eq, hwf2.chain_of_eq]
    by_cases hj : j = i
    · subst hj
      simp [hc]
    · simp [hj, hc]
  · intro c hc
    obtain ⟨ec, hec⟩ := h.allocated hc
    exact hk12.key_at hec

theorem push_then_search_returns_new_entry_witness :
    ∃ s1 s2, lru_cache_push example_duplicate (some 1) = some (LRU_SUCCESS, s1) ∧
      lru_cache_search s1 1 = some (some 1, s2) ∧
      key_at s2 1 = 1 ∧ value_at s2 1 = 99 ∧
      recency s1 = 1 :: recency example_duplicate ∧
      recency s2 = 1 :: recency example_duplicate ∧
      (∀ i c, c ∈ chain_of example_duplicate i → c ∈ chain_of s1 i ∧ c ∈ chain_of s2 i) ∧
      (∀ c ∈ recency example_duplicate,
        key_at s2 c = key_at example_duplicate c ∧
        value_at s2 c = value_at example_duplicate c) :=
  push_then_search_returns_new_entry example_duplicate 1
    { key := 1, value := 99, next := none, prev := none, chain := none }
    example_duplicate_wellFormed (by decide) rfl rfl rfl (by decide) (by decide)

end LRU
